import Mathlib

/-!
# onnx2ncnn: graph lowering

A shallow embedding of `tools/onnx/onnx2ncnn.cpp`: the tensor accessors, the
attribute readers, the preparatory pass over the graph (weight map, reference
counts, blob names, header counts) and the emission pass (layer lines, split
layers, weight stream).

Conventions of the embedding.

* `std::map<std::string, int>` is an association list with unique keys in
  insertion order (`mfind`, `mset`); the program never depends on the
  iteration order of a map, only on lookups and on `size()`.
* `std::set<std::string>` is a duplicate-free list (`set_insert`).
* A float is its IEEE-754 binary32 bit pattern (`F32`); the byte stream holds
  its four little-endian bytes. Float addition is a parameter `fadd`.
* A line of the param file is kept in parsed form (`Layer`); a blob name with a
  split suffix is kept as the pair of the original name and the index
  (`BlobRef`), `BlobRef.render` gives the printed name.
* Reading a repeated protobuf field out of range (`node.input(1)` on a node
  with one input, `graph.initializer(j)`, `W.dims(0)`, `node.output(0)`) and
  signed overflow are undefined behaviour in the program: the embedding
  returns `none` there.
* Container sizes and reference counts are `Nat`/`Int` without wrap-around:
  the parser limits a model to `INT_MAX` bytes, so none of them reaches 2^31.
-/

namespace Onnx2Ncnn

/-! ## Data model -/

/-- A `float`, as its IEEE-754 binary32 bit pattern. -/
structure F32 where
  bits : Nat
deriving DecidableEq, Repr

/-- The four bytes of a float in memory (little-endian host). -/
def F32.bytes (x : F32) : List Nat :=
  [x.bits % 256, x.bits / 256 % 256, x.bits / 65536 % 256, x.bits / 16777216 % 256]

/-- The float stored in four consecutive bytes. -/
def F32.ofBytes (b0 b1 b2 b3 : Nat) : F32 :=
  ⟨b0 + 256 * b1 + 65536 * b2 + 16777216 * b3⟩

/-- The literal `1.f`. -/
def F32.one : F32 := ⟨0x3F800000⟩

/-- The literal `0.5f`. -/
def F32.half : F32 := ⟨0x3F000000⟩

/-- The literal `1e-5f`. -/
def F32.eps_default : F32 := ⟨0x3727C5AC⟩

/-- Message `onnx::TensorProto` (the fields the converter reads); `raw_data` is
`none` when `has_raw_data()` is false. -/
structure TensorProto where
  name : String
  dims : List Int
  data_type : Int
  float_data : List F32
  raw_data : Option (List Nat)
deriving DecidableEq, Repr

/-- Message `onnx::AttributeProto`. -/
structure AttributeProto where
  name : String
  type : Int
  f : F32
  i : Int
  s : String
  ints : List Int
deriving DecidableEq, Repr

/-- Message `onnx::NodeProto`; `attrs` is its repeated field `attribute`. -/
structure NodeProto where
  op_type : String
  name : String
  input : List String
  output : List String
  attrs : List AttributeProto
deriving DecidableEq, Repr

/-- Message `onnx::GraphProto`; `input` holds the names of the declared inputs. -/
structure GraphProto where
  node : List NodeProto
  initializer : List TensorProto
  input : List String
deriving DecidableEq, Repr

/-! ## Maps and sets -/

/-- Lookup in a `std::map` (`find`). -/
def mfind {β : Type} : List (String × β) → String → Option β
  | [], _ => none
  | (k', v) :: m, k => if k' = k then some v else mfind m k

/-- Assignment `m[k] = v` in a `std::map`. -/
def mset {β : Type} : List (String × β) → String → β → List (String × β)
  | [], k, v => [(k, v)]
  | (k', v') :: m, k, v => if k' = k then (k', v) :: m else (k', v') :: mset m k v

/-- Test `m.find(k) != m.end()`. -/
def mhas {β : Type} (m : List (String × β)) (k : String) : Bool :=
  (mfind m k).isSome

/-- Insertion in a `std::set`. -/
def set_insert (s : List String) (x : String) : List String :=
  if x ∈ s then s else s ++ [x]

/-! ## Attribute readers and tensor accessors -/

/-- Conversion of a 64-bit protobuf integer to `int`. -/
def toInt32 (x : Int) : Int :=
  (x + 2147483648) % 4294967296 - 2147483648

/-- Function `get_node_attr_ai`. -/
def get_node_attr_ai (node : NodeProto) (key : String) : List Int :=
  match node.attrs.find? (fun attr => attr.name == key) with
  | some attr => attr.ints.map toInt32
  | none => []

/-- Function `get_node_attr_i`. -/
def get_node_attr_i (node : NodeProto) (key : String) (dflt : Int) : Int :=
  match node.attrs.find? (fun attr => attr.name == key) with
  | some attr => toInt32 attr.i
  | none => dflt

/-- Function `get_node_attr_f`. -/
def get_node_attr_f (node : NodeProto) (key : String) (dflt : F32) : F32 :=
  match node.attrs.find? (fun attr => attr.name == key) with
  | some attr => attr.f
  | none => dflt

/-- Function `get_tensor_proto_data_size`. -/
def get_tensor_proto_data_size (tp : TensorProto) : Nat :=
  match tp.raw_data with
  | some raw_data => raw_data.length / 4
  | none => if tp.data_type = 1 then tp.float_data.length else 0

/-- Function `fwrite_tensor_proto_data`: the stream `bp` after the call. -/
def fwrite_tensor_proto_data (tp : TensorProto) (bp : List Nat) : List Nat :=
  let size := get_tensor_proto_data_size tp
  match tp.raw_data with
  | some raw_data => bp ++ raw_data.take (4 * size)
  | none =>
    if tp.data_type = 1 then bp ++ (tp.float_data.take size).flatMap F32.bytes
    else bp

/-- The float `v[j]` read by the batch-normalization loop, where `v` points into
the raw bytes when there are some and into the float list otherwise. -/
def tensor_float_at (tp : TensorProto) (j : Nat) : F32 :=
  match tp.raw_data with
  | some raw_data =>
    F32.ofBytes (raw_data.getD (4 * j) 0) (raw_data.getD (4 * j + 1) 0)
      (raw_data.getD (4 * j + 2) 0) (raw_data.getD (4 * j + 3) 0)
  | none => tp.float_data.getD j ⟨0⟩

/-! ## The two artifacts -/

/-- A blob name on a layer line: the original name and, when the emitter
appended a suffix `_splitncnn_<k>`, the index `k`. -/
structure BlobRef where
  base : String
  split : Option Int
deriving DecidableEq, Repr

/-- The name as printed. -/
def BlobRef.render (r : BlobRef) : String :=
  match r.split with
  | some k => r.base ++ "_splitncnn_" ++ toString k
  | none => r.base

/-- The value of a param: printed with `%d` or with `%f`. -/
inductive PVal where
  | int (v : Int)
  | float (v : F32)
deriving DecidableEq, Repr

/-- A param ` key=value` of a layer line. -/
structure Param where
  key : Nat
  val : PVal
deriving DecidableEq, Repr

/-- A layer line: type, name, declared input and output counts, the input and
output names, the params. -/
structure Layer where
  type : String
  name : String
  input_size : Int
  output_size : Int
  inputs : List BlobRef
  outputs : List BlobRef
  params : List Param
deriving DecidableEq, Repr

/-- A line of the param file after the header, tagged by the statement that
printed it: an `Input` line, the line of a node, a `Split` line. -/
inductive Line where
  | input (l : Layer)
  | node (l : Layer)
  | split (l : Layer)
deriving DecidableEq, Repr

/-- A message on `stderr`. -/
inductive Diag where
  | unsupported_transpose
  | attr_f (name : String) (f : F32)
  | attr_i (name : String) (i : Int)
  | attr_s (name : String) (s : String)
  | attr_other (name : String) (type : Int)
deriving DecidableEq, Repr

/-! ## Per-operator lowering -/

/-- A signed 32-bit result; overflow is undefined. -/
def checked_int (x : Int) : Option Int :=
  if -2147483648 ≤ x ∧ x ≤ 2147483647 then some x else none

/-- Expression `weight_nodes[k]` read as an rvalue: `operator[]` inserts the
key with value 0 when it is absent. -/
def weight_index (weight_nodes : List (String × Nat)) (k : String) :
    Nat × List (String × Nat) :=
  match mfind weight_nodes k with
  | some j => (j, weight_nodes)
  | none => (0, mset weight_nodes k 0)

/-- What the second `if`/`else if` chain of the node loop does for one node:
the params printed, the stream, the weight map and the messages after it. -/
structure Lowered where
  params : List Param
  bp : List Nat
  weight_nodes : List (String × Nat)
  diag : List Diag
deriving DecidableEq, Repr

/-- Params of a one- or two-element attribute list: `key=v[0]`, or `key=v[1]`
then `key+10=v[0]`. -/
def pair_params (key : Nat) (v : List Int) : List Param :=
  if v.length = 1 then [⟨key, .int (v.getD 0 0)⟩]
  else if v.length = 2 then [⟨key, .int (v.getD 1 0)⟩, ⟨key + 10, .int (v.getD 0 0)⟩]
  else []

/-- Params of the `pads` attribute list. -/
def pads_params (key : Nat) (pads : List Int) : List Param :=
  if pads.length = 1 then [⟨key, .int (pads.getD 0 0)⟩]
  else if pads.length = 2 then
    [⟨key, .int (pads.getD 1 0)⟩, ⟨key + 10, .int (pads.getD 0 0)⟩]
  else if pads.length = 4 then
    [⟨key, .int (pads.getD 1 0)⟩, ⟨key + 10, .int (pads.getD 0 0)⟩]
  else []

/-- Branch `AveragePool` / `MaxPool`. -/
def lower_pool (node : NodeProto) : List Param :=
  let kernel_shape := get_node_attr_ai node "kernel_shape"
  let strides := get_node_attr_ai node "strides"
  let pads := get_node_attr_ai node "pads"
  let pool : Int := if node.op_type = "AveragePool" then 1 else 0
  let pad_mode : Int := 1
  [⟨0, .int pool⟩] ++ pair_params 1 kernel_shape ++ pair_params 2 strides
    ++ pads_params 3 pads ++ [⟨5, .int pad_mode⟩]

/-- The bytes of the loop that writes `v[j] + epsilon` for every element. -/
def var_eps_bytes (fadd : F32 → F32 → F32) (var : TensorProto) (epsilon : F32) : List Nat :=
  (List.range (get_tensor_proto_data_size var)).flatMap
    (fun j => (fadd (tensor_float_at var j) epsilon).bytes)

/-- Branch `BatchNormalization`. -/
def lower_batchnorm (fadd : F32 → F32 → F32) (graph : GraphProto)
    (weight_nodes : List (String × Nat)) (bp : List Nat) (node : NodeProto) :
    Option Lowered := do
  let epsilon := get_node_attr_f node "epsilon" F32.eps_default
  let w1 := weight_index weight_nodes (← node.input[1]?)
  let scale ← graph.initializer[w1.1]?
  let w2 := weight_index w1.2 (← node.input[2]?)
  let B ← graph.initializer[w2.1]?
  let w3 := weight_index w2.2 (← node.input[3]?)
  let mean ← graph.initializer[w3.1]?
  let w4 := weight_index w3.2 (← node.input[4]?)
  let var ← graph.initializer[w4.1]?
  let bp := fwrite_tensor_proto_data scale bp
  let bp := fwrite_tensor_proto_data mean bp
  let bp := bp ++ var_eps_bytes fadd var epsilon
  let bp := fwrite_tensor_proto_data B bp
  some ⟨[⟨0, .int (get_tensor_proto_data_size scale)⟩], bp, w4.2, []⟩

/-- Branch `Conv`. -/
def lower_conv (graph : GraphProto) (weight_nodes : List (String × Nat)) (bp : List Nat)
    (node : NodeProto) : Option Lowered := do
  let w1 := weight_index weight_nodes (← node.input[1]?)
  let W ← graph.initializer[w1.1]?
  let num_filter := toInt32 (← W.dims[0]?)
  let has_bias : Int := if node.input.length = 3 then 1 else 0
  let kernel_shape := get_node_attr_ai node "kernel_shape"
  let dilations := get_node_attr_ai node "dilations"
  let strides := get_node_attr_ai node "strides"
  let pads := get_node_attr_ai node "pads"
  let group := get_node_attr_i node "group" 1
  let params : List Param :=
    [⟨0, .int num_filter⟩] ++ pair_params 1 kernel_shape ++ pair_params 2 dilations
      ++ pair_params 3 strides ++ pads_params 4 pads
      ++ [⟨5, .int has_bias⟩, ⟨6, .int (get_tensor_proto_data_size W)⟩]
      ++ (if group > 1 then [⟨7, .int group⟩] else [])
  let bp := bp ++ [0, 0, 0, 0]
  let bp := fwrite_tensor_proto_data W bp
  if has_bias ≠ 0 then
    let w2 := weight_index w1.2 (← node.input[2]?)
    let B ← graph.initializer[w2.1]?
    some ⟨params, fwrite_tensor_proto_data B bp, w2.2, []⟩
  else
    some ⟨params, bp, w1.2, []⟩

/-- Branch `Gemm`. -/
def lower_gemm (graph : GraphProto) (weight_nodes : List (String × Nat)) (bp : List Nat)
    (node : NodeProto) : Option Lowered := do
  let alpha := get_node_attr_f node "alpha" F32.one
  let beta := get_node_attr_f node "beta" F32.one
  let broadcast := get_node_attr_i node "broadcast" 0
  let transA := get_node_attr_i node "transA" 0
  let transB := get_node_attr_i node "transB" 0
  if alpha = F32.one ∧ beta = F32.one then
    if transA = 0 ∧ transB = 1 ∧ broadcast = 1 then
      let w1 := weight_index weight_nodes (← node.input[1]?)
      let B ← graph.initializer[w1.1]?
      let w2 := weight_index w1.2 (← node.input[2]?)
      let C ← graph.initializer[w2.1]?
      let bp := fwrite_tensor_proto_data B bp
      let bp := fwrite_tensor_proto_data C bp
      some ⟨[], bp, w2.2, []⟩
    else some ⟨[], bp, weight_nodes, []⟩
  else some ⟨[], bp, weight_nodes, []⟩

/-- Branch `LRN`. -/
def lower_lrn (node : NodeProto) : List Param :=
  let alpha := get_node_attr_f node "alpha" F32.one
  let beta := get_node_attr_f node "beta" F32.half
  let size := get_node_attr_i node "size" 1
  let norm_region : Int := 0
  [⟨0, .int norm_region⟩, ⟨1, .int size⟩, ⟨2, .float alpha⟩, ⟨3, .float beta⟩]

/-- Branch `Reshape` (of a node that is not skipped). -/
def lower_reshape (node : NodeProto) : Option (List Param) := do
  let shape := get_node_attr_ai node "shape"
  if shape.length = 1 then
    some [⟨0, .int (shape.getD 0 0)⟩]
  else if shape.length = 2 then
    some [⟨0, .int (shape.getD 1 0)⟩]
  else if shape.length = 3 then
    some [⟨0, .int (shape.getD 2 0)⟩, ⟨1, .int (shape.getD 1 0)⟩]
  else if shape.length = 4 then
    some [⟨0, .int (shape.getD 3 0)⟩, ⟨1, .int (shape.getD 2 0)⟩, ⟨2, .int (shape.getD 1 0)⟩]
  else if shape.length = 5 then
    let p ← checked_int (shape.getD 4 0 * shape.getD 3 0)
    some [⟨0, .int p⟩, ⟨1, .int (shape.getD 2 0)⟩, ⟨2, .int (shape.getD 1 0)⟩]
  else some []

/-- Branch `Transpose`: the params and the messages. -/
def lower_transpose (node : NodeProto) : List Param × List Diag :=
  let perm := get_node_attr_ai node "perm"
  let p := fun (j : Nat) => perm.getD j 0
  if perm.length = 4 then
    if p 1 = 1 ∧ p 2 = 2 ∧ p 3 = 3 then ([⟨0, .int 0⟩], [])
    else if p 1 = 1 ∧ p 2 = 3 ∧ p 3 = 2 then ([⟨0, .int 1⟩], [])
    else if p 1 = 2 ∧ p 2 = 1 ∧ p 3 = 3 then ([⟨0, .int 2⟩], [])
    else if p 1 = 2 ∧ p 2 = 3 ∧ p 3 = 1 then ([⟨0, .int 3⟩], [])
    else if p 1 = 3 ∧ p 2 = 1 ∧ p 3 = 2 then ([⟨0, .int 4⟩], [])
    else if p 1 = 3 ∧ p 2 = 2 ∧ p 3 = 1 then ([⟨0, .int 5⟩], [])
    else ([], [])
  else if perm.length = 5 then
    if p 1 = 1 ∧ p 2 = 2 ∧ p 3 = 3 ∧ p 4 = 4 then ([⟨0, .int 0⟩], [])
    else if p 1 = 1 ∧ p 2 = 3 ∧ p 3 = 4 ∧ p 4 = 2 then ([⟨0, .int 1⟩], [])
    else if p 1 = 2 ∧ p 2 = 1 ∧ p 3 = 3 ∧ p 4 = 4 then ([⟨0, .int 2⟩], [])
    else if p 1 = 2 ∧ p 2 = 3 ∧ p 3 = 4 ∧ p 4 = 1 then ([⟨0, .int 3⟩], [])
    else if p 1 = 3 ∧ p 2 = 4 ∧ p 3 = 1 ∧ p 4 = 2 then ([⟨0, .int 4⟩], [])
    else if p 1 = 3 ∧ p 2 = 4 ∧ p 3 = 2 ∧ p 4 = 1 then ([⟨0, .int 5⟩], [])
    else ([], [Diag.unsupported_transpose])
  else ([], [])

/-- The message printed for an attribute of an operator without a branch. -/
def attr_diag (attr : AttributeProto) : Diag :=
  if attr.type = 1 then .attr_f attr.name attr.f
  else if attr.type = 2 then .attr_i attr.name (toInt32 attr.i)
  else if attr.type = 3 then .attr_s attr.name attr.s
  else .attr_other attr.name attr.type

/-- The second `if`/`else if` chain of the node loop (op specific params and
weights). -/
def lower (fadd : F32 → F32 → F32) (graph : GraphProto)
    (weight_nodes : List (String × Nat)) (bp : List Nat) (node : NodeProto) :
    Option Lowered :=
  let op := node.op_type
  if op = "AveragePool" ∨ op = "MaxPool" then
    some ⟨lower_pool node, bp, weight_nodes, []⟩
  else if op = "BatchNormalization" then
    lower_batchnorm fadd graph weight_nodes bp node
  else if op = "Concat" then
    (checked_int (get_node_attr_i node "axis" 1 - 1)).map
      (fun a => ⟨[⟨0, .int a⟩], bp, weight_nodes, []⟩)
  else if op = "Conv" then
    lower_conv graph weight_nodes bp node
  else if op = "Dropout" then
    some ⟨[], bp, weight_nodes, []⟩
  else if op = "Gemm" then
    lower_gemm graph weight_nodes bp node
  else if op = "GlobalAveragePool" then
    some ⟨[⟨0, .int 1⟩, ⟨4, .int 1⟩], bp, weight_nodes, []⟩
  else if op = "GlobalMaxPool" then
    some ⟨[⟨0, .int 0⟩, ⟨4, .int 1⟩], bp, weight_nodes, []⟩
  else if op = "LRN" then
    some ⟨lower_lrn node, bp, weight_nodes, []⟩
  else if op = "Reshape" then
    (lower_reshape node).map (fun ps => ⟨ps, bp, weight_nodes, []⟩)
  else if op = "Softmax" then
    (checked_int (get_node_attr_i node "axis" 1 - 1)).map
      (fun a => ⟨[⟨0, .int a⟩], bp, weight_nodes, []⟩)
  else if op = "Transpose" then
    some ⟨(lower_transpose node).1, bp, weight_nodes, (lower_transpose node).2⟩
  else
    some ⟨[], bp, weight_nodes, node.attrs.map attr_diag⟩

/-- The first `if`/`else if` chain of the node loop: the layer type printed. -/
def layer_type (node : NodeProto) : String :=
  let op := node.op_type
  if op = "AveragePool" ∨ op = "MaxPool" then "Pooling"
  else if op = "BatchNormalization" then "BatchNorm"
  else if op = "Concat" then "Concat"
  else if op = "Conv" then
    if get_node_attr_i node "group" 1 > 1 then "ConvolutionDepthWise" else "Convolution"
  else if op = "Dropout" then "Dropout"
  else if op = "Gemm" then "Innerproduct"
  else if op = "GlobalAveragePool" then "Pooling"
  else if op = "GlobalMaxPool" then "Pooling"
  else if op = "LRN" then "LRN"
  else if op = "Relu" then "ReLU"
  else if op = "Reshape" then "Reshape"
  else if op = "Softmax" then "Softmax"
  else if op = "Transpose" then "Permute"
  else op

/-! ## The preparatory pass -/

/-- The name of a node: `node.name()`, or `node.output(0)` when that is empty. -/
def node_name (node : NodeProto) : Option String :=
  if node.name = "" then node.output[0]? else some node.name

/-- The test that skips a node in both passes: a `Reshape` with exactly one
input, and that input is a key of the weight map. -/
def is_weight_reshape (weight_nodes : List (String × Nat)) (node : NodeProto) : Bool :=
  node.op_type = "Reshape" && node.input.length = 1
    && mhas weight_nodes (node.input.getD 0 "")

/-- Statement `weight_nodes[name] = weight_nodes[input_name]`. -/
def register_alias (weight_nodes : List (String × Nat)) (name input_name : String) :
    List (String × Nat) :=
  mset weight_nodes name ((mfind weight_nodes input_name).getD 0)

/-- The variables of the first pass. -/
structure Prep where
  weight_nodes : List (String × Nat)
  node_reference : List (String × Int)
  blob_names : List String
deriving DecidableEq, Repr

/-- The loop over the initializers: `weight_nodes[initializer.name()] = j`. -/
def init_weights : List (String × Nat) → Nat → List TensorProto → List (String × Nat)
  | weight_nodes, _, [] => weight_nodes
  | weight_nodes, j, t :: ts => init_weights (mset weight_nodes t.name j) (j + 1) ts

/-- One turn of the loop over the inputs of a node in the first pass. -/
def prep_input (weight_nodes : List (String × Nat))
    (st : List (String × Int) × List String) (input_name : String) :
    List (String × Int) × List String :=
  if mhas weight_nodes input_name then st
  else
    match mfind st.1 input_name with
    | none => (mset st.1 input_name 1, set_insert st.2 input_name)
    | some c => (mset st.1 input_name (c + 1), set_insert st.2 input_name)

/-- One turn of the loop over the nodes in the first pass. -/
def prep_node (st : Prep) (node : NodeProto) : Option Prep := do
  let name ← node_name node
  if is_weight_reshape st.weight_nodes node then
    some { st with
      weight_nodes := register_alias st.weight_nodes name (node.input.getD 0 "") }
  else
    let r := node.input.foldl (prep_input st.weight_nodes) (st.node_reference, st.blob_names)
    some { st with node_reference := r.1, blob_names := node.output.foldl set_insert r.2 }

/-- The loop over the nodes in the first pass. -/
def prep_nodes : Prep → List NodeProto → Option Prep
  | st, [] => some st
  | st, node :: nodes => (prep_node st node).bind (fun st' => prep_nodes st' nodes)

/-- The loop over the declared inputs: `input_node_count` and the blob names. -/
def prep_graph_inputs (weight_nodes : List (String × Nat)) :
    Nat × List String → List String → Nat × List String
  | st, [] => st
  | st, input_name :: rest =>
    if mhas weight_nodes input_name then prep_graph_inputs weight_nodes st rest
    else prep_graph_inputs weight_nodes (st.1 + 1, set_insert st.2 input_name) rest

/-- The loop that erases the entries equal to one and sums the others:
the map left and `splitncnn_blob_count`. -/
def prune_references : List (String × Int) → List (String × Int) × Int
  | [] => ([], 0)
  | e :: rest =>
    let r := prune_references rest
    if e.2 = 1 then r else (e :: r.1, e.2 + r.2)

/-- What the program knows when it prints the header. -/
structure Header where
  layer_count : Int
  blob_count : Int
  weight_nodes : List (String × Nat)
  node_reference : List (String × Int)
  blob_names : List String
  input_node_count : Nat
deriving DecidableEq, Repr

/-- The state of the first pass before the loop over the nodes. -/
def prep_start (graph : GraphProto) : Prep :=
  ⟨init_weights [] 0 graph.initializer, [], []⟩

/-- The state of the first pass after the loop over the nodes. -/
def prep_pass (graph : GraphProto) : Option Prep :=
  prep_nodes (prep_start graph) graph.node

/-- Everything up to the header line. -/
def header (graph : GraphProto) : Option Header := do
  let st ← prep_pass graph
  let gi := prep_graph_inputs st.weight_nodes (0, st.blob_names) graph.input
  let pr := prune_references st.node_reference
  some {
    layer_count := (graph.node.length : Int) + gi.1 + pr.1.length
      + graph.initializer.length - st.weight_nodes.length
    blob_count := (gi.2.length : Int) + pr.2
    weight_nodes := st.weight_nodes
    node_reference := pr.1
    blob_names := gi.2
    input_node_count := gi.1 }

/-! ## The emission pass -/

/-- The variables of the second pass: the two maps, the split counter, the
lines printed after the header, the weight stream, the messages. -/
structure Emit where
  weight_nodes : List (String × Nat)
  node_reference : List (String × Int)
  internal_split : Nat
  pp : List Line
  bp : List Nat
  diag : List Diag
deriving DecidableEq, Repr

/-- The loop that prints one `Input` line per declared input that is not a
weight. -/
def emit_graph_inputs (weight_nodes : List (String × Nat)) : List String → List Line
  | [] => []
  | input_name :: rest =>
    if mhas weight_nodes input_name then emit_graph_inputs weight_nodes rest
    else Line.input ⟨"Input", input_name, 0, 1, [], [⟨input_name, none⟩], []⟩
      :: emit_graph_inputs weight_nodes rest

/-- The loop that computes `input_size`. -/
def count_inputs (weight_nodes : List (String × Nat)) (node : NodeProto) : Int :=
  node.input.foldl (fun n input_name => if mhas weight_nodes input_name then n - 1 else n)
    (node.input.length : Int)

/-- The loop that prints the input names of a node, taking a split index for
every name in `node_reference`. -/
def emit_inputs (weight_nodes : List (String × Nat)) :
    List (String × Int) → List String → List (String × Int) × List BlobRef
  | node_reference, [] => (node_reference, [])
  | node_reference, input_name :: rest =>
    if mhas weight_nodes input_name then emit_inputs weight_nodes node_reference rest
    else
      match mfind node_reference input_name with
      | some c =>
        let refidx := c - 1
        let r := emit_inputs weight_nodes (mset node_reference input_name refidx) rest
        (r.1, ⟨input_name, some refidx⟩ :: r.2)
      | none =>
        let r := emit_inputs weight_nodes node_reference rest
        (r.1, ⟨input_name, none⟩ :: r.2)

/-- The output names of a `Split` line. -/
def split_outputs (output_name : String) (refcount : Int) : List BlobRef :=
  (List.range refcount.toNat).map (fun (k : Nat) => ⟨output_name, some (k : Int)⟩)

/-- The loop over the outputs of a node that prints the `Split` lines. -/
def emit_splits (node_reference : List (String × Int)) :
    Nat → List String → Nat × List Line
  | internal_split, [] => (internal_split, [])
  | internal_split, output_name :: rest =>
    match mfind node_reference output_name with
    | some refcount =>
      if refcount > 1 then
        let r := emit_splits node_reference (internal_split + 1) rest
        (r.1, Line.split ⟨"Split", "splitncnn_" ++ toString internal_split, 1, refcount,
            [⟨output_name, none⟩], split_outputs output_name refcount, []⟩ :: r.2)
      else emit_splits node_reference internal_split rest
    | none => emit_splits node_reference internal_split rest

/-- One turn of the loop over the nodes in the second pass. -/
def emit_node (fadd : F32 → F32 → F32) (graph : GraphProto) (st : Emit)
    (node : NodeProto) : Option Emit := do
  let name ← node_name node
  let input_size := count_inputs st.weight_nodes node
  let output_size : Int := node.output.length
  if is_weight_reshape st.weight_nodes node then
    some { st with
      weight_nodes := register_alias st.weight_nodes name (node.input.getD 0 "") }
  else
    let ins := emit_inputs st.weight_nodes st.node_reference node.input
    let low ← lower fadd graph st.weight_nodes st.bp node
    let layer : Layer := ⟨layer_type node, name, input_size, output_size, ins.2,
      node.output.map (fun o => ⟨o, none⟩), low.params⟩
    let sp := emit_splits ins.1 st.internal_split node.output
    some {
      weight_nodes := low.weight_nodes
      node_reference := ins.1
      internal_split := sp.1
      pp := st.pp ++ Line.node layer :: sp.2
      bp := low.bp
      diag := st.diag ++ low.diag }

/-- The loop over the nodes in the second pass. -/
def emit_nodes (fadd : F32 → F32 → F32) (graph : GraphProto) :
    Emit → List NodeProto → Option Emit
  | st, [] => some st
  | st, node :: nodes =>
    (emit_node fadd graph st node).bind (fun st' => emit_nodes fadd graph st' nodes)

/-- The state of the second pass before the loop over the nodes. -/
def emit_start (graph : GraphProto) (h : Header) : Emit :=
  ⟨h.weight_nodes, h.node_reference, 0, emit_graph_inputs h.weight_nodes graph.input, [], []⟩

/-- The conversion: the header and the final state of the second pass. -/
def convert (fadd : F32 → F32 → F32) (graph : GraphProto) : Option (Header × Emit) := do
  let h ← header graph
  let st ← emit_nodes fadd graph (emit_start graph h) graph.node
  some (h, st)

/-! ## Sample graphs -/

/-- The number of binary digits of a natural number (0 for 0), for numbers
below `2 ^ fuel`. -/
def bit_length : Nat → Nat → Nat
  | 0, _ => 0
  | fuel + 1, n => if n = 0 then 0 else 1 + bit_length fuel (n / 2)

/-- The sign bit of a float. -/
def F32.sign (x : F32) : Nat := x.bits / 2147483648 % 2

/-- The biased exponent field of a float. -/
def F32.expo (x : F32) : Nat := x.bits / 8388608 % 256

/-- The fraction field of a float. -/
def F32.frac (x : F32) : Nat := x.bits % 8388608

/-- The significand of a finite float as an integer: the fraction, with the
hidden bit when the float is normal. -/
def F32.sig (x : F32) : Nat := if x.expo = 0 then x.frac else x.frac + 8388608

/-- The biased exponent of the last place of a finite float: its magnitude is
`sig * 2 ^ (scale - 150)`. -/
def F32.scale (x : F32) : Nat := if x.expo = 0 then 1 else x.expo

/-- The float nearest to `n * 2 ^ (q - 150)` with the given sign bit, ties to
even, for `n > 0` and `q >= 1`; infinity when the result overflows. -/
def F32.round (sign n q : Nat) : F32 :=
  let len := bit_length 512 n
  if len ≤ 24 then
    let k := min (24 - len) (q - 1)
    let m := n * 2 ^ k
    if m < 8388608 then ⟨sign * 2147483648 + m⟩
    else ⟨sign * 2147483648 + (q - k) * 8388608 + (m - 8388608)⟩
  else
    let sh := len - 24
    let m0 := n / 2 ^ sh
    let r := n % 2 ^ sh
    let half := 2 ^ (sh - 1)
    let m1 := if r > half ∨ (r = half ∧ m0 % 2 = 1) then m0 + 1 else m0
    let m2 := if m1 = 16777216 then 8388608 else m1
    let q2 := if m1 = 16777216 then q + sh + 1 else q + sh
    if q2 ≥ 255 then ⟨sign * 2147483648 + 2139095040⟩
    else ⟨sign * 2147483648 + q2 * 8388608 + (m2 - 8388608)⟩

/-- The signed significand of a finite float at scale `q`. -/
def F32.aligned (x : F32) (q : Nat) : Int :=
  let m : Int := (x.sig * 2 ^ (x.scale - q) : Nat)
  if x.sign = 1 then -m else m

/-- Float addition `a + b` on bit patterns: IEEE-754 binary32, round to
nearest, ties to even. A NaN result is the quiet NaN `0x7FC00000` (the
standard does not fix its sign and payload). -/
def fadd_bits (a b : F32) : F32 :=
  if a.expo = 255 ∨ b.expo = 255 then
    if (a.expo = 255 ∧ a.frac ≠ 0) ∨ (b.expo = 255 ∧ b.frac ≠ 0) then ⟨2143289344⟩
    else if a.expo = 255 ∧ b.expo = 255 ∧ a.sign ≠ b.sign then ⟨2143289344⟩
    else if a.expo = 255 then ⟨a.bits % 4294967296⟩ else ⟨b.bits % 4294967296⟩
  else
    let q := min a.scale b.scale
    let s := a.aligned q + b.aligned q
    if s = 0 then (if a.sign = 1 ∧ b.sign = 1 then ⟨2147483648⟩ else ⟨0⟩)
    else F32.round (if s < 0 then 1 else 0) s.natAbs q

/-- A node with no attribute and an empty name. -/
def mk_node (op : String) (input output : List String) : NodeProto :=
  ⟨op, "", input, output, []⟩

/-- A declared input `x` consumed by two nodes. -/
def graph_input_twice : GraphProto :=
  ⟨[mk_node "Relu" ["x"] ["y"], mk_node "Relu" ["x"] ["z"]], [], ["x"]⟩

/-- Whether a line is a `Split` line. -/
def Line.is_split : Line → Bool
  | .split _ => true
  | _ => false

/-- The layer of a line. -/
def Line.layer : Line → Layer
  | .input l => l
  | .node l => l
  | .split l => l

/-- Four floats for the examples. -/
def floats4 (a : Nat) : List F32 := [⟨a⟩, ⟨a + 1⟩, ⟨a + 2⟩, ⟨a + 3⟩]

/-- An attribute holding a list of integers. -/
def ints_attr (name : String) (v : List Int) : AttributeProto :=
  ⟨name, 7, ⟨0⟩, 0, "", v⟩

/-- A 3x3 convolution with stride 1, pad 1, group 1 and a bias. -/
def conv3x3_node : NodeProto :=
  ⟨"Conv", "", ["x", "W", "B"], ["y"],
    [ints_attr "kernel_shape" [3, 3], ints_attr "strides" [1, 1], ints_attr "pads" [1, 1],
     ⟨"group", 2, ⟨0⟩, 1, "", []⟩]⟩

/-- Two 3x3 filters over one channel. -/
def conv_W : TensorProto :=
  ⟨"W", [2, 1, 3, 3], 1, (List.range 18).map (fun k => ⟨k⟩), none⟩

/-- A bias for two filters. -/
def conv_B : TensorProto := ⟨"B", [2], 1, [⟨100⟩, ⟨101⟩], none⟩

/-- A graph around `conv3x3_node`. -/
def conv3x3_graph : GraphProto :=
  ⟨[conv3x3_node], [conv_W, conv_B], ["x", "W", "B"]⟩

/-- A batch normalization over four channels. -/
def bn_node : NodeProto :=
  ⟨"BatchNormalization", "", ["x", "scale", "bias", "mean", "var"], ["y"], []⟩

/-- The scale of `bn_node`. -/
def bn_scale : TensorProto := ⟨"scale", [4], 1, floats4 10, none⟩

/-- The bias of `bn_node`. -/
def bn_bias : TensorProto := ⟨"bias", [4], 1, floats4 20, none⟩

/-- The mean of `bn_node`. -/
def bn_mean : TensorProto := ⟨"mean", [4], 1, floats4 30, none⟩

/-- The variance of `bn_node`, stored as raw bytes. -/
def bn_var : TensorProto :=
  ⟨"var", [4], 1, [], some [1, 0, 0, 0, 2, 0, 0, 0, 3, 0, 0, 0, 4, 0, 0, 0]⟩

/-- A graph around `bn_node`. -/
def bn_graph : GraphProto :=
  ⟨[bn_node], [bn_scale, bn_bias, bn_mean, bn_var], ["x"]⟩

/-- The weight map of `bn_graph`. -/
def bn_weights : List (String × Nat) := [("scale", 0), ("bias", 1), ("mean", 2), ("var", 3)]

/-! ## What the claims say, in their own words -/

/-- Params of a kernel, dilation or stride list as the claim words it: a
2-element list `[h, w]` gives `key=w` then `key+10=h`, a 1-element list `[v]`
gives `key=v`, any other length gives nothing. -/
def spec_pair (key : Nat) : List Int → List Param
  | [v] => [⟨key, .int v⟩]
  | [h, w] => [⟨key, .int w⟩, ⟨key + 10, .int h⟩]
  | _ => []

/-- Params of a pad list as the claim words it: as `spec_pair`, and a 4-element
list gives only `key=pads[1]` and `key+10=pads[0]`. -/
def spec_pads (key : Nat) : List Int → List Param
  | [v] => [⟨key, .int v⟩]
  | [h, w] => [⟨key, .int w⟩, ⟨key + 10, .int h⟩]
  | [p0, p1, _, _] => [⟨key, .int p1⟩, ⟨key + 10, .int p0⟩]
  | _ => []

/-- The keys of a map. -/
def keys {β : Type} (m : List (String × β)) : List String := m.map Prod.fst

/-- The count a name has in `node_reference`, 0 when it is not a key. -/
def ref_count (node_reference : List (String × Int)) (a : String) : Int :=
  (mfind node_reference a).getD 0

/-- The number of input slots, over all the nodes, that name `a`. -/
def slot_count (a : String) (nodes : List NodeProto) : Nat :=
  (nodes.flatMap (fun node => node.input)).count a

/-- The input references to `a` on the node lines, in the order printed. -/
def node_input_refs (a : String) (pp : List Line) : List BlobRef :=
  (pp.flatMap (fun l => match l with
    | .node layer => layer.inputs
    | _ => [])).filter (fun r => r.base = a)

/-- The names registered by the reshape nodes that the first pass skips,
starting from state `st`. -/
def elided_names : Prep → List NodeProto → List String
  | _, [] => []
  | st, node :: nodes =>
    match prep_node st node with
    | none => []
    | some st' =>
      (if is_weight_reshape st.weight_nodes node then [(node_name node).getD ""] else [])
        ++ elided_names st' nodes

/-- The runtime value names the first pass meets, starting from state `st`: for
every node that is not skipped, its input names that are not weights when the
node is visited, and all its output names. -/
def runtime_names : Prep → List NodeProto → List String
  | _, [] => []
  | st, node :: nodes =>
    match prep_node st node with
    | none => []
    | some st' =>
      (if is_weight_reshape st.weight_nodes node then []
        else node.input.filter (fun x => !mhas st.weight_nodes x) ++ node.output)
        ++ runtime_names st' nodes

/-- A consumer of `a` placed before its producer, and two after. -/
def graph_consumer_first : GraphProto :=
  ⟨[mk_node "Relu" ["a"] ["b"], mk_node "Relu" ["z"] ["a"], mk_node "Relu" ["a"] ["c"],
    mk_node "Relu" ["a"] ["d"]], [], ["z"]⟩

/-- Three consumers of `a` after its producer. -/
def graph_three_consumers : GraphProto :=
  ⟨[mk_node "Relu" ["z"] ["a"], mk_node "Relu" ["a"] ["b"], mk_node "Relu" ["a"] ["c"],
    mk_node "Relu" ["a"] ["d"]], [], ["z"]⟩

/-- One node that lists `x` in two input slots. -/
def graph_square : GraphProto :=
  ⟨[mk_node "Relu" ["z"] ["x"], mk_node "Mul" ["x", "x"] ["y"]], [], ["z"]⟩

/-- A weight reshape whose node name is the name of its input. -/
def graph_alias_self : GraphProto :=
  ⟨[⟨"Reshape", "w", ["w"], ["o"], []⟩], [⟨"w", [4], 1, floats4 0, none⟩], ["w"]⟩

/-- Two weight reshapes; the name of the second node is the output name of the
first, which a convolution then takes as its weight. -/
def graph_alias_clash : GraphProto :=
  ⟨[⟨"Reshape", "", ["w0"], ["a"], []⟩, ⟨"Reshape", "a", ["w1"], ["b"], []⟩,
    ⟨"Conv", "", ["x", "a"], ["y"], []⟩],
   [⟨"w0", [4], 1, floats4 0, none⟩, ⟨"w1", [4], 1, floats4 10, none⟩], ["x", "w0", "w1"]⟩

/-- A weight reshape, then a convolution that takes its output as weight. -/
def graph_alias : GraphProto :=
  ⟨[⟨"Reshape", "", ["w0"], ["a"], []⟩, ⟨"Conv", "", ["x", "a"], ["y"], []⟩],
   [⟨"w0", [4], 1, floats4 0, none⟩], ["x", "w0"]⟩

/-- Map `w'` holds every entry of `w`. -/
def weights_le (w w' : List (String × Nat)) : Prop :=
  ∀ k v, mfind w k = some v → mfind w' k = some v

/-- A line on which no reference to `a` carries a split index and which is not a
`Split` line of `a`. -/
def line_untouched (a : String) (l : Line) : Prop :=
  (∀ r ∈ l.layer.inputs, r.base = a → r.split = none) ∧
  (∀ layer, l = Line.split layer → ∀ r ∈ layer.inputs ++ layer.outputs, r.base ≠ a)

/-- The names of the `Reshape` nodes with exactly one input. -/
def reshape_names (nodes : List NodeProto) : List String :=
  nodes.filterMap (fun node =>
    if node.op_type = "Reshape" ∧ node.input.length = 1 then node_name node else none)

/-- In map `w`, the name of reshape node `node`, when it is a key, is bound as
the input of the node is. -/
def alias_closed (w : List (String × Nat)) (node : NodeProto) : Prop :=
  ∀ name x, node.op_type = "Reshape" → node.input = [x] → node_name node = some name →
    mhas w name = true → mfind w name = mfind w x

/-- The keys of `w` are initializer names or names of reshape nodes of `done`,
and `w` is closed for the nodes of `done`. -/
def alias_inv (inits : List String) (done : List NodeProto) (w : List (String × Nat)) :
    Prop :=
  (∀ k, mhas w k = true → k ∈ inits ∨ k ∈ reshape_names done) ∧
  (∀ node ∈ done, alias_closed w node)

/-- Params of a reshape as the claim words them, by the length of the shape
list `s`. -/
def spec_reshape : List Int → List Param
  | [s0] => [⟨0, .int s0⟩]
  | [_, s1] => [⟨0, .int s1⟩]
  | [_, s1, s2] => [⟨0, .int s2⟩, ⟨1, .int s1⟩]
  | [_, s1, s2, s3] => [⟨0, .int s3⟩, ⟨1, .int s2⟩, ⟨2, .int s1⟩]
  | [_, s1, s2, s3, s4] => [⟨0, .int (s4 * s3)⟩, ⟨1, .int s2⟩, ⟨2, .int s1⟩]
  | _ => []

/-- The permutation table of the claim: the entries after the leading batch
axis, and the code of each. -/
def perm_table : List (List Int × Int) :=
  [([1, 2, 3], 0), ([1, 3, 2], 1), ([2, 1, 3], 2), ([2, 3, 1], 3), ([3, 1, 2], 4),
   ([3, 2, 1], 5)]

/-- An entry of the 4-element table with axis 3 replaced by the consecutive
pair 3, 4. -/
def expand_axis3 (t : List Int) : List Int :=
  t.flatMap (fun x => if x = 3 then [3, 4] else [x])

/-- The 5-element table: the 4-element table with every entry expanded. -/
def perm_table5 : List (List Int × Int) :=
  perm_table.map (fun e => (expand_axis3 e.1, e.2))

/-- The code a table gives to the entries `t` of a perm after the first one. -/
def table_code (table : List (List Int × Int)) (t : List Int) : Option Int :=
  (table.find? (fun e => t = e.1)).map (fun e => e.2)

/-- The param list that holds a permutation code, if there is one. -/
def code_params : Option Int → List Param
  | some c => [⟨0, .int c⟩]
  | none => []

/-- An average pooling with a 2x2 kernel, stride 2 and a 4-element pad list. -/
def pool_node : NodeProto :=
  ⟨"AveragePool", "", ["x"], ["y"],
    [ints_attr "kernel_shape" [2, 3], ints_attr "strides" [2], ints_attr "pads" [5, 6, 7, 8]]⟩

/-- A reshape to a 5-element shape. -/
def reshape5_node : NodeProto :=
  ⟨"Reshape", "", ["x"], ["y"], [ints_attr "shape" [1, 2, 3, 4, 5]]⟩

/-- A transpose that keeps the batch axis. -/
def transpose_node : NodeProto :=
  ⟨"Transpose", "", ["x"], ["y"], [ints_attr "perm" [0, 2, 3, 1]]⟩

/-- A transpose that moves the batch axis: a 4-element perm outside the table. -/
def transpose_batch_node : NodeProto :=
  ⟨"Transpose", "", ["x"], ["y"], [ints_attr "perm" [1, 0, 2, 3]]⟩

/-- A transpose that moves the batch axis: a 5-element perm outside the table. -/
def transpose_batch5_node : NodeProto :=
  ⟨"Transpose", "", ["x"], ["y"], [ints_attr "perm" [1, 0, 2, 3, 4]]⟩

/-- A fully connected layer in the supported configuration. -/
def gemm_node : NodeProto :=
  ⟨"Gemm", "", ["x", "W", "B"], ["y"],
    [⟨"transB", 2, ⟨0⟩, 1, "", []⟩, ⟨"broadcast", 2, ⟨0⟩, 1, "", []⟩]⟩

/-- A graph around `gemm_node`, with the constants of the convolution example. -/
def gemm_graph : GraphProto :=
  ⟨[gemm_node], [conv_W, conv_B], ["x", "W", "B"]⟩

/-- A tensor of complex numbers: no raw bytes, four floats in the float list. -/
def complex_tensor : TensorProto := ⟨"c", [2], 14, floats4 0, none⟩

/-- A weight of 64-bit integers, without raw bytes. -/
def int_W : TensorProto := ⟨"W", [2, 1, 3, 3], 7, [], none⟩

/-- A weight of 64-bit integers stored as raw bytes. -/
def int_raw_W : TensorProto := ⟨"W", [1], 7, [], some [1, 0, 0, 0, 0, 0, 0, 0, 9]⟩

/-- A convolution whose weight holds 64-bit integers. -/
def graph_int_weight : GraphProto :=
  ⟨[⟨"Conv", "", ["x", "W"], ["y"], []⟩], [int_W], ["x", "W"]⟩

/-- A convolution whose weight name `q` is not an initializer. -/
def graph_missing_weight : GraphProto :=
  ⟨[⟨"Conv", "", ["x", "q"], ["y"], []⟩], [⟨"w0", [4], 1, floats4 0, none⟩], ["x", "w0"]⟩

/-- The input positions at which the handler of a node looks a constant up by
name: weight and bias of `Conv`, scale, bias, mean and variance of
`BatchNormalization`, weight and bias of `Gemm` in the supported
configuration. -/
def lookup_positions (node : NodeProto) : List Nat :=
  if node.op_type = "Conv" then (if node.input.length = 3 then [1, 2] else [1])
  else if node.op_type = "BatchNormalization" then [1, 2, 3, 4]
  else if node.op_type = "Gemm" then
    (if get_node_attr_f node "alpha" F32.one = F32.one
        ∧ get_node_attr_f node "beta" F32.one = F32.one
        ∧ get_node_attr_i node "transA" 0 = 0 ∧ get_node_attr_i node "transB" 0 = 1
        ∧ get_node_attr_i node "broadcast" 0 = 1 then [1, 2] else [])
  else []

/-- The names a handler looks up. -/
def lookup_names (node : NodeProto) : List String :=
  (lookup_positions node).filterMap (fun i => node.input[i]?)

/-- Map `w` holds every entry of `w0`, and a key of `w` that is not a key of
`w0` has index 0. -/
def zero_ext (w0 w : List (String × Nat)) : Prop :=
  weights_le w0 w ∧ ∀ k, mfind w0 k = none → mfind w k = none ∨ mfind w k = some 0

/-- Whether no output of a node is named by an input slot of that node or of a
node before it; `seen` holds the input names of the nodes already passed. -/
def outputs_fresh : List String → List NodeProto → Bool
  | _, [] => true
  | seen, node :: nodes =>
    node.output.all (fun a => decide (a ∉ seen ++ node.input))
      && outputs_fresh (seen ++ node.input) nodes

/-- Whether every input of a node that is a key of the map `w` already is a key
of the weight map when the first pass, in state `st`, visits the node. -/
def constants_ready (w : List (String × Nat)) : Prep → List NodeProto → Bool
  | _, [] => true
  | st, node :: nodes =>
    node.input.all (fun x => !mhas w x || mhas st.weight_nodes x)
      && match prep_node st node with
        | none => true
        | some st' => constants_ready w st' nodes

/-- Whether the loop over the outputs prints a `Split` line for `o`. -/
def wants_split (node_reference : List (String × Int)) (o : String) : Bool :=
  match mfind node_reference o with
  | some refcount => decide (refcount > 1)
  | none => false

/-- A named weight reshape whose output, not its name, is consumed twice. -/
def graph_named_reshape : GraphProto :=
  ⟨[⟨"Reshape", "r", ["w"], ["a"], []⟩, mk_node "Relu" ["a"] ["b"],
    mk_node "Relu" ["a"] ["c"]], [⟨"w", [4], 1, floats4 0, none⟩], ["w"]⟩

/-- A reshape of `a` placed before the weight reshape that registers `a`. -/
def graph_late_alias : GraphProto :=
  ⟨[⟨"Reshape", "", ["a"], ["b"], []⟩, ⟨"Reshape", "", ["w"], ["a"], []⟩],
   [⟨"w", [4], 1, floats4 0, none⟩], ["w"]⟩

/-- A declared input, a convolution with a reshaped weight, and two consumers
of its output. -/
def graph_fanout : GraphProto :=
  ⟨[⟨"Reshape", "", ["w0"], ["wr"], []⟩, ⟨"Conv", "", ["x", "wr"], ["a"], []⟩,
    mk_node "Relu" ["a"] ["b"], mk_node "Dropout" ["a"] ["c"]],
   [⟨"w0", [4], 1, floats4 0, none⟩], ["x", "w0"]⟩

/-- The number of input slots that name `a` on the nodes the first pass, from
state `st`, does not skip, counted while `a` is not a key of the weight map. -/
def counted_slots (a : String) : Prep → List NodeProto → Nat
  | _, [] => 0
  | st, node :: nodes =>
    match prep_node st node with
    | none => 0
    | some st' =>
      (if is_weight_reshape st.weight_nodes node || mhas st.weight_nodes a then 0
        else node.input.count a)
        + counted_slots a st' nodes

/-- A declared input `a` with two consumers, then a weight reshape whose node
name is `a` too. -/
def graph_name_clash : GraphProto :=
  ⟨[mk_node "Relu" ["a"] ["b"], mk_node "Relu" ["a"] ["c"],
    ⟨"Reshape", "a", ["w"], ["d"], []⟩], [⟨"w", [4], 1, floats4 0, none⟩], ["a", "w"]⟩

/-- The counts declared on a line are the numbers of names written on it, and
a `Split` line declares one input and at least two outputs. -/
def counts_declared (l : Line) : Prop :=
  l.layer.input_size = l.layer.inputs.length ∧
  l.layer.output_size = l.layer.outputs.length ∧
  (∀ layer, l = Line.split layer → layer.input_size = 1 ∧ 2 ≤ layer.output_size)

/-- The attribute of `node` that carries the name `key`: the first one with that
name in the attribute list, and `none` when no attribute has it. -/
def attr_of (node : NodeProto) (key : String) : Option AttributeProto → Prop
  | some a => ∃ pre post, node.attrs = pre ++ a :: post ∧ a.name = key
      ∧ ∀ b ∈ pre, b.name ≠ key
  | none => ∀ b ∈ node.attrs, b.name ≠ key

/-- The integer list of an attribute, as `int`s; empty when there is none. -/
def attr_ints : Option AttributeProto → List Int
  | some a => a.ints.map toInt32
  | none => []

/-- The integer of an attribute, as an `int`; `dflt` when there is none. -/
def attr_int (dflt : Int) : Option AttributeProto → Int
  | some a => toInt32 a.i
  | none => dflt

/-- The float of an attribute; `dflt` when there is none. -/
def attr_float (dflt : F32) : Option AttributeProto → F32
  | some a => a.f
  | none => dflt

/-- The floats stored in a byte string, four bytes each; bytes left over at the
end are dropped. -/
def decode_floats : List Nat → List F32
  | b0 :: b1 :: b2 :: b3 :: rest => F32.ofBytes b0 b1 b2 b3 :: decode_floats rest
  | _ => []

/-- The elements of a tensor: the floats of its raw bytes when it has raw bytes,
its float list when it has none and its element type is float32, and none
otherwise. -/
def tensor_floats (tp : TensorProto) : List F32 :=
  match tp.raw_data with
  | some raw_data => decode_floats raw_data
  | none => if tp.data_type = 1 then tp.float_data else []

/-- A float attribute. -/
def float_attr (name : String) (f : F32) : AttributeProto :=
  ⟨name, 1, f, 0, "", []⟩

/-- An integer attribute. -/
def int_attr (name : String) (i : Int) : AttributeProto :=
  ⟨name, 2, ⟨0⟩, i, "", []⟩

/-- A depthwise convolution: a 3x2 kernel, one dilation, strides 1x2, a
4-element pad list, group 2 and a bias. The `strides` attribute occurs twice;
the first occurrence is the one read. -/
def conv_dw_node : NodeProto :=
  ⟨"Conv", "", ["x", "W", "B"], ["y"],
    [ints_attr "kernel_shape" [3, 2], ints_attr "dilations" [2], ints_attr "strides" [1, 2],
     ints_attr "pads" [1, 2, 3, 4], int_attr "group" 2, ints_attr "strides" [7, 7]]⟩

/-- A fully connected layer with `alpha = 0.5`, otherwise as `gemm_node`. -/
def gemm_half_node : NodeProto :=
  ⟨"Gemm", "", ["x", "W", "B"], ["y"],
    [float_attr "alpha" F32.half, int_attr "transB" 1, int_attr "broadcast" 1]⟩

/-- A batch normalization with `epsilon = 0.5`. -/
def bn_eps_node : NodeProto :=
  ⟨"BatchNormalization", "", ["x", "scale", "bias", "mean", "var"], ["y"],
    [float_attr "epsilon" F32.half]⟩

/-- A variance stored as raw bytes: the floats 1, `0.5 + 2^-24`, `0.5 + 3 * 2^-24`
and 0.25. Adding 0.5 to the second and the third gives a tie between two
floats. -/
def bn_var_raw : TensorProto :=
  ⟨"var", [4], 1, [], some [0, 0, 128, 63, 1, 0, 0, 63, 3, 0, 0, 63, 0, 0, 128, 62]⟩

/-- A graph around `bn_eps_node`. -/
def bn_eps_graph : GraphProto :=
  ⟨[bn_eps_node], [bn_scale, bn_bias, bn_mean, bn_var_raw], ["x"]⟩

/-- A graph around `conv_dw_node`, with the constants of the convolution
example. -/
def conv_dw_graph : GraphProto :=
  ⟨[conv_dw_node], [conv_W, conv_B], ["x", "W", "B"]⟩

/-- A graph around `pool_node`. -/
def pool_graph : GraphProto := ⟨[pool_node], [], ["x"]⟩

/-- A graph around `reshape5_node`. -/
def reshape5_graph : GraphProto := ⟨[reshape5_node], [], ["x"]⟩

/-- A graph around `gemm_half_node`, with the constants of the convolution
example. -/
def gemm_half_graph : GraphProto :=
  ⟨[gemm_half_node], [conv_W, conv_B], ["x", "W", "B"]⟩

/-! ## Lemmas on the tensor accessors -/

theorem F32.length_bytes (x : F32) : x.bytes.length = 4 := rfl

/-- Sums of the float addition on sample bit patterns: an exact sum, the two
directions of a tie, a sum rounded up, a subnormal sum that becomes normal, an
overflow to infinity, a cancellation, and the sum of two negative zeros. -/
theorem fadd_bits_samples :
    fadd_bits ⟨0x3F800000⟩ ⟨0x3F000000⟩ = ⟨0x3FC00000⟩ ∧
    fadd_bits ⟨0x3F000001⟩ ⟨0x3F000000⟩ = ⟨0x3F800000⟩ ∧
    fadd_bits ⟨0x3F000003⟩ ⟨0x3F000000⟩ = ⟨0x3F800002⟩ ∧
    fadd_bits ⟨0x3F800000⟩ ⟨0x33800001⟩ = ⟨0x3F800001⟩ ∧
    fadd_bits ⟨0x007FFFFF⟩ ⟨0x00000001⟩ = ⟨0x00800000⟩ ∧
    fadd_bits ⟨0x7F7FFFFF⟩ ⟨0x7F7FFFFF⟩ = ⟨0x7F800000⟩ ∧
    fadd_bits ⟨0x3F800000⟩ ⟨0xBF800000⟩ = ⟨0⟩ ∧
    fadd_bits ⟨0x80000000⟩ ⟨0x80000000⟩ = ⟨0x80000000⟩ := by
  decide

theorem length_flatMap_bytes (l : List F32) : (l.flatMap F32.bytes).length = 4 * l.length := by
  induction l with
  | nil => rfl
  | cons x xs ih => simp [List.flatMap_cons, ih, F32.length_bytes]; omega

theorem fwrite_eq_append (tp : TensorProto) (bp : List Nat) :
    fwrite_tensor_proto_data tp bp = bp ++ fwrite_tensor_proto_data tp [] := by
  unfold fwrite_tensor_proto_data
  cases tp.raw_data with
  | some raw => simp
  | none => by_cases h : tp.data_type = 1 <;> simp [h]

theorem length_fwrite (tp : TensorProto) :
    (fwrite_tensor_proto_data tp []).length = 4 * get_tensor_proto_data_size tp := by
  unfold fwrite_tensor_proto_data get_tensor_proto_data_size
  cases tp.raw_data with
  | some raw => simp; omega
  | none =>
    by_cases h : tp.data_type = 1
    · simp only [h, if_true, List.nil_append, length_flatMap_bytes, List.length_take,
        Nat.min_self]
    · simp [h]

theorem length_var_eps_bytes (fadd : F32 → F32 → F32) (var : TensorProto) (epsilon : F32) :
    (var_eps_bytes fadd var epsilon).length = 4 * get_tensor_proto_data_size var := by
  unfold var_eps_bytes
  generalize get_tensor_proto_data_size var = n
  induction n with
  | zero => rfl
  | succ n ih =>
    rw [List.range_succ, List.flatMap_append, List.length_append, ih]
    simp [F32.length_bytes]; omega

theorem weight_index_of_mem {weight_nodes : List (String × Nat)} {k : String} {j : Nat}
    (h : mfind weight_nodes k = some j) : weight_index weight_nodes k = (j, weight_nodes) := by
  simp [weight_index, h]

theorem pair_params_eq_spec (key : Nat) (v : List Int) : pair_params key v = spec_pair key v := by
  match v with
  | [] => rfl
  | [_] => rfl
  | [_, _] => rfl
  | _ :: _ :: _ :: l => simp [pair_params, spec_pair]

theorem pads_params_eq_spec (key : Nat) (v : List Int) : pads_params key v = spec_pads key v := by
  match v with
  | [] => rfl
  | [_] => rfl
  | [_, _] => rfl
  | [_, _, _] => rfl
  | [_, _, _, _] => rfl
  | _ :: _ :: _ :: _ :: _ :: l => simp [pads_params, spec_pads]

theorem filter_key_pair_params (key k : Nat) (v : List Int) (h1 : k ≠ key) (h2 : k ≠ key + 10) :
    (pair_params key v).filter (fun p => p.key = k) = [] := by
  rw [pair_params_eq_spec]
  match v with
  | [] => rfl
  | [_] => simp [spec_pair, Ne.symm h1]
  | [_, _] => simp [spec_pair, Ne.symm h1, Ne.symm h2]
  | _ :: _ :: _ :: l => simp [spec_pair]

theorem filter_key_pads_params (key k : Nat) (v : List Int) (h1 : k ≠ key) (h2 : k ≠ key + 10) :
    (pads_params key v).filter (fun p => p.key = k) = [] := by
  rw [pads_params_eq_spec]
  match v with
  | [] => rfl
  | [_] => simp [spec_pads, Ne.symm h1]
  | [_, _] => simp [spec_pads, Ne.symm h1, Ne.symm h2]
  | [_, _, _] => simp [spec_pads]
  | [_, _, _, _] => simp [spec_pads, Ne.symm h1, Ne.symm h2]
  | _ :: _ :: _ :: _ :: _ :: l => simp [spec_pads]

/-! ## Lemmas on the attribute readers -/

theorem find_attr_of {node : NodeProto} {key : String} {oa : Option AttributeProto}
    (h : attr_of node key oa) : node.attrs.find? (fun attr => attr.name == key) = oa := by
  cases oa with
  | none =>
    rw [List.find?_eq_none]
    intro b hb
    simpa using h b hb
  | some a =>
    obtain ⟨pre, post, hattrs, ha, hpre⟩ := h
    have hnone : pre.find? (fun attr => attr.name == key) = none := by
      rw [List.find?_eq_none]
      intro b hb
      simpa using hpre b hb
    rw [hattrs, List.find?_append, hnone, List.find?_cons]
    simp [ha]

/-- Every node has, for every name, the attribute `attr_of` describes. -/
theorem attr_of_find (node : NodeProto) (key : String) :
    attr_of node key (node.attrs.find? (fun attr => attr.name == key)) := by
  cases hf : node.attrs.find? (fun attr => attr.name == key) with
  | none =>
    rw [List.find?_eq_none] at hf
    intro b hb
    simpa using hf b hb
  | some a =>
    obtain ⟨hp, pre, post, hattrs, hpre⟩ := List.find?_eq_some.1 hf
    refine ⟨pre, post, hattrs, by simpa using hp, ?_⟩
    intro b hb
    simpa using hpre b hb

theorem get_node_attr_ai_of {node : NodeProto} {key : String} {oa : Option AttributeProto}
    (h : attr_of node key oa) : get_node_attr_ai node key = attr_ints oa := by
  unfold get_node_attr_ai
  rw [find_attr_of h]
  cases oa <;> rfl

theorem get_node_attr_i_of {node : NodeProto} {key : String} {oa : Option AttributeProto}
    (dflt : Int) (h : attr_of node key oa) : get_node_attr_i node key dflt = attr_int dflt oa := by
  unfold get_node_attr_i
  rw [find_attr_of h]
  cases oa <;> rfl

theorem get_node_attr_f_of {node : NodeProto} {key : String} {oa : Option AttributeProto}
    (dflt : F32) (h : attr_of node key oa) :
    get_node_attr_f node key dflt = attr_float dflt oa := by
  unfold get_node_attr_f
  rw [find_attr_of h]
  cases oa <;> rfl

theorem decode_floats_eq (raw : List Nat) :
    (List.range (raw.length / 4)).map (fun j =>
      F32.ofBytes (raw.getD (4 * j) 0) (raw.getD (4 * j + 1) 0)
        (raw.getD (4 * j + 2) 0) (raw.getD (4 * j + 3) 0)) = decode_floats raw := by
  induction raw using decode_floats.induct with
  | case1 b0 b1 b2 b3 rest ih =>
    have hlen : (b0 :: b1 :: b2 :: b3 :: rest).length / 4 = rest.length / 4 + 1 := by
      simp only [List.length_cons]
      omega
    rw [hlen, List.range_succ_eq_map, List.map_cons, List.map_map, decode_floats, ← ih]
    congr 1
  | case2 raw hraw =>
    have hlt : raw.length / 4 = 0 := by
      match raw, hraw with
      | [], _ => rfl
      | [_], _ => simp
      | [_, _], _ => simp
      | [_, _, _], _ => simp
      | b0 :: b1 :: b2 :: b3 :: rest, hraw => exact (hraw b0 b1 b2 b3 rest rfl).elim
    rw [hlt]
    unfold decode_floats
    split
    · exact (hraw _ _ _ _ _ rfl).elim
    · rfl

/-- The floats read at the indices below the element count are the elements
of the tensor. -/
theorem tensor_floats_eq (tp : TensorProto) :
    (List.range (get_tensor_proto_data_size tp)).map (tensor_float_at tp)
      = tensor_floats tp := by
  unfold get_tensor_proto_data_size tensor_floats
  cases hr : tp.raw_data with
  | some raw =>
    simp only []
    rw [← decode_floats_eq raw]
    apply List.map_congr_left
    intro j _
    simp [tensor_float_at, hr]
  | none =>
    simp only []
    by_cases hd : tp.data_type = 1
    · simp only [hd, if_true]
      apply List.ext_getElem
      · simp
      · intro j h1 h2
        simp [tensor_float_at, hr, List.getD_eq_getElem?_getD, List.getElem?_eq_getElem h2]
    · simp [hd]

theorem length_tensor_floats (tp : TensorProto) :
    (tensor_floats tp).length = get_tensor_proto_data_size tp := by
  rw [← tensor_floats_eq]
  simp

theorem var_eps_bytes_eq (fadd : F32 → F32 → F32) (var : TensorProto) (epsilon : F32) :
    var_eps_bytes fadd var epsilon
      = (tensor_floats var).flatMap (fun v => (fadd v epsilon).bytes) := by
  unfold var_eps_bytes
  rw [← tensor_floats_eq, List.flatMap_map]

/-! ## Lemmas on maps and sets -/

theorem mfind_mset_self {β : Type} (m : List (String × β)) (k : String) (v : β) :
    mfind (mset m k v) k = some v := by
  induction m with
  | nil => simp [mset, mfind]
  | cons e m ih =>
    obtain ⟨k', v'⟩ := e
    by_cases h : k' = k <;> simp [mset, mfind, h, ih]

theorem mfind_mset_ne {β : Type} (m : List (String × β)) (k k' : String) (v : β)
    (hne : k ≠ k') : mfind (mset m k v) k' = mfind m k' := by
  induction m with
  | nil => simp [mset, mfind, hne]
  | cons e m ih =>
    obtain ⟨k1, v1⟩ := e
    by_cases h : k1 = k
    · subst h; simp [mset, mfind, hne]
    · by_cases h' : k1 = k'
      · subst h'; simp [mset, mfind, h]
      · simp [mset, mfind, h, h', ih]

theorem mhas_mset {β : Type} (m : List (String × β)) (k k' : String) (v : β) :
    mhas (mset m k v) k' = (decide (k = k') || mhas m k') := by
  unfold mhas
  by_cases h : k = k'
  · subst h; simp [mfind_mset_self]
  · simp [mfind_mset_ne m k k' v h, h]

theorem mhas_mset_of_mhas {β : Type} (m : List (String × β)) (k k' : String) (v : β)
    (h : mhas m k' = true) : mhas (mset m k v) k' = true := by
  rw [mhas_mset, h]; simp

theorem mhas_iff_mem_keys {β : Type} (m : List (String × β)) (k : String) :
    mhas m k = true ↔ k ∈ keys m := by
  induction m with
  | nil => simp [mhas, mfind, keys]
  | cons e m ih =>
    obtain ⟨k', v'⟩ := e
    by_cases h : k' = k
    · subst h; simp [mhas, mfind, keys]
    · have ih' : (mfind m k).isSome = true ↔ k ∈ List.map Prod.fst m := ih
      simp [mhas, mfind, keys, h, ih', Ne.symm h]

theorem mfind_none_iff {β : Type} (m : List (String × β)) (k : String) :
    mfind m k = none ↔ mhas m k = false := by
  unfold mhas; cases mfind m k <;> simp

theorem keys_mset {β : Type} (m : List (String × β)) (k : String) (v : β) :
    keys (mset m k v) = if mhas m k then keys m else keys m ++ [k] := by
  induction m with
  | nil => simp [mset, keys, mhas, mfind]
  | cons e m ih =>
    obtain ⟨k', v'⟩ := e
    by_cases h : k' = k
    · subst h; simp [mset, keys, mhas, mfind]
    · have ih' : List.map Prod.fst (mset m k v)
          = if (mfind m k).isSome = true then List.map Prod.fst m
            else List.map Prod.fst m ++ [k] := ih
      simp only [mset, h, if_false, keys, List.map_cons, mhas, mfind, ih']
      split <;> simp

theorem length_mset {β : Type} (m : List (String × β)) (k : String) (v : β) :
    (mset m k v).length = if mhas m k then m.length else m.length + 1 := by
  have h := congrArg List.length (keys_mset m k v)
  simp only [keys, List.length_map] at h
  rw [h]; split <;> simp

theorem nodup_keys_mset {β : Type} (m : List (String × β)) (k : String) (v : β)
    (h : (keys m).Nodup) : (keys (mset m k v)).Nodup := by
  rw [keys_mset]
  by_cases hk : mhas m k = true
  · simp [hk, h]
  · simp only [hk]
    have hk' : k ∉ keys m := fun hm => hk ((mhas_iff_mem_keys m k).2 hm)
    simpa [List.nodup_append, h] using hk'

theorem mem_set_insert (s : List String) (x y : String) :
    y ∈ set_insert s x ↔ y ∈ s ∨ y = x := by
  unfold set_insert
  by_cases h : x ∈ s
  · simp only [h, if_true]
    constructor
    · exact Or.inl
    · rintro (h' | h')
      · exact h'
      · subst h'; exact h
  · simp [h]

theorem nodup_set_insert (s : List String) (x : String) (h : s.Nodup) :
    (set_insert s x).Nodup := by
  unfold set_insert
  by_cases hx : x ∈ s
  · simp [hx, h]
  · simp only [hx, if_false]
    simpa [List.nodup_append, h] using hx

theorem mem_foldl_set_insert (xs : List String) (s : List String) (y : String) :
    y ∈ xs.foldl set_insert s ↔ y ∈ s ∨ y ∈ xs := by
  induction xs generalizing s with
  | nil => simp
  | cons x xs ih =>
    simp only [List.foldl_cons, ih, mem_set_insert, List.mem_cons]
    tauto

theorem nodup_foldl_set_insert (xs : List String) (s : List String) (h : s.Nodup) :
    (xs.foldl set_insert s).Nodup := by
  induction xs generalizing s with
  | nil => simpa using h
  | cons x xs ih => exact ih _ (nodup_set_insert s x h)

/-! ## Lemmas on the first pass -/

theorem prep_node_cases {st st' : Prep} {node : NodeProto} (h : prep_node st node = some st') :
    (is_weight_reshape st.weight_nodes node = true ∧ ∃ name, node_name node = some name ∧
      st' = { st with weight_nodes :=
        register_alias st.weight_nodes name (node.input.getD 0 "") }) ∨
    (is_weight_reshape st.weight_nodes node = false ∧
      st' = { st with
        node_reference :=
          (node.input.foldl (prep_input st.weight_nodes) (st.node_reference, st.blob_names)).1
        blob_names := node.output.foldl set_insert
          (node.input.foldl (prep_input st.weight_nodes)
            (st.node_reference, st.blob_names)).2 }) := by
  unfold prep_node at h
  cases hn : node_name node with
  | none => simp [hn] at h
  | some name =>
    by_cases hw : is_weight_reshape st.weight_nodes node = true
    · left
      simp only [hn, hw, Option.bind_eq_bind, Option.some_bind, if_true,
        Option.some.injEq] at h
      exact ⟨hw, name, rfl, h.symm⟩
    · right
      simp only [Bool.not_eq_true] at hw
      simp only [hn, hw, Option.bind_eq_bind, Option.some_bind, Bool.false_eq_true, if_false,
        Option.some.injEq] at h
      exact ⟨hw, h.symm⟩

theorem is_weight_reshape_input {weight_nodes : List (String × Nat)} {node : NodeProto}
    (h : is_weight_reshape weight_nodes node = true) :
    ∃ x, node.input = [x] ∧ mhas weight_nodes x = true := by
  unfold is_weight_reshape at h
  simp only [Bool.and_eq_true, decide_eq_true_eq] at h
  obtain ⟨⟨_, hl⟩, hm⟩ := h
  match hi : node.input, hl with
  | [x], _ => exact ⟨x, rfl, by simpa [hi] using hm⟩

theorem is_weight_reshape_mono {w w' : List (String × Nat)} {node : NodeProto}
    (hmono : ∀ k, mhas w k = true → mhas w' k = true)
    (h : is_weight_reshape w node = true) : is_weight_reshape w' node = true := by
  unfold is_weight_reshape at h ⊢
  simp only [Bool.and_eq_true, decide_eq_true_eq] at h ⊢
  exact ⟨h.1, hmono _ h.2⟩

theorem prep_node_weights_mono {st st' : Prep} {node : NodeProto}
    (h : prep_node st node = some st') (k : String) (hk : mhas st.weight_nodes k = true) :
    mhas st'.weight_nodes k = true := by
  rcases prep_node_cases h with ⟨_, name, _, rfl⟩ | ⟨_, rfl⟩
  · exact mhas_mset_of_mhas _ _ _ _ hk
  · exact hk

theorem prep_nodes_cons {st st' : Prep} {node : NodeProto} {nodes : List NodeProto}
    (h : prep_nodes st (node :: nodes) = some st') :
    ∃ st1, prep_node st node = some st1 ∧ prep_nodes st1 nodes = some st' := by
  simp only [prep_nodes] at h
  cases h1 : prep_node st node with
  | none => simp [h1] at h
  | some st1 => exact ⟨st1, rfl, by simpa [h1] using h⟩

theorem prep_nodes_weights_mono {nodes : List NodeProto} {st st' : Prep}
    (h : prep_nodes st nodes = some st') (k : String) (hk : mhas st.weight_nodes k = true) :
    mhas st'.weight_nodes k = true := by
  induction nodes generalizing st with
  | nil => simp only [prep_nodes, Option.some.injEq] at h; subst h; exact hk
  | cons node nodes ih =>
    obtain ⟨st1, h1, h2⟩ := prep_nodes_cons h
    exact ih h2 (prep_node_weights_mono h1 k hk)

theorem ref_count_prep_input (w : List (String × Nat)) (st : List (String × Int) × List String)
    (x a : String) :
    ref_count (prep_input w st x).1 a
      = ref_count st.1 a + (if x = a ∧ mhas w x = false then 1 else 0) := by
  unfold prep_input
  by_cases hw : mhas w x = true
  · simp [hw]
  · simp only [hw, Bool.false_eq_true, if_false]
    simp only [Bool.not_eq_true] at hw
    by_cases hxa : x = a
    · subst hxa
      cases hf : mfind st.1 x with
      | none => simp [ref_count, mfind_mset_self, hf, hw]
      | some c => simp [ref_count, mfind_mset_self, hf, hw]
    · cases hf : mfind st.1 x with
      | none => simp [ref_count, mfind_mset_ne _ _ _ _ hxa, hxa]
      | some c => simp [ref_count, mfind_mset_ne _ _ _ _ hxa, hxa]

theorem ref_count_foldl_prep_input (w : List (String × Nat)) (xs : List String)
    (st : List (String × Int) × List String) (a : String) :
    ref_count (xs.foldl (prep_input w) st).1 a
      = ref_count st.1 a + (if mhas w a = true then 0 else (xs.count a : Int)) := by
  induction xs generalizing st with
  | nil => simp
  | cons x xs ih =>
    rw [List.foldl_cons, ih, ref_count_prep_input]
    by_cases hxa : x = a
    · subst hxa
      by_cases hw : mhas w x = true
      · simp [hw]
      · simp [hw]; omega
    · have : List.count a (x :: xs) = List.count a xs := by
        rw [List.count_cons]; simp [hxa]
      simp [hxa, this]

theorem slot_count_cons (a : String) (node : NodeProto) (nodes : List NodeProto) :
    slot_count a (node :: nodes) = node.input.count a + slot_count a nodes := by
  simp [slot_count, List.flatMap_cons, List.count_append]

theorem slot_count_append (a : String) (l1 l2 : List NodeProto) :
    slot_count a (l1 ++ l2) = slot_count a l1 + slot_count a l2 := by
  simp [slot_count, List.flatMap_append, List.count_append]

/-- The count of a name after the first pass is at most the number of input
slots that name it, and equal to it when the name never is a weight. -/
theorem prep_nodes_ref_count (a : String) (nodes : List NodeProto) (st st' : Prep)
    (h : prep_nodes st nodes = some st') :
    ref_count st'.node_reference a ≤ ref_count st.node_reference a + slot_count a nodes ∧
    (mhas st'.weight_nodes a = false →
      ref_count st'.node_reference a = ref_count st.node_reference a + slot_count a nodes) := by
  induction nodes generalizing st with
  | nil =>
    simp only [prep_nodes, Option.some.injEq] at h; subst h
    simp [slot_count]
  | cons node nodes ih =>
    obtain ⟨st1, h1, h2⟩ := prep_nodes_cons h
    obtain ⟨ihle, iheq⟩ := ih st1 h2
    rw [slot_count_cons]
    rcases prep_node_cases h1 with ⟨hw, name, _, rfl⟩ | ⟨hw, rfl⟩
    · obtain ⟨x, hx, hxw⟩ := is_weight_reshape_input hw
      constructor
      · simp only at ihle; push_cast; omega
      · intro hfin
        have hxa : x ≠ a := by
          rintro rfl
          have := prep_nodes_weights_mono h2 x (mhas_mset_of_mhas _ _ _ _ hxw)
          rw [hfin] at this; cases this
        have hc : node.input.count a = 0 := by
          rw [hx]
          exact List.count_eq_zero.2 (by simpa using Ne.symm hxa)
        have := iheq hfin
        rw [this, hc]; simp
    · have hfold := ref_count_foldl_prep_input st.weight_nodes node.input
        (st.node_reference, st.blob_names) a
      simp only at ihle iheq hfold
      constructor
      · rw [hfold] at ihle
        split at ihle <;> push_cast <;> omega
      · intro hfin
        have hwa : mhas st.weight_nodes a = false := by
          cases hh : mhas st.weight_nodes a with
          | false => rfl
          | true =>
            have := prep_nodes_weights_mono h a hh
            rw [hfin] at this; cases this
        rw [iheq hfin, hfold, hwa]
        simp only [Bool.false_eq_true, if_false]
        push_cast; omega

theorem mfind_filter_none {β : Type} (p : String × β → Bool) (m : List (String × β))
    (a : String) (h : mfind m a = none) : mfind (m.filter p) a = none := by
  induction m with
  | nil => rfl
  | cons e m ih =>
    obtain ⟨k, v⟩ := e
    by_cases hk : k = a
    · subst hk; simp [mfind] at h
    · simp only [mfind, hk, if_false] at h
      rw [List.filter_cons]
      split
      · simp [mfind, hk, ih h]
      · exact ih h

theorem mfind_filter_of_nodup {β : Type} (p : String × β → Bool) (m : List (String × β))
    (a : String) (v : β) (hnd : (keys m).Nodup) (h : mfind m a = some v) :
    mfind (m.filter p) a = if p (a, v) then some v else none := by
  induction m with
  | nil => simp [mfind] at h
  | cons e m ih =>
    obtain ⟨k, v'⟩ := e
    simp only [keys, List.map_cons, List.nodup_cons] at hnd
    by_cases hk : k = a
    · subst hk
      simp only [mfind, if_true, Option.some.injEq] at h
      subst h
      have hnone : mfind m k = none := by
        rw [mfind_none_iff]
        cases hh : mhas m k with
        | false => rfl
        | true => exact absurd ((mhas_iff_mem_keys m k).1 hh) hnd.1
      rw [List.filter_cons]
      split
      · simp [mfind]
      · exact mfind_filter_none p m k hnone
    · simp only [mfind, hk, if_false] at h
      rw [List.filter_cons]
      split
      · simp only [mfind, hk, if_false]; exact ih hnd.2 h
      · exact ih hnd.2 h

theorem prune_references_eq (m : List (String × Int)) :
    prune_references m
      = (m.filter (fun e => decide (e.2 ≠ 1)),
         ((m.filter (fun e => decide (e.2 ≠ 1))).map Prod.snd).sum) := by
  induction m with
  | nil => rfl
  | cons e m ih =>
    simp only [prune_references, ih]
    by_cases h : e.2 = 1 <;> simp [List.filter_cons, h]

/-- Every count in `node_reference` is at least one. -/
theorem prep_input_pos (w : List (String × Nat)) (st : List (String × Int) × List String)
    (x : String) (hpos : ∀ k v, mfind st.1 k = some v → 1 ≤ v) :
    ∀ k v, mfind (prep_input w st x).1 k = some v → 1 ≤ v := by
  intro k v
  unfold prep_input
  by_cases hw : mhas w x = true
  · simpa [hw] using hpos k v
  · simp only [hw, Bool.false_eq_true, if_false]
    cases hf : mfind st.1 x with
    | none =>
      simp only
      by_cases hxk : x = k
      · subst hxk; rw [mfind_mset_self]; intro h; cases h; decide
      · rw [mfind_mset_ne _ _ _ _ hxk]; exact hpos k v
    | some c =>
      simp only
      by_cases hxk : x = k
      · subst hxk; rw [mfind_mset_self]; intro h; cases h
        have := hpos x c hf; omega
      · rw [mfind_mset_ne _ _ _ _ hxk]; exact hpos k v

theorem prep_input_nodup (w : List (String × Nat)) (st : List (String × Int) × List String)
    (x : String) (hnd : (keys st.1).Nodup) : (keys (prep_input w st x).1).Nodup := by
  unfold prep_input
  by_cases hw : mhas w x = true
  · simpa [hw] using hnd
  · simp only [hw, Bool.false_eq_true, if_false]
    cases hf : mfind st.1 x with
    | none => exact nodup_keys_mset _ _ _ hnd
    | some c => exact nodup_keys_mset _ _ _ hnd

theorem foldl_prep_input_inv (w : List (String × Nat)) (xs : List String)
    (st : List (String × Int) × List String)
    (hpos : ∀ k v, mfind st.1 k = some v → 1 ≤ v) (hnd : (keys st.1).Nodup) :
    (∀ k v, mfind (xs.foldl (prep_input w) st).1 k = some v → 1 ≤ v) ∧
    (keys (xs.foldl (prep_input w) st).1).Nodup := by
  induction xs generalizing st with
  | nil => exact ⟨hpos, hnd⟩
  | cons x xs ih =>
    rw [List.foldl_cons]
    exact ih _ (prep_input_pos w st x hpos) (prep_input_nodup w st x hnd)

theorem prep_nodes_inv (nodes : List NodeProto) (st st' : Prep)
    (h : prep_nodes st nodes = some st')
    (hpos : ∀ k v, mfind st.node_reference k = some v → 1 ≤ v)
    (hnd : (keys st.node_reference).Nodup) :
    (∀ k v, mfind st'.node_reference k = some v → 1 ≤ v) ∧
    (keys st'.node_reference).Nodup := by
  induction nodes generalizing st with
  | nil => simp only [prep_nodes, Option.some.injEq] at h; subst h; exact ⟨hpos, hnd⟩
  | cons node nodes ih =>
    obtain ⟨st1, h1, h2⟩ := prep_nodes_cons h
    rcases prep_node_cases h1 with ⟨_, name, _, rfl⟩ | ⟨_, rfl⟩
    · exact ih _ h2 hpos hnd
    · have := foldl_prep_input_inv st.weight_nodes node.input
        (st.node_reference, st.blob_names) hpos hnd
      exact ih _ h2 this.1 this.2

theorem header_cases {graph : GraphProto} {h : Header} (hh : header graph = some h) :
    ∃ st, prep_pass graph = some st ∧
      h.weight_nodes = st.weight_nodes ∧
      h.node_reference = st.node_reference.filter (fun e => decide (e.2 ≠ 1)) ∧
      h.layer_count = (graph.node.length : Int)
        + (prep_graph_inputs st.weight_nodes (0, st.blob_names) graph.input).1
        + (st.node_reference.filter (fun e => decide (e.2 ≠ 1))).length
        + graph.initializer.length - st.weight_nodes.length ∧
      h.blob_count =
        ((prep_graph_inputs st.weight_nodes (0, st.blob_names) graph.input).2.length : Int)
        + ((st.node_reference.filter (fun e => decide (e.2 ≠ 1))).map Prod.snd).sum ∧
      h.input_node_count
        = (prep_graph_inputs st.weight_nodes (0, st.blob_names) graph.input).1 := by
  unfold header at hh
  cases hp : prep_pass graph with
  | none => simp [hp] at hh
  | some st =>
    simp only [hp, Option.bind_eq_bind, Option.some_bind, Option.some.injEq,
      prune_references_eq] at hh
    subst hh
    exact ⟨st, rfl, rfl, rfl, rfl, rfl, rfl⟩

/-- The pruned count of a name is the count of the first pass when that is not
one, and absent otherwise. -/
theorem header_ref_count {graph : GraphProto} {h : Header} {st : Prep}
    (hp : prep_pass graph = some st)
    (hr : h.node_reference = st.node_reference.filter (fun e => decide (e.2 ≠ 1)))
    (a : String) :
    mfind h.node_reference a =
      match mfind st.node_reference a with
      | none => none
      | some v => if v ≠ 1 then some v else none := by
  have hinv := prep_nodes_inv graph.node (prep_start graph) st hp
    (by intro k v hk; simp [prep_start, mfind] at hk) (by simp [prep_start, keys])
  rw [hr]
  cases hf : mfind st.node_reference a with
  | none => exact mfind_filter_none _ _ _ hf
  | some v => rw [mfind_filter_of_nodup _ _ _ _ hinv.2 hf]; simp

/-! ## Lemmas on the second pass -/

theorem weights_le_refl (w : List (String × Nat)) : weights_le w w := fun _ _ h => h

theorem weights_le_trans {w1 w2 w3 : List (String × Nat)} (h1 : weights_le w1 w2)
    (h2 : weights_le w2 w3) : weights_le w1 w3 := fun k v h => h2 k v (h1 k v h)

theorem weights_le_mhas {w w' : List (String × Nat)} (h : weights_le w w') (k : String)
    (hk : mhas w k = true) : mhas w' k = true := by
  unfold mhas at hk ⊢
  cases hf : mfind w k with
  | none => simp [hf] at hk
  | some v => simp [h k v hf]

theorem weight_index_le (w : List (String × Nat)) (x : String) :
    weights_le w (weight_index w x).2 := by
  intro k v hk
  unfold weight_index
  cases hx : mfind w x with
  | some j => exact hk
  | none =>
    have hne : x ≠ k := by rintro rfl; rw [hx] at hk; cases hk
    simpa [mfind_mset_ne _ _ _ _ hne] using hk

theorem lower_batchnorm_le {fadd : F32 → F32 → F32} {graph : GraphProto}
    {w : List (String × Nat)} {bp : List Nat} {node : NodeProto} {low : Lowered}
    (h : lower_batchnorm fadd graph w bp node = some low) : weights_le w low.weight_nodes := by
  simp only [lower_batchnorm, Option.bind_eq_bind, Option.bind_eq_some,
    Option.some.injEq] at h
  obtain ⟨a, _, a1, _, a2, _, a3, _, a4, _, a5, _, a6, _, a7, _, rfl⟩ := h
  exact weights_le_trans (weight_index_le _ _) (weights_le_trans (weight_index_le _ _)
    (weights_le_trans (weight_index_le _ _) (weight_index_le _ _)))

theorem lower_conv_le {graph : GraphProto}
    {w : List (String × Nat)} {bp : List Nat} {node : NodeProto} {low : Lowered}
    (h : lower_conv graph w bp node = some low) : weights_le w low.weight_nodes := by
  simp only [lower_conv, Option.bind_eq_bind, Option.bind_eq_some, Option.some.injEq] at h
  obtain ⟨a, _, a1, _, a2, _, h⟩ := h
  by_cases h3 : node.input.length = 3
  · simp only [h3, if_true, ne_eq, one_ne_zero, not_false_eq_true, Option.bind_eq_some,
      Option.some.injEq] at h
    obtain ⟨b, _, B, _, rfl⟩ := h
    exact weights_le_trans (weight_index_le _ _) (weight_index_le _ _)
  · simp only [h3, if_false, ne_eq, not_true_eq_false, Option.some.injEq] at h
    subst h
    exact weight_index_le _ _

theorem lower_gemm_le {graph : GraphProto}
    {w : List (String × Nat)} {bp : List Nat} {node : NodeProto} {low : Lowered}
    (h : lower_gemm graph w bp node = some low) : weights_le w low.weight_nodes := by
  simp only [lower_gemm, Option.bind_eq_bind] at h
  split at h
  · split at h
    · simp only [Option.bind_eq_some, Option.some.injEq] at h
      obtain ⟨b, _, B, _, c, _, C, _, rfl⟩ := h
      exact weights_le_trans (weight_index_le _ _) (weight_index_le _ _)
    · simp only [Option.some.injEq] at h; subst h; exact weights_le_refl _
  · simp only [Option.some.injEq] at h; subst h; exact weights_le_refl _

theorem lower_le {fadd : F32 → F32 → F32} {graph : GraphProto}
    {w : List (String × Nat)} {bp : List Nat} {node : NodeProto} {low : Lowered}
    (h : lower fadd graph w bp node = some low) : weights_le w low.weight_nodes := by
  unfold lower at h
  by_cases h1 : node.op_type = "AveragePool" ∨ node.op_type = "MaxPool"
  · rw [if_pos h1] at h
    simp only [Option.some.injEq] at h; subst h; exact weights_le_refl _
  rw [if_neg h1] at h
  by_cases h2 : node.op_type = "BatchNormalization"
  · rw [if_pos h2] at h; exact lower_batchnorm_le h
  rw [if_neg h2] at h
  by_cases h3 : node.op_type = "Concat"
  · rw [if_pos h3] at h
    simp only [Option.map_eq_some'] at h
    obtain ⟨_, _, rfl⟩ := h; exact weights_le_refl _
  rw [if_neg h3] at h
  by_cases h4 : node.op_type = "Conv"
  · rw [if_pos h4] at h; exact lower_conv_le h
  rw [if_neg h4] at h
  by_cases h5 : node.op_type = "Dropout"
  · rw [if_pos h5] at h
    simp only [Option.some.injEq] at h; subst h; exact weights_le_refl _
  rw [if_neg h5] at h
  by_cases h6 : node.op_type = "Gemm"
  · rw [if_pos h6] at h; exact lower_gemm_le h
  rw [if_neg h6] at h
  by_cases h7 : node.op_type = "GlobalAveragePool"
  · rw [if_pos h7] at h
    simp only [Option.some.injEq] at h; subst h; exact weights_le_refl _
  rw [if_neg h7] at h
  by_cases h8 : node.op_type = "GlobalMaxPool"
  · rw [if_pos h8] at h
    simp only [Option.some.injEq] at h; subst h; exact weights_le_refl _
  rw [if_neg h8] at h
  by_cases h9 : node.op_type = "LRN"
  · rw [if_pos h9] at h
    simp only [Option.some.injEq] at h; subst h; exact weights_le_refl _
  rw [if_neg h9] at h
  by_cases h10 : node.op_type = "Reshape"
  · rw [if_pos h10] at h
    simp only [Option.map_eq_some'] at h
    obtain ⟨_, _, rfl⟩ := h; exact weights_le_refl _
  rw [if_neg h10] at h
  by_cases h11 : node.op_type = "Softmax"
  · rw [if_pos h11] at h
    simp only [Option.map_eq_some'] at h
    obtain ⟨_, _, rfl⟩ := h; exact weights_le_refl _
  rw [if_neg h11] at h
  by_cases h12 : node.op_type = "Transpose"
  · rw [if_pos h12] at h
    simp only [Option.some.injEq] at h; subst h; exact weights_le_refl _
  rw [if_neg h12] at h
  simp only [Option.some.injEq] at h; subst h; exact weights_le_refl _

theorem emit_node_cases {fadd : F32 → F32 → F32} {graph : GraphProto} {st st' : Emit}
    {node : NodeProto} (h : emit_node fadd graph st node = some st') :
    (is_weight_reshape st.weight_nodes node = true ∧ ∃ name, node_name node = some name ∧
      st' = { st with weight_nodes :=
        register_alias st.weight_nodes name (node.input.getD 0 "") }) ∨
    (is_weight_reshape st.weight_nodes node = false ∧ ∃ name low,
      node_name node = some name ∧ lower fadd graph st.weight_nodes st.bp node = some low ∧
      st' = {
        weight_nodes := low.weight_nodes
        node_reference := (emit_inputs st.weight_nodes st.node_reference node.input).1
        internal_split := (emit_splits
          (emit_inputs st.weight_nodes st.node_reference node.input).1
          st.internal_split node.output).1
        pp := st.pp ++ Line.node ⟨layer_type node, name, count_inputs st.weight_nodes node,
            node.output.length,
            (emit_inputs st.weight_nodes st.node_reference node.input).2,
            node.output.map (fun o => ⟨o, none⟩), low.params⟩
          :: (emit_splits (emit_inputs st.weight_nodes st.node_reference node.input).1
            st.internal_split node.output).2
        bp := low.bp
        diag := st.diag ++ low.diag }) := by
  unfold emit_node at h
  cases hn : node_name node with
  | none => simp [hn] at h
  | some name =>
    by_cases hw : is_weight_reshape st.weight_nodes node = true
    · left
      simp only [hn, hw, Option.bind_eq_bind, Option.some_bind, if_true,
        Option.some.injEq] at h
      exact ⟨hw, name, rfl, h.symm⟩
    · right
      simp only [Bool.not_eq_true] at hw
      simp only [hn, hw, Option.bind_eq_bind, Option.some_bind, Bool.false_eq_true, if_false,
        Option.bind_eq_some, Option.some.injEq] at h
      obtain ⟨low, hl, rfl⟩ := h
      exact ⟨hw, name, low, rfl, hl, rfl⟩

theorem emit_nodes_cons {fadd : F32 → F32 → F32} {graph : GraphProto} {st st' : Emit}
    {node : NodeProto} {nodes : List NodeProto}
    (h : emit_nodes fadd graph st (node :: nodes) = some st') :
    ∃ st1, emit_node fadd graph st node = some st1 ∧
      emit_nodes fadd graph st1 nodes = some st' := by
  simp only [emit_nodes] at h
  cases h1 : emit_node fadd graph st node with
  | none => simp [h1] at h
  | some st1 => exact ⟨st1, rfl, by simpa [h1] using h⟩

theorem emit_nodes_append {fadd : F32 → F32 → F32} {graph : GraphProto}
    (l1 l2 : List NodeProto) {st st' : Emit}
    (h : emit_nodes fadd graph st (l1 ++ l2) = some st') :
    ∃ st1, emit_nodes fadd graph st l1 = some st1 ∧
      emit_nodes fadd graph st1 l2 = some st' := by
  induction l1 generalizing st with
  | nil => exact ⟨st, rfl, h⟩
  | cons node l1 ih =>
    obtain ⟨s1, h1, h2⟩ := emit_nodes_cons (by simpa using h)
    obtain ⟨s2, h3, h4⟩ := ih h2
    exact ⟨s2, by simp [emit_nodes, h1, h3], h4⟩

theorem emit_node_weights_mono {fadd : F32 → F32 → F32} {graph : GraphProto} {st st' : Emit}
    {node : NodeProto} (h : emit_node fadd graph st node = some st') (k : String)
    (hk : mhas st.weight_nodes k = true) : mhas st'.weight_nodes k = true := by
  rcases emit_node_cases h with ⟨_, name, _, rfl⟩ | ⟨_, name, low, _, hl, rfl⟩
  · exact mhas_mset_of_mhas _ _ _ _ hk
  · exact weights_le_mhas (lower_le hl) k hk

theorem emit_nodes_weights_mono {fadd : F32 → F32 → F32} {graph : GraphProto}
    {nodes : List NodeProto} {st st' : Emit}
    (h : emit_nodes fadd graph st nodes = some st') (k : String)
    (hk : mhas st.weight_nodes k = true) : mhas st'.weight_nodes k = true := by
  induction nodes generalizing st with
  | nil => simp only [emit_nodes, Option.some.injEq] at h; subst h; exact hk
  | cons node nodes ih =>
    obtain ⟨st1, h1, h2⟩ := emit_nodes_cons h
    exact ih h2 (emit_node_weights_mono h1 k hk)

theorem emit_nodes_pp_mono {fadd : F32 → F32 → F32} {graph : GraphProto}
    {nodes : List NodeProto} {st st' : Emit}
    (h : emit_nodes fadd graph st nodes = some st') (l : Line) (hl : l ∈ st.pp) :
    l ∈ st'.pp := by
  induction nodes generalizing st with
  | nil => simp only [emit_nodes, Option.some.injEq] at h; subst h; exact hl
  | cons node nodes ih =>
    obtain ⟨st1, h1, h2⟩ := emit_nodes_cons h
    apply ih h2
    rcases emit_node_cases h1 with ⟨_, name, _, rfl⟩ | ⟨_, name, low, _, _, rfl⟩
    · exact hl
    · exact List.mem_append_left _ hl

theorem emit_nodes_pp_extends {fadd : F32 → F32 → F32} {graph : GraphProto}
    {nodes : List NodeProto} {st st' : Emit}
    (h : emit_nodes fadd graph st nodes = some st') : ∃ rest, st'.pp = st.pp ++ rest := by
  induction nodes generalizing st with
  | nil => simp only [emit_nodes, Option.some.injEq] at h; subst h; exact ⟨[], by simp⟩
  | cons node nodes ih =>
    obtain ⟨st1, h1, h2⟩ := emit_nodes_cons h
    obtain ⟨rest, hrest⟩ := ih h2
    rcases emit_node_cases h1 with ⟨_, name, _, rfl⟩ | ⟨_, name, low, _, _, rfl⟩
    · exact ⟨rest, hrest⟩
    · exact ⟨_, by rw [hrest, List.append_assoc]⟩

theorem convert_cases {fadd : F32 → F32 → F32} {graph : GraphProto} {h : Header} {st : Emit}
    (hc : convert fadd graph = some (h, st)) :
    header graph = some h ∧
      emit_nodes fadd graph (emit_start graph h) graph.node = some st := by
  unfold convert at hc
  cases hh : header graph with
  | none => simp [hh] at hc
  | some h' =>
    simp only [hh, Option.bind_eq_bind, Option.some_bind, Option.bind_eq_some,
      Option.some.injEq, Prod.mk.injEq] at hc
    obtain ⟨st', he, rfl, rfl⟩ := hc
    exact ⟨rfl, he⟩

theorem emit_inputs_absent (w : List (String × Nat)) (a : String) (xs : List String)
    (nr : List (String × Int)) (h : mfind nr a = none) :
    mfind (emit_inputs w nr xs).1 a = none ∧
    ∀ r ∈ (emit_inputs w nr xs).2, r.base = a → r.split = none := by
  induction xs generalizing nr with
  | nil => simp [emit_inputs, h]
  | cons x xs ih =>
    unfold emit_inputs
    by_cases hw : mhas w x = true
    · simpa [hw] using ih nr h
    · simp only [hw, Bool.false_eq_true, if_false]
      cases hf : mfind nr x with
      | none =>
        simp only
        refine ⟨(ih nr h).1, ?_⟩
        intro r hr hb
        rcases List.mem_cons.1 hr with rfl | hr
        · rfl
        · exact (ih nr h).2 r hr hb
      | some c =>
        simp only
        have hxa : x ≠ a := by rintro rfl; rw [h] at hf; cases hf
        have h' : mfind (mset nr x (c - 1)) a = none := by
          rw [mfind_mset_ne _ _ _ _ hxa]; exact h
        refine ⟨(ih _ h').1, ?_⟩
        intro r hr hb
        rcases List.mem_cons.1 hr with rfl | hr
        · exact absurd hb hxa
        · exact (ih _ h').2 r hr hb

theorem emit_inputs_present (w : List (String × Nat)) (a : String) (hw : mhas w a = false)
    (xs : List String) (nr : List (String × Int)) (c : Int) (h : mfind nr a = some c) :
    (emit_inputs w nr xs).2.filter (fun r => decide (r.base = a))
      = (List.range (xs.count a)).map
          (fun (k : Nat) => (⟨a, some (c - 1 - (k : Int))⟩ : BlobRef)) ∧
    mfind (emit_inputs w nr xs).1 a = some (c - (xs.count a : Int)) := by
  induction xs generalizing nr c with
  | nil => simp [emit_inputs, h]
  | cons x xs ih =>
    unfold emit_inputs
    by_cases hxa : x = a
    · subst hxa
      simp only [hw, Bool.false_eq_true, if_false, h]
      obtain ⟨ih1, ih2⟩ := ih (mset nr x (c - 1)) (c - 1) (mfind_mset_self _ _ _)
      constructor
      · rw [List.filter_cons]
        simp only [decide_True, if_true, ih1, List.count_cons_self, List.range_succ_eq_map,
          List.map_cons, List.map_map]
        congr 1
        · simp
        · apply List.map_congr_left
          intro k _
          simp only [Function.comp, BlobRef.mk.injEq, true_and, Option.some.injEq]
          push_cast; omega
      · rw [ih2, List.count_cons_self]; push_cast; congr 1; omega
    · have hcount : List.count a (x :: xs) = List.count a xs := by
        rw [List.count_cons]; simp [hxa]
      rw [hcount]
      by_cases hwx : mhas w x = true
      · simpa [hwx] using ih nr c h
      · simp only [hwx, Bool.false_eq_true, if_false]
        cases hf : mfind nr x with
        | none =>
          simp only
          rw [List.filter_cons]
          simpa [hxa] using ih nr c h
        | some cx =>
          simp only
          rw [List.filter_cons]
          have h' : mfind (mset nr x (cx - 1)) a = some c := by
            rw [mfind_mset_ne _ _ _ _ hxa]; exact h
          simpa [hxa] using ih _ c h'

theorem emit_splits_form (nr : List (String × Int)) (os : List String) (k : Nat) :
    ∀ l ∈ (emit_splits nr k os).2, ∃ (o : String) (c : Int) (j : Nat),
      o ∈ os ∧ mfind nr o = some c ∧ 1 < c ∧
      l = Line.split ⟨"Split", "splitncnn_" ++ toString j, 1, c, [⟨o, none⟩],
        split_outputs o c, []⟩ := by
  induction os generalizing k with
  | nil => simp [emit_splits]
  | cons o os ih =>
    intro l hl
    unfold emit_splits at hl
    cases hf : mfind nr o with
    | none =>
      simp only [hf] at hl
      obtain ⟨o', c, j, ho, h⟩ := ih k l hl
      exact ⟨o', c, j, List.mem_cons_of_mem _ ho, h⟩
    | some c =>
      simp only [hf] at hl
      by_cases hc : c > 1
      · simp only [hc, if_true] at hl
        rcases List.mem_cons.1 hl with rfl | hl
        · exact ⟨o, c, k, List.mem_cons_self _ _, hf, hc, rfl⟩
        · obtain ⟨o', c', j, ho, h⟩ := ih (k + 1) l hl
          exact ⟨o', c', j, List.mem_cons_of_mem _ ho, h⟩
      · simp only [hc, if_false] at hl
        obtain ⟨o', c', j, ho, h⟩ := ih k l hl
        exact ⟨o', c', j, List.mem_cons_of_mem _ ho, h⟩

theorem emit_splits_all_split (nr : List (String × Int)) (os : List String) (k : Nat) :
    ∀ l ∈ (emit_splits nr k os).2, l.is_split = true := by
  intro l hl
  obtain ⟨o, c, j, _, _, _, rfl⟩ := emit_splits_form nr os k l hl
  rfl

theorem emit_splits_mem (nr : List (String × Int)) (a : String) (n : Int)
    (hf : mfind nr a = some n) (hn : 1 < n) (os : List String) (k : Nat) (ha : a ∈ os) :
    ∃ j : Nat, Line.split ⟨"Split", "splitncnn_" ++ toString j, 1, n, [⟨a, none⟩],
      split_outputs a n, []⟩ ∈ (emit_splits nr k os).2 := by
  induction os generalizing k with
  | nil => cases ha
  | cons o os ih =>
    unfold emit_splits
    by_cases hoa : o = a
    · subst hoa
      simp only [hf, gt_iff_lt, hn, if_true]
      exact ⟨k, List.mem_cons_self _ _⟩
    · have ha' : a ∈ os := by
        rcases List.mem_cons.1 ha with h | h
        · exact absurd h.symm hoa
        · exact h
      cases hfo : mfind nr o with
      | none => simpa using ih k ha'
      | some c =>
        simp only
        by_cases hc : c > 1
        · simp only [hc, if_true]
          obtain ⟨j, hj⟩ := ih (k + 1) ha'
          exact ⟨j, List.mem_cons_of_mem _ hj⟩
        · simpa [hc] using ih k ha'

theorem node_input_refs_append (a : String) (p1 p2 : List Line) :
    node_input_refs a (p1 ++ p2) = node_input_refs a p1 ++ node_input_refs a p2 := by
  simp [node_input_refs, List.flatMap_append]

theorem node_input_refs_cons_node (a : String) (layer : Layer) (p : List Line) :
    node_input_refs a (Line.node layer :: p)
      = layer.inputs.filter (fun r => decide (r.base = a)) ++ node_input_refs a p := by
  simp [node_input_refs, List.flatMap_cons]

theorem node_input_refs_splits (a : String) (nr : List (String × Int)) (os : List String)
    (k : Nat) : node_input_refs a (emit_splits nr k os).2 = [] := by
  have h := emit_splits_form nr os k
  generalize (emit_splits nr k os).2 = ls at h
  induction ls with
  | nil => rfl
  | cons l ls ih =>
    obtain ⟨o, c, j, _, _, _, rfl⟩ := h l (List.mem_cons_self _ _)
    have := ih (fun l' hl' => h l' (List.mem_cons_of_mem _ hl'))
    simpa [node_input_refs, List.flatMap_cons] using this

theorem node_input_refs_graph_inputs (a : String) (w : List (String × Nat))
    (xs : List String) : node_input_refs a (emit_graph_inputs w xs) = [] := by
  induction xs with
  | nil => rfl
  | cons x xs ih =>
    unfold emit_graph_inputs
    by_cases hw : mhas w x = true
    · simpa [hw] using ih
    · simpa [hw, node_input_refs, List.flatMap_cons] using ih

theorem emit_graph_inputs_form (w : List (String × Nat)) (xs : List String) :
    ∀ l ∈ emit_graph_inputs w xs,
      ∃ x, l = Line.input ⟨"Input", x, 0, 1, [], [⟨x, none⟩], []⟩ := by
  induction xs with
  | nil => simp [emit_graph_inputs]
  | cons x xs ih =>
    intro l hl
    unfold emit_graph_inputs at hl
    by_cases hw : mhas w x = true
    · simp only [hw, if_true] at hl; exact ih l hl
    · simp only [hw, Bool.false_eq_true, if_false] at hl
      rcases List.mem_cons.1 hl with rfl | hl
      · exact ⟨x, rfl⟩
      · exact ih l hl

theorem mem_split_outputs {o : String} {c : Int} {r : BlobRef} (h : r ∈ split_outputs o c) :
    r.base = o := by
  unfold split_outputs at h
  obtain ⟨k, _, rfl⟩ := List.mem_map.1 h
  rfl

/-- A name that is not a key of `node_reference` stays so during the second
pass, no reference to it gets a split index and no `Split` line is printed for
it. -/
theorem emit_nodes_absent {fadd : F32 → F32 → F32} {graph : GraphProto} (a : String)
    (nodes : List NodeProto) (st st' : Emit)
    (h : emit_nodes fadd graph st nodes = some st')
    (hnr : mfind st.node_reference a = none) (hpp : ∀ l ∈ st.pp, line_untouched a l) :
    mfind st'.node_reference a = none ∧ ∀ l ∈ st'.pp, line_untouched a l := by
  induction nodes generalizing st with
  | nil => simp only [emit_nodes, Option.some.injEq] at h; subst h; exact ⟨hnr, hpp⟩
  | cons node nodes ih =>
    obtain ⟨st1, h1, h2⟩ := emit_nodes_cons h
    rcases emit_node_cases h1 with ⟨_, name, _, rfl⟩ | ⟨_, name, low, _, _, rfl⟩
    · exact ih _ h2 hnr hpp
    · obtain ⟨hi1, hi2⟩ := emit_inputs_absent st.weight_nodes a node.input st.node_reference hnr
      apply ih _ h2 hi1
      intro l hl
      simp only [List.mem_append, List.mem_cons] at hl
      rcases hl with hl | rfl | hl
      · exact hpp l hl
      · refine ⟨hi2, ?_⟩
        intro layer hl; cases hl
      · obtain ⟨o, c, j, _, hf, _, rfl⟩ := emit_splits_form _ _ _ l hl
        have hoa : o ≠ a := by rintro rfl; rw [hi1] at hf; cases hf
        constructor
        · intro r hr _
          simp only [Line.layer, List.mem_singleton] at hr
          subst hr; rfl
        · intro layer hl r hr
          cases hl
          simp only [List.mem_append, List.mem_singleton] at hr
          rcases hr with rfl | hr
          · exact hoa
          · rw [mem_split_outputs hr]; exact hoa

/-- A name with at most one input slot is not a key of the pruned
`node_reference`. -/
theorem header_absent_of_slot_le_one {graph : GraphProto} {h : Header}
    (hh : header graph = some h) (a : String) (hs : slot_count a graph.node ≤ 1) :
    mfind h.node_reference a = none := by
  obtain ⟨pst, hp, _, hr, _, _⟩ := header_cases hh
  rw [header_ref_count hp hr a]
  have hinv := prep_nodes_inv graph.node (prep_start graph) pst hp
    (by intro k v hk; simp [prep_start, mfind] at hk) (by simp [prep_start, keys])
  have hle := (prep_nodes_ref_count a graph.node (prep_start graph) pst hp).1
  cases hf : mfind pst.node_reference a with
  | none => rfl
  | some v =>
    have h1 := hinv.1 a v hf
    simp only [ref_count, hf, prep_start, mfind, Option.getD_some, Option.getD_none] at hle
    have hv : v = 1 := by omega
    simp [hv]

/-- The references to a name that never is a weight, printed by the second
pass over `nodes` from a state in which its count is `c`: one per input slot,
with the indices `c - 1`, `c - 2`, ... in this order. -/
theorem emit_nodes_refs {fadd : F32 → F32 → F32} {graph : GraphProto} (a : String)
    (nodes : List NodeProto) (st st' : Emit) (c : Int)
    (h : emit_nodes fadd graph st nodes = some st')
    (hw : mhas st'.weight_nodes a = false) (hc : mfind st.node_reference a = some c) :
    node_input_refs a st'.pp = node_input_refs a st.pp
      ++ (List.range (slot_count a nodes)).map
          (fun (k : Nat) => (⟨a, some (c - 1 - (k : Int))⟩ : BlobRef)) ∧
    mfind st'.node_reference a = some (c - (slot_count a nodes : Int)) := by
  induction nodes generalizing st c with
  | nil =>
    simp only [emit_nodes, Option.some.injEq] at h; subst h
    simp [slot_count, hc]
  | cons node nodes ih =>
    obtain ⟨st1, h1, h2⟩ := emit_nodes_cons h
    have hw1 : mhas st1.weight_nodes a = false := by
      cases hh : mhas st1.weight_nodes a with
      | false => rfl
      | true => have := emit_nodes_weights_mono h2 a hh; rw [hw] at this; cases this
    have hw0 : mhas st.weight_nodes a = false := by
      cases hh : mhas st.weight_nodes a with
      | false => rfl
      | true => have := emit_node_weights_mono h1 a hh; rw [hw1] at this; cases this
    rw [slot_count_cons]
    rcases emit_node_cases h1 with ⟨hwr, name, _, rfl⟩ | ⟨_, name, low, _, _, rfl⟩
    · obtain ⟨x, hx, hxw⟩ := is_weight_reshape_input hwr
      have hxa : x ≠ a := by rintro rfl; rw [hw0] at hxw; cases hxw
      have hcount : node.input.count a = 0 := by
        rw [hx]; exact List.count_eq_zero.2 (by simpa using Ne.symm hxa)
      rw [hcount, Nat.zero_add]
      have hih := ih _ c h2 hc
      exact hih
    · obtain ⟨hi1, hi2⟩ := emit_inputs_present st.weight_nodes a hw0 node.input
        st.node_reference c hc
      obtain ⟨ih1, ih2⟩ := ih _ _ h2 hi2
      constructor
      · rw [ih1]
        simp only [node_input_refs_append, node_input_refs_cons_node, node_input_refs_splits,
          List.append_nil, hi1, List.append_assoc, List.range_add, List.map_append,
          List.map_map]
        congr 2
        apply List.map_congr_left
        intro k _
        simp only [Function.comp, BlobRef.mk.injEq, true_and, Option.some.injEq]
        push_cast; omega
      · rw [ih2]; push_cast; congr 1; omega

/-! ## Lemmas on the header counts -/

theorem keys_init_weights (ts : List TensorProto) (m : List (String × Nat)) (j : Nat)
    (hnd : (keys m ++ ts.map (fun t => t.name)).Nodup) :
    keys (init_weights m j ts) = keys m ++ ts.map (fun t => t.name) := by
  induction ts generalizing m j with
  | nil => simp [init_weights]
  | cons t ts ih =>
    have hfresh : mhas m t.name = false := by
      cases hx : mhas m t.name with
      | false => rfl
      | true =>
        have hm := (mhas_iff_mem_keys m t.name).1 hx
        rw [List.nodup_append] at hnd
        exact (hnd.2.2 hm (List.mem_cons_self _ _)).elim
    have hk : keys (mset m t.name j) = keys m ++ [t.name] := by
      rw [keys_mset, hfresh]; rfl
    unfold init_weights
    rw [ih _ _ (by rw [hk]; simpa using hnd), hk]
    simp

theorem elided_names_cons {st st1 : Prep} {node : NodeProto} {nodes : List NodeProto}
    (h1 : prep_node st node = some st1) :
    elided_names st (node :: nodes)
      = (if is_weight_reshape st.weight_nodes node then [(node_name node).getD ""] else [])
        ++ elided_names st1 nodes := by
  simp [elided_names, h1]

theorem runtime_names_cons {st st1 : Prep} {node : NodeProto} {nodes : List NodeProto}
    (h1 : prep_node st node = some st1) :
    runtime_names st (node :: nodes)
      = (if is_weight_reshape st.weight_nodes node then []
          else node.input.filter (fun x => !mhas st.weight_nodes x) ++ node.output)
        ++ runtime_names st1 nodes := by
  simp [runtime_names, h1]

/-- When the names registered are new keys, the weight map after the first pass
holds the old keys followed by the names registered. -/
theorem keys_prep_nodes (nodes : List NodeProto) (st st' : Prep)
    (h : prep_nodes st nodes = some st')
    (hnd : (keys st.weight_nodes ++ elided_names st nodes).Nodup) :
    keys st'.weight_nodes = keys st.weight_nodes ++ elided_names st nodes := by
  induction nodes generalizing st with
  | nil =>
    simp only [prep_nodes, Option.some.injEq] at h; subst h
    simp [elided_names]
  | cons node nodes ih =>
    obtain ⟨st1, h1, h2⟩ := prep_nodes_cons h
    rw [elided_names_cons h1] at hnd ⊢
    rcases prep_node_cases h1 with ⟨hw, name, hname, rfl⟩ | ⟨hw, rfl⟩
    · simp only [hw, if_true, hname, Option.getD_some] at hnd ⊢
      have hfresh : mhas st.weight_nodes name = false := by
        cases hx : mhas st.weight_nodes name with
        | false => rfl
        | true =>
          have hm := (mhas_iff_mem_keys _ name).1 hx
          rw [List.nodup_append] at hnd
          exact (hnd.2.2 hm (by simp)).elim
      have hk : keys (register_alias st.weight_nodes name (node.input.getD 0 ""))
          = keys st.weight_nodes ++ [name] := by
        unfold register_alias; rw [keys_mset, hfresh]; rfl
      have hih := ih _ h2 (by simp only [hk]; simpa using hnd)
      rw [hih, hk]; simp
    · simp only [hw, Bool.false_eq_true, if_false, List.nil_append] at hnd ⊢
      exact ih _ h2 hnd

theorem prep_graph_inputs_count (w : List (String × Nat)) (xs : List String)
    (st : Nat × List String) :
    (prep_graph_inputs w st xs).1 = st.1 + (xs.filter (fun x => !mhas w x)).length := by
  induction xs generalizing st with
  | nil => simp [prep_graph_inputs]
  | cons x xs ih =>
    unfold prep_graph_inputs
    by_cases hw : mhas w x = true
    · simp [hw, ih]
    · simp [hw, ih, List.filter_cons]; omega

theorem prep_input_blobs (w : List (String × Nat)) (st : List (String × Int) × List String)
    (x : String) :
    (prep_input w st x).2 = if mhas w x then st.2 else set_insert st.2 x := by
  unfold prep_input
  by_cases hw : mhas w x = true
  · simp [hw]
  · simp only [hw, Bool.false_eq_true, if_false]
    cases mfind st.1 x <;> rfl

theorem foldl_prep_input_blobs (w : List (String × Nat)) (xs : List String)
    (st : List (String × Int) × List String) (hnd : st.2.Nodup) :
    (xs.foldl (prep_input w) st).2.Nodup ∧
    ∀ y, y ∈ (xs.foldl (prep_input w) st).2
      ↔ y ∈ st.2 ∨ y ∈ xs.filter (fun x => !mhas w x) := by
  induction xs generalizing st with
  | nil => simp [hnd]
  | cons x xs ih =>
    rw [List.foldl_cons]
    have hb := prep_input_blobs w st x
    by_cases hw : mhas w x = true
    · simp only [hw, if_true] at hb
      obtain ⟨h1, h2⟩ := ih (prep_input w st x) (by rw [hb]; exact hnd)
      refine ⟨h1, fun y => ?_⟩
      rw [h2 y, hb, List.filter_cons]; simp [hw]
    · simp only [hw, Bool.false_eq_true, if_false] at hb
      obtain ⟨h1, h2⟩ := ih (prep_input w st x) (by rw [hb]; exact nodup_set_insert _ _ hnd)
      refine ⟨h1, fun y => ?_⟩
      rw [h2 y, hb, List.filter_cons, mem_set_insert]
      simp only [hw, Bool.not_false, if_true, List.mem_cons, Bool.false_eq_true]
      tauto

/-- The blob names after the first pass over `nodes`: no duplicate, and the
names met are those of `runtime_names`. -/
theorem prep_nodes_blobs (nodes : List NodeProto) (st st' : Prep)
    (h : prep_nodes st nodes = some st') (hnd : st.blob_names.Nodup) :
    st'.blob_names.Nodup ∧
    ∀ y, y ∈ st'.blob_names ↔ y ∈ st.blob_names ∨ y ∈ runtime_names st nodes := by
  induction nodes generalizing st with
  | nil =>
    simp only [prep_nodes, Option.some.injEq] at h; subst h
    simp [runtime_names, hnd]
  | cons node nodes ih =>
    obtain ⟨st1, h1, h2⟩ := prep_nodes_cons h
    rw [runtime_names_cons h1]
    rcases prep_node_cases h1 with ⟨hw, name, _, rfl⟩ | ⟨hw, rfl⟩
    · obtain ⟨i1, i2⟩ := ih _ h2 hnd
      refine ⟨i1, fun y => ?_⟩
      rw [i2 y]; simp [hw]
    · obtain ⟨f1, f2⟩ := foldl_prep_input_blobs st.weight_nodes node.input
        (st.node_reference, st.blob_names) hnd
      obtain ⟨i1, i2⟩ := ih _ h2 (nodup_foldl_set_insert _ _ f1)
      refine ⟨i1, fun y => ?_⟩
      rw [i2 y]
      simp only [mem_foldl_set_insert, f2 y, hw, Bool.false_eq_true, if_false,
        List.mem_append]
      tauto

theorem prep_graph_inputs_blobs (w : List (String × Nat)) (xs : List String)
    (st : Nat × List String) (hnd : st.2.Nodup) :
    (prep_graph_inputs w st xs).2.Nodup ∧
    ∀ y, y ∈ (prep_graph_inputs w st xs).2
      ↔ y ∈ st.2 ∨ y ∈ xs.filter (fun x => !mhas w x) := by
  induction xs generalizing st with
  | nil => simp [prep_graph_inputs, hnd]
  | cons x xs ih =>
    unfold prep_graph_inputs
    by_cases hw : mhas w x = true
    · simp only [hw, if_true]
      obtain ⟨h1, h2⟩ := ih st hnd
      refine ⟨h1, fun y => ?_⟩
      rw [h2 y, List.filter_cons]; simp [hw]
    · simp only [hw, Bool.false_eq_true, if_false]
      obtain ⟨h1, h2⟩ := ih (st.1 + 1, set_insert st.2 x) (nodup_set_insert _ _ hnd)
      refine ⟨h1, fun y => ?_⟩
      rw [h2 y, List.filter_cons, mem_set_insert]
      simp only [hw, Bool.not_false, if_true, List.mem_cons]
      tauto

theorem length_eq_dedup_length (l l' : List String) (hnd : l.Nodup)
    (hmem : ∀ y, y ∈ l ↔ y ∈ l') : l.length = l'.dedup.length := by
  rw [← List.toFinset_card_of_nodup hnd, ← List.card_toFinset]
  congr 1
  ext y
  simp [hmem y]

/-! ## Lemmas on the aliases of weights -/

theorem reshape_names_append (l1 l2 : List NodeProto) :
    reshape_names (l1 ++ l2) = reshape_names l1 ++ reshape_names l2 := by
  simp [reshape_names, List.filterMap_append]

theorem reshape_names_single {node : NodeProto} {x name : String}
    (hop : node.op_type = "Reshape") (hin : node.input = [x])
    (hname : node_name node = some name) : reshape_names [node] = [name] := by
  simp [reshape_names, List.filterMap_cons, hop, hin, hname]

theorem mem_reshape_names {nodes : List NodeProto} {node : NodeProto} {x name : String}
    (hm : node ∈ nodes) (hop : node.op_type = "Reshape") (hin : node.input = [x])
    (hname : node_name node = some name) : name ∈ reshape_names nodes := by
  unfold reshape_names
  rw [List.mem_filterMap]
  exact ⟨node, hm, by simp [hop, hin, hname]⟩

theorem is_weight_reshape_op {weight_nodes : List (String × Nat)} {node : NodeProto}
    (h : is_weight_reshape weight_nodes node = true) : node.op_type = "Reshape" := by
  unfold is_weight_reshape at h
  simp only [Bool.and_eq_true, decide_eq_true_eq] at h
  exact h.1.1

theorem is_weight_reshape_of {weight_nodes : List (String × Nat)} {node : NodeProto}
    {x : String} (hop : node.op_type = "Reshape") (hin : node.input = [x])
    (hx : mhas weight_nodes x = true) : is_weight_reshape weight_nodes node = true := by
  simp [is_weight_reshape, hop, hin, hx]

theorem mhas_of_mfind {β : Type} {m : List (String × β)} {k : String} {v : β}
    (h : mfind m k = some v) : mhas m k = true := by
  simp [mhas, h]

theorem mhas_init_weights (ts : List TensorProto) (m : List (String × Nat)) (j : Nat)
    (k : String) (h : mhas (init_weights m j ts) k = true) :
    mhas m k = true ∨ k ∈ ts.map (fun t => t.name) := by
  induction ts generalizing m j with
  | nil => exact Or.inl h
  | cons t ts ih =>
    unfold init_weights at h
    rcases ih _ _ h with h' | h'
    · rw [mhas_mset] at h'
      simp only [Bool.or_eq_true, decide_eq_true_eq] at h'
      rcases h' with rfl | h'
      · exact Or.inr (by simp)
      · exact Or.inl h'
    · exact Or.inr (List.mem_cons_of_mem _ h')

theorem weights_le_mset_fresh (w : List (String × Nat)) (k : String) (v : Nat)
    (hfresh : mhas w k = false) : weights_le w (mset w k v) := by
  intro k' v' hk'
  have hne : k ≠ k' := by
    rintro rfl
    rw [mhas_of_mfind hk'] at hfresh; cases hfresh
  rw [mfind_mset_ne _ _ _ _ hne]; exact hk'

/-- One turn of the first pass keeps `alias_inv` and the bindings made, when
the names of the reshape nodes are pairwise distinct and distinct from the
initializer names. -/
theorem prep_node_alias (inits names : List String) (hU : names.Nodup)
    (hdis : ∀ k ∈ names, k ∉ inits) (done : List NodeProto) (node : NodeProto)
    (st st1 : Prep) (h1 : prep_node st node = some st1)
    (hinv : alias_inv inits done st.weight_nodes)
    (hsub : (reshape_names (done ++ [node])).Sublist names) :
    alias_inv inits (done ++ [node]) st1.weight_nodes ∧
      weights_le st.weight_nodes st1.weight_nodes := by
  have hnd : (reshape_names done ++ reshape_names [node]).Nodup := by
    rw [← reshape_names_append]; exact hU.sublist hsub
  have hin_names : ∀ k ∈ reshape_names (done ++ [node]), k ∈ names :=
    fun k hk => hsub.subset hk
  obtain ⟨hkeys, hclosed⟩ := hinv
  -- the name of this node, when it is a single-input reshape, is not yet a key
  have hfresh : ∀ name x, node.op_type = "Reshape" → node.input = [x] →
      node_name node = some name → mhas st.weight_nodes name = false := by
    intro name x hop hin hname
    have hs := reshape_names_single hop hin hname
    cases hx : mhas st.weight_nodes name with
    | false => rfl
    | true =>
      rcases hkeys name hx with hi | hd
      · have : name ∈ reshape_names (done ++ [node]) := by
          rw [reshape_names_append, hs]; simp
        exact absurd hi (hdis name (hin_names name this))
      · rw [hs] at hnd
        exact ((List.nodup_append.1 hnd).2.2 hd (List.mem_singleton_self _)).elim
  rcases prep_node_cases h1 with ⟨hw, name, hname, rfl⟩ | ⟨hw, rfl⟩
  · obtain ⟨x, hin, hxw⟩ := is_weight_reshape_input hw
    have hop := is_weight_reshape_op hw
    have hfr := hfresh name x hop hin hname
    have hs := reshape_names_single hop hin hname
    have hle : weights_le st.weight_nodes
        (register_alias st.weight_nodes name (node.input.getD 0 "")) :=
      weights_le_mset_fresh _ _ _ hfr
    refine ⟨⟨?_, ?_⟩, hle⟩
    · intro k hk
      simp only [register_alias, mhas_mset, Bool.or_eq_true, decide_eq_true_eq] at hk
      rw [reshape_names_append, hs]
      rcases hk with rfl | hk
      · exact Or.inr (by simp)
      · rcases hkeys k hk with h | h
        · exact Or.inl h
        · exact Or.inr (List.mem_append_left _ h)
    · intro nd hnd' name' x' hop' hin' hname' hmem
      have hxne : x ≠ name := by
        rintro rfl; rw [hfr] at hxw; cases hxw
      rcases List.mem_append.1 hnd' with hd | hd
      · have hn' : name' ∈ reshape_names done := mem_reshape_names hd hop' hin' hname'
        have hne : name ≠ name' := by
          rintro rfl
          rw [hs] at hnd
          exact (List.nodup_append.1 hnd).2.2 hn' (List.mem_singleton_self _)
        simp only [register_alias, mhas_mset, Bool.or_eq_true, decide_eq_true_eq] at hmem
        have hmem' : mhas st.weight_nodes name' = true := by
          rcases hmem with h | h
          · exact absurd h hne
          · exact h
        have heq := hclosed nd hd name' x' hop' hin' hname' hmem'
        cases hf : mfind st.weight_nodes name' with
        | none => simp [mhas, hf] at hmem'
        | some v =>
          rw [hf] at heq
          rw [hle name' v hf, hle x' v heq.symm]
      · simp only [List.mem_singleton] at hd
        subst hd
        rw [hin] at hin'
        simp only [List.cons.injEq, and_true] at hin'
        subst hin'
        rw [hname] at hname'
        simp only [Option.some.injEq] at hname'
        subst hname'
        simp only [register_alias, hin, List.getD_cons_zero]
        rw [mfind_mset_self, mfind_mset_ne _ _ _ _ (Ne.symm hxne)]
        cases hf : mfind st.weight_nodes x with
        | none => simp [mhas, hf] at hxw
        | some v => rfl
  · refine ⟨⟨?_, ?_⟩, weights_le_refl _⟩
    · intro k hk
      rcases hkeys k hk with h | h
      · exact Or.inl h
      · exact Or.inr (by rw [reshape_names_append]; exact List.mem_append_left _ h)
    · intro nd hnd' name' x' hop' hin' hname' hmem
      rcases List.mem_append.1 hnd' with hd | hd
      · exact hclosed nd hd name' x' hop' hin' hname' hmem
      · simp only [List.mem_singleton] at hd
        subst hd
        rw [hfresh name' x' hop' hin' hname'] at hmem
        cases hmem

theorem prep_nodes_alias (inits names : List String) (hU : names.Nodup)
    (hdis : ∀ k ∈ names, k ∉ inits) (rest : List NodeProto) (done : List NodeProto)
    (st st' : Prep) (h : prep_nodes st rest = some st')
    (hinv : alias_inv inits done st.weight_nodes)
    (hsub : (reshape_names (done ++ rest)).Sublist names) :
    alias_inv inits (done ++ rest) st'.weight_nodes ∧
      weights_le st.weight_nodes st'.weight_nodes := by
  induction rest generalizing done st with
  | nil =>
    simp only [prep_nodes, Option.some.injEq] at h; subst h
    simpa using ⟨hinv, weights_le_refl _⟩
  | cons node rest ih =>
    obtain ⟨st1, h1, h2⟩ := prep_nodes_cons h
    have hsub1 : (reshape_names (done ++ [node])).Sublist names := by
      refine List.Sublist.trans ?_ hsub
      have : done ++ node :: rest = (done ++ [node]) ++ rest := by simp
      rw [this, reshape_names_append (done ++ [node]) rest]
      exact List.sublist_append_left _ _
    obtain ⟨hi1, hl1⟩ := prep_node_alias inits names hU hdis done node st st1 h1 hinv hsub1
    have hsub2 : (reshape_names ((done ++ [node]) ++ rest)).Sublist names := by
      simpa using hsub
    obtain ⟨hi2, hl2⟩ := ih (done ++ [node]) st1 h2 hi1 hsub2
    exact ⟨by simpa using hi2, weights_le_trans hl1 hl2⟩

theorem prep_nodes_append (l1 l2 : List NodeProto) {st st' : Prep}
    (h : prep_nodes st (l1 ++ l2) = some st') :
    ∃ st1, prep_nodes st l1 = some st1 ∧ prep_nodes st1 l2 = some st' := by
  induction l1 generalizing st with
  | nil => exact ⟨st, rfl, h⟩
  | cons node l1 ih =>
    obtain ⟨s1, h1, h2⟩ := prep_nodes_cons (by simpa using h)
    obtain ⟨s2, h3, h4⟩ := ih h2
    exact ⟨s2, by simp [prep_nodes, h1, h3], h4⟩

/-- The second pass keeps every binding of a map `w0` that is closed for the
nodes it visits. -/
theorem emit_nodes_alias {fadd : F32 → F32 → F32} {graph : GraphProto}
    (w0 : List (String × Nat)) (nodes : List NodeProto) (st st' : Emit)
    (h : emit_nodes fadd graph st nodes = some st')
    (hle : weights_le w0 st.weight_nodes) (hcl : ∀ node ∈ nodes, alias_closed w0 node) :
    weights_le w0 st'.weight_nodes := by
  induction nodes generalizing st with
  | nil => simp only [emit_nodes, Option.some.injEq] at h; subst h; exact hle
  | cons node nodes ih =>
    obtain ⟨st1, h1, h2⟩ := emit_nodes_cons h
    apply ih st1 h2 _ (fun nd hnd => hcl nd (List.mem_cons_of_mem _ hnd))
    rcases emit_node_cases h1 with ⟨hw, name, hname, rfl⟩ | ⟨_, name, low, _, hl, rfl⟩
    · obtain ⟨x, hin, hxw⟩ := is_weight_reshape_input hw
      have hop := is_weight_reshape_op hw
      intro k v hk
      simp only [register_alias, hin, List.getD_cons_zero]
      by_cases hkn : name = k
      · subst hkn
        have := hcl node (List.mem_cons_self _ _) name x hop hin hname (mhas_of_mfind hk)
        rw [hk] at this
        rw [mfind_mset_self, hle x v this.symm]; rfl
      · rw [mfind_mset_ne _ _ _ _ hkn]; exact hle k v hk
    · exact weights_le_trans hle (lower_le hl)

/-! ## Convolution and batch normalization -/

theorem lower_of_conv (fadd : F32 → F32 → F32) (graph : GraphProto)
    (weight_nodes : List (String × Nat)) (bp : List Nat) (node : NodeProto)
    (hop : node.op_type = "Conv") :
    lower fadd graph weight_nodes bp node = lower_conv graph weight_nodes bp node := by
  simp [lower, hop]

theorem lower_of_batchnorm (fadd : F32 → F32 → F32) (graph : GraphProto)
    (weight_nodes : List (String × Nat)) (bp : List Nat) (node : NodeProto)
    (hop : node.op_type = "BatchNormalization") :
    lower fadd graph weight_nodes bp node
      = lower_batchnorm fadd graph weight_nodes bp node := by
  simp [lower, hop]

/-- The result of the `Conv` branch when the weight resolves and the bias
index, found or inserted, is that of an initializer. -/
theorem lower_conv_eq_gen (graph : GraphProto)
    (weight_nodes : List (String × Nat)) (bp : List Nat) (node : NodeProto)
    (w b : String) (iw : Nat) (W B : TensorProto) (d : Int) (ds : List Int)
    (hin : node.input[1]? = some w)
    (hw : mfind weight_nodes w = some iw) (hW : graph.initializer[iw]? = some W)
    (hd : W.dims = d :: ds)
    (hbias : node.input.length = 3 → node.input[2]? = some b ∧
      graph.initializer[(weight_index weight_nodes b).1]? = some B) :
    lower_conv graph weight_nodes bp node = some
      ⟨[⟨0, .int (toInt32 d)⟩] ++ pair_params 1 (get_node_attr_ai node "kernel_shape")
          ++ pair_params 2 (get_node_attr_ai node "dilations")
          ++ pair_params 3 (get_node_attr_ai node "strides")
          ++ pads_params 4 (get_node_attr_ai node "pads")
          ++ [⟨5, .int (if node.input.length = 3 then 1 else 0)⟩,
              ⟨6, .int (get_tensor_proto_data_size W)⟩]
          ++ (if get_node_attr_i node "group" 1 > 1
              then [⟨7, .int (get_node_attr_i node "group" 1)⟩] else []),
        bp ++ [0, 0, 0, 0] ++ fwrite_tensor_proto_data W []
          ++ (if node.input.length = 3 then fwrite_tensor_proto_data B [] else []),
        if node.input.length = 3 then (weight_index weight_nodes b).2 else weight_nodes,
        []⟩ := by
  by_cases h3 : node.input.length = 3
  · obtain ⟨hb2, hB⟩ := hbias h3
    simp [lower_conv, hin, weight_index_of_mem hw, hW, hd, hb2, hB, h3]
    rw [fwrite_eq_append B, fwrite_eq_append W]
    simp
  · simp [lower_conv, hin, weight_index_of_mem hw, hW, hd, h3]
    rw [fwrite_eq_append W]
    simp

/-- The result of the `Conv` branch when the constants it looks up resolve. -/
theorem lower_conv_eq (graph : GraphProto)
    (weight_nodes : List (String × Nat)) (bp : List Nat) (node : NodeProto)
    (w b : String) (iw ib : Nat) (W B : TensorProto) (d : Int) (ds : List Int)
    (hin : node.input[1]? = some w)
    (hw : mfind weight_nodes w = some iw) (hW : graph.initializer[iw]? = some W)
    (hd : W.dims = d :: ds)
    (hbias : node.input.length = 3 → node.input[2]? = some b ∧
      mfind weight_nodes b = some ib ∧ graph.initializer[ib]? = some B) :
    lower_conv graph weight_nodes bp node = some
      ⟨[⟨0, .int (toInt32 d)⟩] ++ pair_params 1 (get_node_attr_ai node "kernel_shape")
          ++ pair_params 2 (get_node_attr_ai node "dilations")
          ++ pair_params 3 (get_node_attr_ai node "strides")
          ++ pads_params 4 (get_node_attr_ai node "pads")
          ++ [⟨5, .int (if node.input.length = 3 then 1 else 0)⟩,
              ⟨6, .int (get_tensor_proto_data_size W)⟩]
          ++ (if get_node_attr_i node "group" 1 > 1
              then [⟨7, .int (get_node_attr_i node "group" 1)⟩] else []),
        bp ++ [0, 0, 0, 0] ++ fwrite_tensor_proto_data W []
          ++ (if node.input.length = 3 then fwrite_tensor_proto_data B [] else []),
        weight_nodes, []⟩ := by
  have h := lower_conv_eq_gen graph weight_nodes bp node w b iw W B d ds hin hw hW hd
    (fun h3 => ⟨(hbias h3).1, by
      rw [weight_index_of_mem (hbias h3).2.1]; exact (hbias h3).2.2⟩)
  rw [h]
  by_cases h3 : node.input.length = 3
  · simp [h3, weight_index_of_mem (hbias h3).2.1]
  · simp [h3]

/-- C7, as stated, fails: for the 3x3 convolution with stride 1, pad 1, group 1
and a bias the params printed are `0=2 1=3 11=3 3=1 13=1 4=1 14=1 5=1 6=18`,
not `0=2 1=3 2=1 3=1 5=1 6=18`. -/
theorem C7_counterexample :
    (lower fadd_bits conv3x3_graph [("W", 0), ("B", 1)] [] conv3x3_node).map
        (fun low => low.params)
      = some [⟨0, .int 2⟩, ⟨1, .int 3⟩, ⟨11, .int 3⟩, ⟨3, .int 1⟩, ⟨13, .int 1⟩,
          ⟨4, .int 1⟩, ⟨14, .int 1⟩, ⟨5, .int 1⟩, ⟨6, .int 18⟩]
    ∧ (lower fadd_bits conv3x3_graph [("W", 0), ("B", 1)] [] conv3x3_node).map
        (fun low => low.params)
      ≠ some [⟨0, .int 2⟩, ⟨1, .int 3⟩, ⟨2, .int 1⟩, ⟨3, .int 1⟩, ⟨5, .int 1⟩,
          ⟨6, .int 18⟩] := by
  decide

/-- C7, amended: a `Conv` node with kernel_shape [3,3], strides [1,1], pads
[1,1], no dilations, group 1 and three inputs, whose weight and bias resolve in
the weight map, is a `Convolution` layer with params
`0=<filters> 1=3 11=3 3=1 13=1 4=1 14=1 5=1 6=<elementCount(weight)>` and no
`7=`; it appends four zero bytes, then the weight floats, then the bias floats,
and leaves the weight map unchanged. -/
theorem C7_conv3x3 (fadd : F32 → F32 → F32) (graph : GraphProto)
    (weight_nodes : List (String × Nat)) (bp : List Nat) (node : NodeProto)
    (x w b : String) (iw ib : Nat) (W B : TensorProto) (d : Int) (ds : List Int)
    (hop : node.op_type = "Conv") (hin : node.input = [x, w, b])
    (hw : mfind weight_nodes w = some iw) (hb : mfind weight_nodes b = some ib)
    (hW : graph.initializer[iw]? = some W) (hB : graph.initializer[ib]? = some B)
    (hd : W.dims = d :: ds)
    (hk : get_node_attr_ai node "kernel_shape" = [3, 3])
    (hdil : get_node_attr_ai node "dilations" = [])
    (hs : get_node_attr_ai node "strides" = [1, 1])
    (hp : get_node_attr_ai node "pads" = [1, 1])
    (hg : get_node_attr_i node "group" 1 = 1) :
    layer_type node = "Convolution" ∧
    lower fadd graph weight_nodes bp node = some
      ⟨[⟨0, .int (toInt32 d)⟩, ⟨1, .int 3⟩, ⟨11, .int 3⟩, ⟨3, .int 1⟩, ⟨13, .int 1⟩,
        ⟨4, .int 1⟩, ⟨14, .int 1⟩, ⟨5, .int 1⟩, ⟨6, .int (get_tensor_proto_data_size W)⟩],
       bp ++ [0, 0, 0, 0] ++ fwrite_tensor_proto_data W [] ++ fwrite_tensor_proto_data B [],
       weight_nodes, []⟩ := by
  constructor
  · simp [layer_type, hop, hg]
  · simp only [lower, hop]
    simp [lower_conv, hin, hw, hb, hW, hB, hd, hk, hdil, hs, hp, hg, weight_index,
      pair_params, pads_params]
    rw [fwrite_eq_append B, fwrite_eq_append W]
    simp

/-- Witness of C7 on the sample graph. -/
theorem C7_conv3x3_witness :
    layer_type conv3x3_node = "Convolution" ∧
    lower fadd_bits conv3x3_graph [("W", 0), ("B", 1)] [7] conv3x3_node = some
      ⟨[⟨0, .int (toInt32 2)⟩, ⟨1, .int 3⟩, ⟨11, .int 3⟩, ⟨3, .int 1⟩, ⟨13, .int 1⟩,
        ⟨4, .int 1⟩, ⟨14, .int 1⟩, ⟨5, .int 1⟩,
        ⟨6, .int (get_tensor_proto_data_size conv_W)⟩],
       [7] ++ [0, 0, 0, 0] ++ fwrite_tensor_proto_data conv_W []
         ++ fwrite_tensor_proto_data conv_B [],
       [("W", 0), ("B", 1)], []⟩ :=
  C7_conv3x3 fadd_bits conv3x3_graph [("W", 0), ("B", 1)] [7] conv3x3_node "x" "W" "B" 0 1
    conv_W conv_B 2 [1, 3, 3] rfl rfl rfl rfl rfl rfl rfl rfl rfl rfl rfl rfl

/-- C8: a `Conv` node whose weight input (and bias input, when it has three
inputs) resolves in the weight map appends to the weight stream exactly four
zero bytes, then the `4 * elementCount(weight)` bytes of the weight floats, then
the bias floats if and only if the node has exactly three inputs, which is when
param 5 is 1. -/
theorem C8_conv_payload (fadd : F32 → F32 → F32) (graph : GraphProto)
    (weight_nodes : List (String × Nat)) (bp : List Nat) (node : NodeProto)
    (w b : String) (iw ib : Nat) (W B : TensorProto) (d : Int) (ds : List Int)
    (hop : node.op_type = "Conv") (hin : node.input[1]? = some w)
    (hw : mfind weight_nodes w = some iw) (hW : graph.initializer[iw]? = some W)
    (hd : W.dims = d :: ds)
    (hbias : node.input.length = 3 → node.input[2]? = some b ∧
      mfind weight_nodes b = some ib ∧ graph.initializer[ib]? = some B) :
    ∃ low, lower fadd graph weight_nodes bp node = some low ∧
      low.bp = bp ++ [0, 0, 0, 0] ++ fwrite_tensor_proto_data W []
        ++ (if node.input.length = 3 then fwrite_tensor_proto_data B [] else []) ∧
      (fwrite_tensor_proto_data W []).length = 4 * get_tensor_proto_data_size W ∧
      low.params.filter (fun p => p.key = 5)
        = [⟨5, .int (if node.input.length = 3 then 1 else 0)⟩] := by
  have hl := lower_conv_eq graph weight_nodes bp node w b iw ib W B d ds hin hw hW hd hbias
  rw [← lower_of_conv fadd graph weight_nodes bp node hop] at hl
  refine ⟨_, hl, rfl, length_fwrite W, ?_⟩
  simp only [List.filter_append, filter_key_pair_params 1 5 _ (by decide) (by decide),
    filter_key_pair_params 2 5 _ (by decide) (by decide),
    filter_key_pair_params 3 5 _ (by decide) (by decide),
    filter_key_pads_params 4 5 _ (by decide) (by decide), List.append_nil]
  by_cases hg : get_node_attr_i node "group" 1 > 1 <;> simp [hg, List.filter_cons]

/-- Witness of C8 on the sample graph. -/
theorem C8_conv_payload_witness :
    ∃ low, lower fadd_bits conv3x3_graph [("W", 0), ("B", 1)] [7] conv3x3_node = some low ∧
      low.bp = [7] ++ [0, 0, 0, 0] ++ fwrite_tensor_proto_data conv_W []
        ++ (if conv3x3_node.input.length = 3 then fwrite_tensor_proto_data conv_B [] else []) ∧
      (fwrite_tensor_proto_data conv_W []).length = 4 * get_tensor_proto_data_size conv_W ∧
      low.params.filter (fun p => p.key = 5)
        = [⟨5, .int (if conv3x3_node.input.length = 3 then 1 else 0)⟩] :=
  C8_conv_payload fadd_bits conv3x3_graph [("W", 0), ("B", 1)] [7] conv3x3_node "W" "B" 0 1
    conv_W conv_B 2 [1, 3, 3] rfl rfl rfl rfl rfl (fun _ => ⟨rfl, rfl, rfl⟩)

/-- C9: a `BatchNormalization` node whose inputs 1 to 4 (scale, bias, mean,
variance) resolve in the weight map prints the single param
`0=elementCount(scale)` and appends to the weight stream, in this order, the
floats of scale, the floats of mean, for every element `v` of the variance the
float `v + epsilon`, and the floats of bias. Here epsilon is the float of the
first attribute named `epsilon` and 1e-5 when there is none, and the elements
of the variance are the floats of its raw bytes, or its float list when it has
no raw bytes; there are `elementCount(variance)` of them. The bytes appended are
`4 * (elementCount(scale) + elementCount(mean) + elementCount(variance) +
elementCount(bias))`, which is 16 floats when each of the four holds 4. -/
theorem C9_batchnorm_payload (fadd : F32 → F32 → F32) (graph : GraphProto)
    (weight_nodes : List (String × Nat)) (bp : List Nat) (node : NodeProto)
    (n1 n2 n3 n4 : String) (i1 i2 i3 i4 : Nat) (scale B mean var : TensorProto)
    (aeps : Option AttributeProto)
    (hop : node.op_type = "BatchNormalization")
    (h1 : node.input[1]? = some n1) (h2 : node.input[2]? = some n2)
    (h3 : node.input[3]? = some n3) (h4 : node.input[4]? = some n4)
    (hw1 : mfind weight_nodes n1 = some i1) (hw2 : mfind weight_nodes n2 = some i2)
    (hw3 : mfind weight_nodes n3 = some i3) (hw4 : mfind weight_nodes n4 = some i4)
    (ht1 : graph.initializer[i1]? = some scale) (ht2 : graph.initializer[i2]? = some B)
    (ht3 : graph.initializer[i3]? = some mean) (ht4 : graph.initializer[i4]? = some var)
    (heps : attr_of node "epsilon" aeps) :
    lower fadd graph weight_nodes bp node = some
      ⟨[⟨0, .int (get_tensor_proto_data_size scale)⟩],
       bp ++ (fwrite_tensor_proto_data scale [] ++ fwrite_tensor_proto_data mean []
          ++ (tensor_floats var).flatMap
              (fun v => (fadd v (attr_float F32.eps_default aeps)).bytes)
          ++ fwrite_tensor_proto_data B []),
       weight_nodes, []⟩ ∧
    (tensor_floats var).length = get_tensor_proto_data_size var ∧
    (fwrite_tensor_proto_data scale [] ++ fwrite_tensor_proto_data mean []
        ++ (tensor_floats var).flatMap
            (fun v => (fadd v (attr_float F32.eps_default aeps)).bytes)
        ++ fwrite_tensor_proto_data B []).length
      = 4 * (get_tensor_proto_data_size scale + get_tensor_proto_data_size mean
          + get_tensor_proto_data_size var + get_tensor_proto_data_size B) ∧
    (get_tensor_proto_data_size scale = 4 → get_tensor_proto_data_size mean = 4 →
      get_tensor_proto_data_size var = 4 → get_tensor_proto_data_size B = 4 →
      (fwrite_tensor_proto_data scale [] ++ fwrite_tensor_proto_data mean []
        ++ (tensor_floats var).flatMap
            (fun v => (fadd v (attr_float F32.eps_default aeps)).bytes)
        ++ fwrite_tensor_proto_data B []).length = 4 * 16) := by
  have hold :
      lower fadd graph weight_nodes bp node = some
        ⟨[⟨0, .int (get_tensor_proto_data_size scale)⟩],
         bp ++ (fwrite_tensor_proto_data scale [] ++ fwrite_tensor_proto_data mean []
            ++ (List.range (get_tensor_proto_data_size var)).flatMap
                (fun j => (fadd (tensor_float_at var j)
                  (get_node_attr_f node "epsilon" F32.eps_default)).bytes)
            ++ fwrite_tensor_proto_data B []),
         weight_nodes, []⟩ ∧
      (fwrite_tensor_proto_data scale [] ++ fwrite_tensor_proto_data mean []
          ++ (List.range (get_tensor_proto_data_size var)).flatMap
              (fun j => (fadd (tensor_float_at var j)
                (get_node_attr_f node "epsilon" F32.eps_default)).bytes)
          ++ fwrite_tensor_proto_data B []).length
        = 4 * (get_tensor_proto_data_size scale + get_tensor_proto_data_size mean
            + get_tensor_proto_data_size var + get_tensor_proto_data_size B) ∧
      (get_tensor_proto_data_size scale = 4 → get_tensor_proto_data_size mean = 4 →
        get_tensor_proto_data_size var = 4 → get_tensor_proto_data_size B = 4 →
        (fwrite_tensor_proto_data scale [] ++ fwrite_tensor_proto_data mean []
          ++ (List.range (get_tensor_proto_data_size var)).flatMap
              (fun j => (fadd (tensor_float_at var j)
                (get_node_attr_f node "epsilon" F32.eps_default)).bytes)
          ++ fwrite_tensor_proto_data B []).length = 4 * 16) := by
    have hlen : (fwrite_tensor_proto_data scale [] ++ fwrite_tensor_proto_data mean []
          ++ (List.range (get_tensor_proto_data_size var)).flatMap
              (fun j => (fadd (tensor_float_at var j)
                (get_node_attr_f node "epsilon" F32.eps_default)).bytes)
          ++ fwrite_tensor_proto_data B []).length
        = 4 * (get_tensor_proto_data_size scale + get_tensor_proto_data_size mean
            + get_tensor_proto_data_size var + get_tensor_proto_data_size B) := by
      have hv := length_var_eps_bytes fadd var (get_node_attr_f node "epsilon" F32.eps_default)
      unfold var_eps_bytes at hv
      rw [List.length_append, List.length_append, List.length_append, length_fwrite,
        length_fwrite, length_fwrite, hv]
      omega
    refine ⟨?_, hlen, ?_⟩
    · rw [lower_of_batchnorm fadd graph weight_nodes bp node hop]
      simp [lower_batchnorm, h1, h2, h3, h4, weight_index_of_mem hw1, weight_index_of_mem hw2,
        weight_index_of_mem hw3, weight_index_of_mem hw4, ht1, ht2, ht3, ht4, var_eps_bytes]
      rw [fwrite_eq_append B, fwrite_eq_append mean, fwrite_eq_append scale]
      simp
    · intro e1 e2 e3 e4
      rw [hlen, e1, e2, e3, e4]
  have ee : get_node_attr_f node "epsilon" F32.eps_default = attr_float F32.eps_default aeps := by
    unfold get_node_attr_f
    rw [find_attr_of heps]
    cases aeps <;> rfl
  have hfl : (List.range (get_tensor_proto_data_size var)).map (tensor_float_at var)
      = tensor_floats var := by
    unfold get_tensor_proto_data_size tensor_floats
    cases hr : var.raw_data with
    | some raw =>
      simp only []
      rw [← decode_floats_eq raw]
      apply List.map_congr_left
      intro j _
      simp [tensor_float_at, hr]
    | none =>
      simp only []
      by_cases hd : var.data_type = 1
      · simp only [hd, if_true]
        apply List.ext_getElem
        · simp
        · intro j h1 h2
          simp [tensor_float_at, hr, List.getD_eq_getElem?_getD, List.getElem?_eq_getElem h2]
      · simp [hd]
  have hv : (List.range (get_tensor_proto_data_size var)).flatMap
        (fun j => (fadd (tensor_float_at var j)
          (get_node_attr_f node "epsilon" F32.eps_default)).bytes)
      = (tensor_floats var).flatMap
        (fun v => (fadd v (attr_float F32.eps_default aeps)).bytes) := by
    rw [← hfl, List.flatMap_map, ee]
  rw [hv] at hold
  exact ⟨hold.1, by rw [← hfl]; simp, hold.2.1, hold.2.2⟩

/-- Witness of C9: four channels, `epsilon = 0.5` read from the attribute, and a
variance of raw bytes read as 1, `0.5 + 2^-24`, `0.5 + 3 * 2^-24` and 0.25; the
four sums are 1.5, 1, `1 + 2^-22` and 0.75 (the two ties go to the even
neighbour). The readers, the whole conversion and the handler are evaluated. -/
theorem C9_batchnorm_payload_witness :
    get_node_attr_f bn_eps_node "epsilon" F32.eps_default = ⟨0x3F000000⟩ ∧
    (List.range 4).map (tensor_float_at bn_var_raw)
      = [⟨0x3F800000⟩, ⟨0x3F000001⟩, ⟨0x3F000003⟩, ⟨0x3E800000⟩] ∧
    (convert fadd_bits bn_eps_graph).map
        (fun r => (r.2.pp.map (fun l => (l.layer.type, l.layer.params)), r.2.bp))
      = some ([("Input", []), ("BatchNorm", [⟨0, .int 4⟩])],
       [10, 0, 0, 0, 11, 0, 0, 0, 12, 0, 0, 0, 13, 0, 0, 0,
        30, 0, 0, 0, 31, 0, 0, 0, 32, 0, 0, 0, 33, 0, 0, 0,
        0, 0, 192, 63, 0, 0, 128, 63, 2, 0, 128, 63, 0, 0, 64, 63,
        20, 0, 0, 0, 21, 0, 0, 0, 22, 0, 0, 0, 23, 0, 0, 0]) ∧
    lower fadd_bits bn_eps_graph bn_weights [] bn_eps_node = some
      ⟨[⟨0, .int 4⟩],
       [10, 0, 0, 0, 11, 0, 0, 0, 12, 0, 0, 0, 13, 0, 0, 0,
        30, 0, 0, 0, 31, 0, 0, 0, 32, 0, 0, 0, 33, 0, 0, 0,
        0, 0, 192, 63, 0, 0, 128, 63, 2, 0, 128, 63, 0, 0, 64, 63,
        20, 0, 0, 0, 21, 0, 0, 0, 22, 0, 0, 0, 23, 0, 0, 0],
       bn_weights, []⟩ :=
  ⟨by decide, by decide, by decide,
    (C9_batchnorm_payload fadd_bits bn_eps_graph bn_weights [] bn_eps_node "scale" "bias" "mean"
      "var" 0 1 2 3 bn_scale bn_bias bn_mean bn_var_raw (some (float_attr "epsilon" F32.half))
      rfl rfl rfl rfl rfl rfl rfl rfl rfl rfl rfl rfl rfl
      ⟨[], [], rfl, rfl, by simp⟩).1.trans (by decide)⟩

/-- C10: a `Conv` node whose weight input resolves in the weight map prints, in
this order, `0=` the first dimension of the weight (as an `int`), the kernel
params at keys 1/11, the dilation params at keys 2/12, the stride params at keys
3/13, the pad params at keys 4/14 (a 4-element list gives only `4=pads[1]` and
`14=pads[0]`), `5=` 1 for exactly three inputs and 0 otherwise,
`6=elementCount(weight)`, and `7=group` exactly when group > 1, which is exactly
when the layer type is `ConvolutionDepthWise` instead of `Convolution`; an
attribute list of any other length gives no param. Each list is the integer
list of the first attribute of its name (`kernel_shape`, `dilations`,
`strides`, `pads`), empty when there is none, and group is the integer of the
first attribute named `group`, 1 when there is none. The weight map is assumed
to hold indices of initializers only. -/
theorem C10_conv_params (fadd : F32 → F32 → F32) (graph : GraphProto)
    (weight_nodes : List (String × Nat)) (bp : List Nat) (node : NodeProto)
    (w : String) (iw : Nat) (W : TensorProto) (d : Int) (ds : List Int)
    (akernel adilations astrides apads agroup : Option AttributeProto)
    (hop : node.op_type = "Conv") (hin : node.input[1]? = some w)
    (hw : mfind weight_nodes w = some iw) (hW : graph.initializer[iw]? = some W)
    (hd : W.dims = d :: ds)
    (hwf : ∀ k j, mfind weight_nodes k = some j → j < graph.initializer.length)
    (hk : attr_of node "kernel_shape" akernel) (hdl : attr_of node "dilations" adilations)
    (hs : attr_of node "strides" astrides) (hp : attr_of node "pads" apads)
    (hg : attr_of node "group" agroup) :
    ∃ low, lower fadd graph weight_nodes bp node = some low ∧
      low.params =
        [⟨0, .int (toInt32 d)⟩] ++ spec_pair 1 (attr_ints akernel)
          ++ spec_pair 2 (attr_ints adilations)
          ++ spec_pair 3 (attr_ints astrides)
          ++ spec_pads 4 (attr_ints apads)
          ++ [⟨5, .int (if node.input.length = 3 then 1 else 0)⟩,
              ⟨6, .int (get_tensor_proto_data_size W)⟩]
          ++ (if attr_int 1 agroup > 1 then [⟨7, .int (attr_int 1 agroup)⟩] else []) ∧
      (attr_int 1 agroup > 1 → layer_type node = "ConvolutionDepthWise") ∧
      (¬ attr_int 1 agroup > 1 → layer_type node = "Convolution") := by
  have hold :
      ∃ low, lower fadd graph weight_nodes bp node = some low ∧
        low.params =
          [⟨0, .int (toInt32 d)⟩] ++ spec_pair 1 (get_node_attr_ai node "kernel_shape")
            ++ spec_pair 2 (get_node_attr_ai node "dilations")
            ++ spec_pair 3 (get_node_attr_ai node "strides")
            ++ spec_pads 4 (get_node_attr_ai node "pads")
            ++ [⟨5, .int (if node.input.length = 3 then 1 else 0)⟩,
                ⟨6, .int (get_tensor_proto_data_size W)⟩]
            ++ (if get_node_attr_i node "group" 1 > 1
                then [⟨7, .int (get_node_attr_i node "group" 1)⟩] else []) ∧
        (get_node_attr_i node "group" 1 > 1 → layer_type node = "ConvolutionDepthWise") ∧
        (¬ get_node_attr_i node "group" 1 > 1 → layer_type node = "Convolution") := by
    have hpos : 0 < graph.initializer.length := by
      have := hwf w iw hw
      omega
    have key : ∀ (b : String) (B : TensorProto),
        (node.input.length = 3 → node.input[2]? = some b ∧
          graph.initializer[(weight_index weight_nodes b).1]? = some B) →
        ∃ low, lower fadd graph weight_nodes bp node = some low ∧
          low.params =
            [⟨0, .int (toInt32 d)⟩] ++ spec_pair 1 (get_node_attr_ai node "kernel_shape")
              ++ spec_pair 2 (get_node_attr_ai node "dilations")
              ++ spec_pair 3 (get_node_attr_ai node "strides")
              ++ spec_pads 4 (get_node_attr_ai node "pads")
              ++ [⟨5, .int (if node.input.length = 3 then 1 else 0)⟩,
                  ⟨6, .int (get_tensor_proto_data_size W)⟩]
              ++ (if get_node_attr_i node "group" 1 > 1
                  then [⟨7, .int (get_node_attr_i node "group" 1)⟩] else []) := by
      intro b B hbias
      have hl := lower_conv_eq_gen graph weight_nodes bp node w b iw W B d ds hin hw hW hd hbias
      rw [← lower_of_conv fadd graph weight_nodes bp node hop] at hl
      exact ⟨_, hl, by simp only [pair_params_eq_spec, pads_params_eq_spec]⟩
    have htag1 : get_node_attr_i node "group" 1 > 1 → layer_type node = "ConvolutionDepthWise" := by
      intro hg; simp [layer_type, hop, hg]
    have htag2 : ¬ get_node_attr_i node "group" 1 > 1 → layer_type node = "Convolution" := by
      intro hg; simp [layer_type, hop, hg]
    by_cases h3 : node.input.length = 3
    · have hlt : 2 < node.input.length := by omega
      have hv : (weight_index weight_nodes (node.input[2])).1 < graph.initializer.length := by
        unfold weight_index
        cases hb : mfind weight_nodes (node.input[2]) with
        | some ib => exact hwf _ _ hb
        | none => exact hpos
      obtain ⟨low, h, hp⟩ := key (node.input[2]) (graph.initializer[_])
        (fun _ => ⟨List.getElem?_eq_getElem hlt, List.getElem?_eq_getElem hv⟩)
      exact ⟨low, h, hp, htag1, htag2⟩
    · obtain ⟨low, h, hp⟩ := key "" W (fun h => absurd h h3)
      exact ⟨low, h, hp, htag1, htag2⟩
  have ek : get_node_attr_ai node "kernel_shape" = attr_ints akernel := by
    unfold get_node_attr_ai
    rw [find_attr_of hk]
    cases akernel <;> rfl
  have ed : get_node_attr_ai node "dilations" = attr_ints adilations := by
    unfold get_node_attr_ai
    rw [find_attr_of hdl]
    cases adilations <;> rfl
  have es : get_node_attr_ai node "strides" = attr_ints astrides := by
    unfold get_node_attr_ai
    rw [find_attr_of hs]
    cases astrides <;> rfl
  have ep : get_node_attr_ai node "pads" = attr_ints apads := by
    unfold get_node_attr_ai
    rw [find_attr_of hp]
    cases apads <;> rfl
  have eg : get_node_attr_i node "group" 1 = attr_int 1 agroup := by
    unfold get_node_attr_i
    rw [find_attr_of hg]
    cases agroup <;> rfl
  rw [ek, ed, es, ep, eg] at hold
  exact hold

/-- Witness of C10: a depthwise convolution with group 2; the readers, the
line printed by the whole conversion and the handler are evaluated, and the
line carries `0=2 1=2 11=3 2=2 3=2 13=1 4=2 14=1 5=1 6=18 7=2`. -/
theorem C10_conv_params_witness :
    (get_node_attr_ai conv_dw_node "kernel_shape", get_node_attr_ai conv_dw_node "dilations",
      get_node_attr_ai conv_dw_node "strides", get_node_attr_ai conv_dw_node "pads",
      get_node_attr_i conv_dw_node "group" 1) = ([3, 2], [2], [1, 2], [1, 2, 3, 4], 2) ∧
    (convert fadd_bits conv_dw_graph).map
        (fun r => r.2.pp.map (fun l => (l.layer.type, l.layer.params)))
      = some [("Input", []), ("ConvolutionDepthWise",
          [⟨0, .int 2⟩, ⟨1, .int 2⟩, ⟨11, .int 3⟩, ⟨2, .int 2⟩, ⟨3, .int 2⟩, ⟨13, .int 1⟩,
           ⟨4, .int 2⟩, ⟨14, .int 1⟩, ⟨5, .int 1⟩, ⟨6, .int 18⟩, ⟨7, .int 2⟩])] ∧
    ∃ low, lower fadd_bits conv3x3_graph [("W", 0), ("B", 1)] [] conv_dw_node = some low ∧
      low.params = [⟨0, .int 2⟩, ⟨1, .int 2⟩, ⟨11, .int 3⟩, ⟨2, .int 2⟩, ⟨3, .int 2⟩,
        ⟨13, .int 1⟩, ⟨4, .int 2⟩, ⟨14, .int 1⟩, ⟨5, .int 1⟩, ⟨6, .int 18⟩, ⟨7, .int 2⟩] ∧
      layer_type conv_dw_node = "ConvolutionDepthWise" :=
  ⟨by decide, by decide,
    (C10_conv_params fadd_bits conv3x3_graph [("W", 0), ("B", 1)] [] conv_dw_node "W" 0
    conv_W 2 [1, 3, 3]
    (some (ints_attr "kernel_shape" [3, 2])) (some (ints_attr "dilations" [2]))
    (some (ints_attr "strides" [1, 2])) (some (ints_attr "pads" [1, 2, 3, 4]))
    (some (int_attr "group" 2)) rfl rfl rfl rfl rfl
    (by
      intro k j h
      simp only [mfind] at h
      split at h
      · cases h; decide
      · split at h
        · cases h; decide
        · cases h)
    ⟨[], _, rfl, rfl, by simp⟩
    ⟨[ints_attr "kernel_shape" [3, 2]], _, rfl, rfl, by decide⟩
    ⟨[ints_attr "kernel_shape" [3, 2], ints_attr "dilations" [2]], _, rfl, rfl, by decide⟩
    ⟨[ints_attr "kernel_shape" [3, 2], ints_attr "dilations" [2], ints_attr "strides" [1, 2]],
      _, rfl, rfl, by decide⟩
    ⟨[ints_attr "kernel_shape" [3, 2], ints_attr "dilations" [2], ints_attr "strides" [1, 2],
      ints_attr "pads" [1, 2, 3, 4]], _, rfl, rfl, by decide⟩).imp
    (fun _ h => ⟨h.1, h.2.1.trans (by decide), h.2.2.1 (by decide)⟩)⟩

/-! ## Fan-out -/

/-- C1 fails on the code for a declared graph input with two consumers: on
`graph_input_twice` the reference count of `x` after the first pass is 2, the
header declares 4 layers, the two consumers are written `x_splitncnn_1` and
`x_splitncnn_0`, and yet only 3 lines are printed, none of them a `Split`
line. -/
theorem C1_declared_input_has_no_split :
    (convert fadd_bits graph_input_twice).map
        (fun r => (mfind r.1.node_reference "x", r.1.layer_count, r.2.pp.length,
          r.2.pp.filter Line.is_split,
          (r.2.pp.flatMap (fun l => l.layer.inputs)).map BlobRef.render))
      = some (some 2, 4, 3, [], ["x_splitncnn_1", "x_splitncnn_0"]) := by
  decide

/-- C3, as stated, fails: in `graph_square` exactly one node lists `x` among its
inputs, yet both references to `x` are renamed and a `Split` line is printed
for `x`. -/
theorem C3_counterexample :
    (graph_square.node.filter (fun node => decide ("x" ∈ node.input))).length = 1 ∧
    (convert fadd_bits graph_square).map
        (fun r => (node_input_refs "x" r.2.pp, r.2.pp.filter Line.is_split))
      = some ([⟨"x", some 1⟩, ⟨"x", some 0⟩],
          [Line.split ⟨"Split", "splitncnn_0", 1, 2, [⟨"x", none⟩],
            [⟨"x", some 0⟩, ⟨"x", some 1⟩], []⟩]) := by
  decide

/-- C3, amended: when exactly one input slot over all the nodes names `a`, the
conversion gives no reference to `a` a `_splitncnn_` suffix and prints no
`Split` line for `a` (no `Split` line has `a` as the base of its input or of an
output). -/
theorem C3_single_slot_not_split (fadd : F32 → F32 → F32) (graph : GraphProto) (a : String)
    (h : Header) (st : Emit) (hc : convert fadd graph = some (h, st))
    (hs : slot_count a graph.node = 1) :
    (∀ l ∈ st.pp, ∀ r ∈ l.layer.inputs, r.base = a → r.split = none) ∧
    (∀ layer, Line.split layer ∈ st.pp → ∀ r ∈ layer.inputs ++ layer.outputs, r.base ≠ a) := by
  obtain ⟨hh, he⟩ := convert_cases hc
  have hnone := header_absent_of_slot_le_one hh a (by omega)
  have hstart : ∀ l ∈ (emit_start graph h).pp, line_untouched a l := by
    intro l hl
    obtain ⟨x, rfl⟩ := emit_graph_inputs_form _ _ l hl
    constructor
    · intro r hr; cases hr
    · intro layer hl; cases hl
  obtain ⟨_, hpp⟩ := emit_nodes_absent a graph.node (emit_start graph h) st he hnone hstart
  exact ⟨fun l hl => (hpp l hl).1, fun layer hl => (hpp _ hl).2 layer rfl⟩

/-- Witness of C3: in `graph_alias` one input slot names `x`. -/
theorem C3_single_slot_not_split_witness :
    (∀ l ∈ ((convert fadd_bits graph_alias).get (by decide)).2.pp,
      ∀ r ∈ l.layer.inputs, r.base = "x" → r.split = none) ∧
    (∀ layer, Line.split layer ∈ ((convert fadd_bits graph_alias).get (by decide)).2.pp →
      ∀ r ∈ layer.inputs ++ layer.outputs, r.base ≠ "x") :=
  C3_single_slot_not_split fadd_bits graph_alias "x"
    ((convert fadd_bits graph_alias).get (by decide)).1
    ((convert fadd_bits graph_alias).get (by decide)).2 (by decide) (by decide)

/-- C2, as stated, fails when a consumer precedes the producer: in
`graph_consumer_first` the count of `a` is 3 and `a` never is a weight, the
three references are written `a_splitncnn_2`, `a_splitncnn_1`, `a_splitncnn_0`,
but the `Split` line printed after the node that outputs `a` lists only
`a_splitncnn_0 a_splitncnn_1`. -/
theorem C2_counterexample :
    (convert fadd_bits graph_consumer_first).map
        (fun r => (mfind r.1.node_reference "a", mhas r.2.weight_nodes "a",
          (node_input_refs "a" r.2.pp).map BlobRef.render,
          (r.2.pp.filter Line.is_split).map
            (fun l => (l.layer.inputs.map BlobRef.render, l.layer.outputs.map BlobRef.render))))
      = some (some 3, false, ["a_splitncnn_2", "a_splitncnn_1", "a_splitncnn_0"],
          [(["a"], ["a_splitncnn_0", "a_splitncnn_1"])]) := by
  rfl

/-- C2, amended: for a name `a` that never is a key of the weight map and whose
count after the first pass is `n >= 2`: `n` is the number of input slots that
name `a`, the `k`-th reference to `a` on the node lines, in the order printed,
is `a_splitncnn_(n-1-k)` for `k = 0 .. n-1`; and for every node that outputs
`a`, is preceded by no reference to `a` (its own inputs included), and is not
skipped in the state `se` in which the second pass reaches it: the lines
printed so far are followed by the line of the node and then by its `Split`
lines only, they stay at this place in the final list, and among these `Split`
lines is the one with input `a`, declared counts 1 and `n`, and the outputs
`a_splitncnn_0 .. a_splitncnn_(n-1)` in ascending order; when `a` is the only
output of the node, this `Split` line is the only one and comes right after
the line of the node. -/
theorem C2_split_indices (fadd : F32 → F32 → F32) (graph : GraphProto) (a : String) (n : Int)
    (h : Header) (st : Emit) (hc : convert fadd graph = some (h, st))
    (hw : mhas st.weight_nodes a = false)
    (hn : mfind h.node_reference a = some n) (h2 : 2 ≤ n) :
    n = slot_count a graph.node ∧
    node_input_refs a st.pp
      = (List.range n.toNat).map (fun (k : Nat) => (⟨a, some (n - 1 - (k : Int))⟩ : BlobRef)) ∧
    (∀ pre node post, graph.node = pre ++ node :: post → a ∈ node.output →
      slot_count a (pre ++ [node]) = 0 →
      ∃ se se1, emit_nodes fadd graph (emit_start graph h) pre = some se ∧
        emit_node fadd graph se node = some se1 ∧
        (is_weight_reshape se.weight_nodes node = false →
          ∃ (layer : Layer) (splits rest : List Line) (j : Nat),
            se1.pp = se.pp ++ Line.node layer :: splits ∧
            st.pp = se1.pp ++ rest ∧
            layer.outputs = node.output.map (fun o => (⟨o, none⟩ : BlobRef)) ∧
            (∀ l ∈ splits, l.is_split = true) ∧
            Line.split ⟨"Split", "splitncnn_" ++ toString j, 1, n, [⟨a, none⟩],
              (List.range n.toNat).map (fun (k : Nat) => (⟨a, some (k : Int)⟩ : BlobRef)), []⟩
                ∈ splits ∧
            (node.output = [a] → j = se.internal_split ∧ splits =
              [Line.split ⟨"Split", "splitncnn_" ++ toString j, 1, n, [⟨a, none⟩],
                (List.range n.toNat).map (fun (k : Nat) => (⟨a, some (k : Int)⟩ : BlobRef)),
                []⟩]))) := by
  obtain ⟨hh, he⟩ := convert_cases hc
  obtain ⟨pst, hp, hwn, hr, _, _⟩ := header_cases hh
  have hw0 : mhas pst.weight_nodes a = false := by
    cases hx : mhas pst.weight_nodes a with
    | false => rfl
    | true =>
      have := emit_nodes_weights_mono he a (by simpa [emit_start, hwn] using hx)
      rw [hw] at this; cases this
  have hcount : n = slot_count a graph.node := by
    have hrc := header_ref_count hp hr a
    rw [hn] at hrc
    have heq := (prep_nodes_ref_count a graph.node (prep_start graph) pst hp).2 hw0
    cases hf : mfind pst.node_reference a with
    | none => simp [hf] at hrc
    | some v =>
      simp only [hf] at hrc
      split at hrc
      · simp only [Option.some.injEq] at hrc
        simp only [ref_count, hf, prep_start, mfind, Option.getD_some, Option.getD_none] at heq
        omega
      · cases hrc
  obtain ⟨hrefs, _⟩ := emit_nodes_refs a graph.node (emit_start graph h) st n he hw
    (by simpa [emit_start] using hn)
  refine ⟨hcount, ?_, ?_⟩
  · rw [hrefs]
    have h0 : node_input_refs a (emit_start graph h).pp = [] := by
      simp [emit_start, node_input_refs_graph_inputs]
    rw [h0, List.nil_append]
    have : n.toNat = slot_count a graph.node := by omega
    rw [this]
  · intro pre node post hg ha hs
    rw [hg] at he
    obtain ⟨s1, he1, he2⟩ := emit_nodes_append pre (node :: post) he
    obtain ⟨s2, he3, he4⟩ := emit_nodes_cons he2
    refine ⟨s1, s2, he1, he3, ?_⟩
    intro hnw1
    have hws2 : mhas s2.weight_nodes a = false := by
      cases hx : mhas s2.weight_nodes a with
      | false => rfl
      | true => have := emit_nodes_weights_mono he4 a hx; rw [hw] at this; cases this
    have hws1 : mhas s1.weight_nodes a = false := by
      cases hx : mhas s1.weight_nodes a with
      | false => rfl
      | true => have := emit_node_weights_mono he3 a hx; rw [hws2] at this; cases this
    rw [slot_count_append] at hs
    have hs1 : slot_count a pre = 0 := by omega
    have hs2 : node.input.count a = 0 := by
      have := slot_count_cons a node []
      simp only [slot_count, List.flatMap_nil, List.count_nil, Nat.add_zero] at this
      simp only [slot_count] at hs
      omega
    obtain ⟨_, hn1⟩ := emit_nodes_refs a pre (emit_start graph h) s1 n he1 hws1
      (by simpa [emit_start] using hn)
    rw [hs1] at hn1
    simp only [Nat.cast_zero, sub_zero] at hn1
    obtain ⟨rest, hrest⟩ := emit_nodes_pp_extends he4
    rcases emit_node_cases he3 with ⟨hwr, _⟩ | ⟨_, name, low, _, _, rfl⟩
    · rw [hnw1] at hwr; cases hwr
    · obtain ⟨_, hi2⟩ := emit_inputs_present s1.weight_nodes a hws1 node.input
        s1.node_reference n hn1
      rw [hs2] at hi2
      simp only [Nat.cast_zero, sub_zero] at hi2
      by_cases hone : node.output = [a]
      · refine ⟨_, _, rest, s1.internal_split, rfl, hrest, rfl,
          emit_splits_all_split _ _ _, ?_, fun _ => ⟨rfl, ?_⟩⟩
        · rw [hone]
          simp [emit_splits, hi2, show n > 1 by omega, split_outputs]
        · rw [hone]
          simp [emit_splits, hi2, show n > 1 by omega, split_outputs]
      · obtain ⟨j, hj⟩ := emit_splits_mem _ a n hi2 (by omega) node.output s1.internal_split ha
        unfold split_outputs at hj
        exact ⟨_, _, rest, j, rfl, hrest, rfl, emit_splits_all_split _ _ _, hj,
          fun ho => absurd ho hone⟩

/-- Witness of C2: three consumers after the producer; the lines printed are
the `Input` line, the line of the producer, the `Split` line of `a` right after
it, and the three consumers with the indices 2, 1, 0. -/
theorem C2_split_indices_witness :
    ((convert fadd_bits graph_three_consumers).get (by decide)).2.pp.map
        (fun l => (l.layer.type, l.layer.input_size, l.layer.output_size,
          l.layer.inputs.map BlobRef.render, l.layer.outputs.map BlobRef.render))
      = [("Input", 0, 1, [], ["z"]), ("ReLU", 1, 1, ["z"], ["a"]),
         ("Split", 1, 3, ["a"], ["a_splitncnn_0", "a_splitncnn_1", "a_splitncnn_2"]),
         ("ReLU", 1, 1, ["a_splitncnn_2"], ["b"]), ("ReLU", 1, 1, ["a_splitncnn_1"], ["c"]),
         ("ReLU", 1, 1, ["a_splitncnn_0"], ["d"])] ∧
    (3 : Int) = slot_count "a" graph_three_consumers.node ∧
    node_input_refs "a" ((convert fadd_bits graph_three_consumers).get (by decide)).2.pp
      = (List.range (3 : Int).toNat).map
          (fun (k : Nat) => (⟨"a", some (3 - 1 - (k : Int))⟩ : BlobRef)) ∧
    (∀ pre node post, graph_three_consumers.node = pre ++ node :: post → "a" ∈ node.output →
      slot_count "a" (pre ++ [node]) = 0 →
      ∃ se se1, emit_nodes fadd_bits graph_three_consumers
          (emit_start graph_three_consumers
            ((convert fadd_bits graph_three_consumers).get (by decide)).1) pre = some se ∧
        emit_node fadd_bits graph_three_consumers se node = some se1 ∧
        (is_weight_reshape se.weight_nodes node = false →
          ∃ (layer : Layer) (splits rest : List Line) (j : Nat),
            se1.pp = se.pp ++ Line.node layer :: splits ∧
            ((convert fadd_bits graph_three_consumers).get (by decide)).2.pp
              = se1.pp ++ rest ∧
            layer.outputs = node.output.map (fun o => (⟨o, none⟩ : BlobRef)) ∧
            (∀ l ∈ splits, l.is_split = true) ∧
            Line.split ⟨"Split", "splitncnn_" ++ toString j, 1, 3, [⟨"a", none⟩],
              (List.range (3 : Int).toNat).map
                (fun (k : Nat) => (⟨"a", some (k : Int)⟩ : BlobRef)), []⟩ ∈ splits ∧
            (node.output = ["a"] → j = se.internal_split ∧ splits =
              [Line.split ⟨"Split", "splitncnn_" ++ toString j, 1, 3, [⟨"a", none⟩],
                (List.range (3 : Int).toNat).map
                  (fun (k : Nat) => (⟨"a", some (k : Int)⟩ : BlobRef)), []⟩]))) :=
  ⟨by rfl, C2_split_indices fadd_bits graph_three_consumers "a" 3
    ((convert fadd_bits graph_three_consumers).get (by decide)).1
    ((convert fadd_bits graph_three_consumers).get (by decide)).2
    (by decide) (by decide) (by decide) (by decide)⟩

/-! ## Header counts -/

/-- C4, as stated, fails: in `graph_alias_self` the only node is a weight
reshape that both passes skip, there is no runtime input and no count, so the
claimed layer count is `1 + 0 + 0 - 1 = 0`; the header declares 1 layer (and no
line is printed). -/
theorem C4_counterexample :
    (header graph_alias_self).map
        (fun h => (h.layer_count,
          (graph_alias_self.node.length : Int)
            + (graph_alias_self.input.filter (fun x => !mhas h.weight_nodes x)).length
            + h.node_reference.length
            - (elided_names (prep_start graph_alias_self) graph_alias_self.node).length))
      = some (1, 0) ∧
    (convert fadd_bits graph_alias_self).map (fun r => r.2.pp) = some [] := by
  decide

/-- C4, amended: when the initializer names and the names registered by the
skipped reshape nodes are pairwise distinct, the layer count of the header is
the node count, plus the number of declared inputs that are not keys of the
weight map, plus the number of `node_reference` entries left by the pruning,
minus the number of reshape nodes skipped by the first pass. In every case it
is `node_count + input_node_count + |node_reference| + initializer_count -
|weight_nodes|`. -/
theorem C4_layer_count (graph : GraphProto) (h : Header) (hh : header graph = some h)
    (hnd : (graph.initializer.map (fun t => t.name)
      ++ elided_names (prep_start graph) graph.node).Nodup) :
    h.layer_count = (graph.node.length : Int)
      + (graph.input.filter (fun x => !mhas h.weight_nodes x)).length
      + h.node_reference.length
      - (elided_names (prep_start graph) graph.node).length ∧
    h.layer_count = (graph.node.length : Int) + h.input_node_count + h.node_reference.length
      + graph.initializer.length - h.weight_nodes.length := by
  obtain ⟨pst, hp, hwn, hr, hl, _, hic⟩ := header_cases hh
  have hk0 : keys (prep_start graph).weight_nodes = graph.initializer.map (fun t => t.name) := by
    have := keys_init_weights graph.initializer [] 0
      (by simpa [keys] using (List.nodup_append.1 hnd).1)
    simpa [prep_start, keys] using this
  have hk := keys_prep_nodes graph.node (prep_start graph) pst hp (by rw [hk0]; exact hnd)
  have hlen : pst.weight_nodes.length
      = graph.initializer.length + (elided_names (prep_start graph) graph.node).length := by
    have := congrArg List.length hk
    rw [hk0] at this
    simpa [keys] using this
  have hcnt := prep_graph_inputs_count pst.weight_nodes graph.input (0, pst.blob_names)
  simp only [Nat.zero_add] at hcnt
  constructor
  · rw [hl, hr, hwn, hcnt, hlen]; push_cast; ring
  · rw [hl, hr, hwn, hic]

/-- Witness of C4: a weight reshape followed by a convolution. -/
theorem C4_layer_count_witness :
    ((header graph_alias).get (by decide)).layer_count = (graph_alias.node.length : Int)
      + (graph_alias.input.filter
          (fun x => !mhas ((header graph_alias).get (by decide)).weight_nodes x)).length
      + ((header graph_alias).get (by decide)).node_reference.length
      - (elided_names (prep_start graph_alias) graph_alias.node).length ∧
    ((header graph_alias).get (by decide)).layer_count = (graph_alias.node.length : Int)
      + ((header graph_alias).get (by decide)).input_node_count
      + ((header graph_alias).get (by decide)).node_reference.length
      + graph_alias.initializer.length
      - ((header graph_alias).get (by decide)).weight_nodes.length :=
  C4_layer_count graph_alias ((header graph_alias).get (by decide)) (by decide) (by decide)

/-- C5: the value count of the header is the number of distinct runtime value
names (the input names that are not weights when their node is visited and all
the output names of the nodes that are not skipped, plus the declared inputs
that are not weights) plus the sum, over the `node_reference` entries left by
the pruning, of their count; the entries left are those of the first pass whose
count is not one, with the count of the first pass. -/
theorem C5_blob_count (graph : GraphProto) (h : Header) (hh : header graph = some h) :
    h.blob_count
      = ((runtime_names (prep_start graph) graph.node
          ++ graph.input.filter (fun x => !mhas h.weight_nodes x)).dedup.length : Int)
        + (h.node_reference.map Prod.snd).sum ∧
    ∃ pst, prep_pass graph = some pst ∧
      h.node_reference = pst.node_reference.filter (fun e => decide (e.2 ≠ 1)) := by
  obtain ⟨pst, hp, hwn, hr, _, hb, _⟩ := header_cases hh
  refine ⟨?_, pst, hp, hr⟩
  obtain ⟨n1, m1⟩ := prep_nodes_blobs graph.node (prep_start graph) pst hp
    (by simp [prep_start])
  obtain ⟨n2, m2⟩ := prep_graph_inputs_blobs pst.weight_nodes graph.input (0, pst.blob_names) n1
  have hlen := length_eq_dedup_length _
    (runtime_names (prep_start graph) graph.node
      ++ graph.input.filter (fun x => !mhas h.weight_nodes x)) n2
    (by
      intro y
      rw [m2 y, m1 y, hwn]
      simp [prep_start])
  rw [hb, hlen, hr]

/-- Witness of C5: the graph with three consumers of one value. -/
theorem C5_blob_count_witness :
    ((header graph_three_consumers).get (by decide)).blob_count
      = ((runtime_names (prep_start graph_three_consumers) graph_three_consumers.node
          ++ graph_three_consumers.input.filter
            (fun x => !mhas ((header graph_three_consumers).get (by decide)).weight_nodes x)
          ).dedup.length : Int)
        + (((header graph_three_consumers).get (by decide)).node_reference.map Prod.snd).sum ∧
    ∃ pst, prep_pass graph_three_consumers = some pst ∧
      ((header graph_three_consumers).get (by decide)).node_reference
        = pst.node_reference.filter (fun e => decide (e.2 ≠ 1)) :=
  C5_blob_count graph_three_consumers ((header graph_three_consumers).get (by decide))
    (by decide)

/-! ## Aliases of weights -/

/-- C6, as stated, fails: in `graph_alias_clash` the first node is a reshape of
the weight `w0` (index 0) and registers its name `a` with index 0 when visited,
but the second reshape node is named `a` too and binds it to index 1: when the
convolution that consumes `a` is emitted, `a` resolves to index 1 and the
floats written are those of `w1` (10, 11, 12, 13), not those of `w0`. -/
theorem C6_counterexample :
    mfind (prep_start graph_alias_clash).weight_nodes "w0" = some 0 ∧
    (prep_node (prep_start graph_alias_clash) ⟨"Reshape", "", ["w0"], ["a"], []⟩).map
        (fun st => mfind st.weight_nodes "a") = some (some 0) ∧
    ((header graph_alias_clash).bind (fun h =>
        emit_nodes fadd_bits graph_alias_clash (emit_start graph_alias_clash h)
          (graph_alias_clash.node.take 2))).map
        (fun st => mfind st.weight_nodes "a") = some (some 1) ∧
    (convert fadd_bits graph_alias_clash).map (fun r => r.2.bp)
      = some [0, 0, 0, 0, 10, 0, 0, 0, 11, 0, 0, 0, 12, 0, 0, 0, 13, 0, 0, 0] := by
  decide

/-- C6, amended: let the names of the single-input reshape nodes be pairwise
distinct and distinct from the initializer names. For a reshape node with
exactly one input `x` that resolves to index `idx` in the weight map when the
first pass visits the node: the first pass registers the name of the node (its
first output name when the name is empty) with index `idx`; the name keeps this
index during the rest of the first pass, and in every state of the second pass,
so that a node of the second pass that looks the name up gets `idx` and leaves
the weight map unchanged. -/
theorem C6_alias_resolves (fadd : F32 → F32 → F32) (graph : GraphProto)
    (pre post : List NodeProto) (node : NodeProto) (x name : String) (idx : Nat) (pst : Prep)
    (hg : graph.node = pre ++ node :: post)
    (hop : node.op_type = "Reshape") (hin : node.input = [x])
    (hname : node_name node = some name)
    (hpre : prep_nodes (prep_start graph) pre = some pst)
    (hx : mfind pst.weight_nodes x = some idx)
    (hU : (reshape_names graph.node).Nodup)
    (hdis : ∀ k ∈ reshape_names graph.node, k ∉ graph.initializer.map (fun t => t.name)) :
    (∃ pst1, prep_node pst node = some pst1 ∧ mfind pst1.weight_nodes name = some idx ∧
      ∀ m pm, prep_nodes pst1 (post.take m) = some pm →
        mfind pm.weight_nodes name = some idx) ∧
    (∀ h k sk, header graph = some h →
      emit_nodes fadd graph (emit_start graph h) (graph.node.take k) = some sk →
      mfind sk.weight_nodes name = some idx ∧
        weight_index sk.weight_nodes name = (idx, sk.weight_nodes)) := by
  have hxw : mhas pst.weight_nodes x = true := mhas_of_mfind hx
  have hwr : is_weight_reshape pst.weight_nodes node = true := is_weight_reshape_of hop hin hxw
  have h1 : prep_node pst node
      = some ⟨register_alias pst.weight_nodes name (node.input.getD 0 ""),
          pst.node_reference, pst.blob_names⟩ := by
    simp only [prep_node, hname, hwr, Option.bind_eq_bind, Option.some_bind, if_true]
  have hreg : mfind (register_alias pst.weight_nodes name (node.input.getD 0 "")) name
      = some idx := by
    simp only [register_alias, hin, List.getD_cons_zero, hx, Option.getD_some, mfind_mset_self]
  have hinv0 : alias_inv (graph.initializer.map (fun t => t.name)) []
      (prep_start graph).weight_nodes := by
    refine ⟨fun k hk => ?_, fun nd hnd => by cases hnd⟩
    rcases mhas_init_weights graph.initializer [] 0 k hk with h | h
    · simp [mhas, mfind] at h
    · exact Or.inl h
  have hsub_pre : (reshape_names ([] ++ pre)).Sublist (reshape_names graph.node) := by
    rw [hg, List.nil_append, reshape_names_append]; exact List.sublist_append_left _ _
  obtain ⟨hinv_pre, _⟩ := prep_nodes_alias _ _ hU hdis pre [] (prep_start graph) pst hpre
    hinv0 hsub_pre
  rw [List.nil_append] at hinv_pre
  have hsub_node : (reshape_names (pre ++ [node])).Sublist (reshape_names graph.node) := by
    have : pre ++ node :: post = (pre ++ [node]) ++ post := by simp
    rw [hg, this, reshape_names_append (pre ++ [node]) post]
    exact List.sublist_append_left _ _
  obtain ⟨hinv1, _⟩ := prep_node_alias _ _ hU hdis pre node pst _ h1 hinv_pre hsub_node
  refine ⟨⟨_, h1, hreg, ?_⟩, ?_⟩
  · intro m pm hpm
    have hsubm : (reshape_names ((pre ++ [node]) ++ post.take m)).Sublist
        (reshape_names graph.node) := by
      rw [hg]
      unfold reshape_names
      apply List.Sublist.filterMap
      rw [List.append_assoc]
      exact List.Sublist.append_left (List.Sublist.cons₂ _ (List.take_sublist _ _)) _
    obtain ⟨_, hle⟩ := prep_nodes_alias _ _ hU hdis (post.take m) (pre ++ [node]) _ pm hpm
      hinv1 hsubm
    exact hle name idx hreg
  · intro h k sk hh hek
    obtain ⟨pstF, hp, hwn, _⟩ := header_cases hh
    unfold prep_pass at hp
    rw [hg] at hp
    obtain ⟨s1, hp1, hp2⟩ := prep_nodes_append pre (node :: post) hp
    rw [hpre] at hp1
    simp only [Option.some.injEq] at hp1
    subst hp1
    obtain ⟨s2, hp3, hp4⟩ := prep_nodes_cons hp2
    rw [h1] at hp3
    simp only [Option.some.injEq] at hp3
    subst hp3
    have hsubF : (reshape_names ((pre ++ [node]) ++ post)).Sublist
        (reshape_names graph.node) := by
      rw [hg]; simp
    obtain ⟨hinvF, hleF⟩ := prep_nodes_alias _ _ hU hdis post (pre ++ [node]) _ pstF hp4
      hinv1 hsubF
    have hW : mfind pstF.weight_nodes name = some idx := hleF name idx hreg
    have hcl : ∀ nd ∈ graph.node.take k, alias_closed pstF.weight_nodes nd := by
      intro nd hnd
      apply hinvF.2 nd
      have := (List.take_sublist k graph.node).subset hnd
      rw [hg] at this
      simpa using this
    have hle := emit_nodes_alias pstF.weight_nodes (graph.node.take k)
      (emit_start graph h) sk hek (by simp only [emit_start, hwn]; exact weights_le_refl _) hcl
    have hfin := hle name idx hW
    exact ⟨hfin, weight_index_of_mem hfin⟩

/-- Witness of C6: the weight reshape of `graph_alias`. -/
theorem C6_alias_resolves_witness :
    (∃ pst1, prep_node (prep_start graph_alias) ⟨"Reshape", "", ["w0"], ["a"], []⟩ = some pst1 ∧
      mfind pst1.weight_nodes "a" = some 0 ∧
      ∀ m pm, prep_nodes pst1 (List.take m [⟨"Conv", "", ["x", "a"], ["y"], []⟩]) = some pm →
        mfind pm.weight_nodes "a" = some 0) ∧
    (∀ h k sk, header graph_alias = some h →
      emit_nodes fadd_bits graph_alias (emit_start graph_alias h) (graph_alias.node.take k)
        = some sk →
      mfind sk.weight_nodes "a" = some 0 ∧
        weight_index sk.weight_nodes "a" = (0, sk.weight_nodes)) :=
  C6_alias_resolves fadd_bits graph_alias [] [⟨"Conv", "", ["x", "a"], ["y"], []⟩]
    ⟨"Reshape", "", ["w0"], ["a"], []⟩ "w0" "a" 0 (prep_start graph_alias)
    rfl rfl rfl rfl rfl rfl (by decide) (by decide)

/-! ## Pooling, reshape, transpose, fully connected -/

theorem lower_of_pool (fadd : F32 → F32 → F32) (graph : GraphProto)
    (weight_nodes : List (String × Nat)) (bp : List Nat) (node : NodeProto)
    (hop : node.op_type = "AveragePool" ∨ node.op_type = "MaxPool") :
    lower fadd graph weight_nodes bp node = some ⟨lower_pool node, bp, weight_nodes, []⟩ := by
  unfold lower
  rw [if_pos hop]

/-- C11: an `AveragePool` or `MaxPool` node prints, in this order, `0=` 1 for
average and 0 for max, the kernel params at keys 1/11, the stride params at
keys 2/12, the pad params at keys 3/13 (a 4-element pad list gives only
`3=pads[1]` and `13=pads[0]`), and `5=1`; each list is the integer list of the
first attribute of its name (`kernel_shape`, `strides`, `pads`), empty when
there is none. A `GlobalAveragePool` / `GlobalMaxPool` node prints exactly
`0=1` / `0=0` then `4=1`; none of them writes to the weight stream (nor changes
the weight map, nor prints a message). -/
theorem C11_pooling_params (fadd : F32 → F32 → F32) (graph : GraphProto)
    (weight_nodes : List (String × Nat)) (bp : List Nat) (node : NodeProto)
    (akernel astrides apads : Option AttributeProto)
    (hk : attr_of node "kernel_shape" akernel) (hs : attr_of node "strides" astrides)
    (hp : attr_of node "pads" apads) :
    (node.op_type = "AveragePool" → lower fadd graph weight_nodes bp node = some
      ⟨[⟨0, .int 1⟩] ++ spec_pair 1 (attr_ints akernel) ++ spec_pair 2 (attr_ints astrides)
        ++ spec_pads 3 (attr_ints apads) ++ [⟨5, .int 1⟩],
       bp, weight_nodes, []⟩) ∧
    (node.op_type = "MaxPool" → lower fadd graph weight_nodes bp node = some
      ⟨[⟨0, .int 0⟩] ++ spec_pair 1 (attr_ints akernel) ++ spec_pair 2 (attr_ints astrides)
        ++ spec_pads 3 (attr_ints apads) ++ [⟨5, .int 1⟩],
       bp, weight_nodes, []⟩) ∧
    (node.op_type = "GlobalAveragePool" → lower fadd graph weight_nodes bp node = some
      ⟨[⟨0, .int 1⟩, ⟨4, .int 1⟩], bp, weight_nodes, []⟩) ∧
    (node.op_type = "GlobalMaxPool" → lower fadd graph weight_nodes bp node = some
      ⟨[⟨0, .int 0⟩, ⟨4, .int 1⟩], bp, weight_nodes, []⟩) := by
  have hold :
      (node.op_type = "AveragePool" → lower fadd graph weight_nodes bp node = some
        ⟨[⟨0, .int 1⟩] ++ spec_pair 1 (get_node_attr_ai node "kernel_shape")
          ++ spec_pair 2 (get_node_attr_ai node "strides")
          ++ spec_pads 3 (get_node_attr_ai node "pads") ++ [⟨5, .int 1⟩],
         bp, weight_nodes, []⟩) ∧
      (node.op_type = "MaxPool" → lower fadd graph weight_nodes bp node = some
        ⟨[⟨0, .int 0⟩] ++ spec_pair 1 (get_node_attr_ai node "kernel_shape")
          ++ spec_pair 2 (get_node_attr_ai node "strides")
          ++ spec_pads 3 (get_node_attr_ai node "pads") ++ [⟨5, .int 1⟩],
         bp, weight_nodes, []⟩) ∧
      (node.op_type = "GlobalAveragePool" → lower fadd graph weight_nodes bp node = some
        ⟨[⟨0, .int 1⟩, ⟨4, .int 1⟩], bp, weight_nodes, []⟩) ∧
      (node.op_type = "GlobalMaxPool" → lower fadd graph weight_nodes bp node = some
        ⟨[⟨0, .int 0⟩, ⟨4, .int 1⟩], bp, weight_nodes, []⟩) := by
    refine ⟨?_, ?_, ?_, ?_⟩
    · intro hop
      rw [lower_of_pool fadd graph weight_nodes bp node (Or.inl hop)]
      simp only [lower_pool, hop, if_true, pair_params_eq_spec, pads_params_eq_spec]
    · intro hop
      rw [lower_of_pool fadd graph weight_nodes bp node (Or.inr hop)]
      simp [lower_pool, hop, pair_params_eq_spec, pads_params_eq_spec]
    · intro hop
      simp [lower, hop]
    · intro hop
      simp [lower, hop]
  have ek : get_node_attr_ai node "kernel_shape" = attr_ints akernel := by
    unfold get_node_attr_ai
    rw [find_attr_of hk]
    cases akernel <;> rfl
  have es : get_node_attr_ai node "strides" = attr_ints astrides := by
    unfold get_node_attr_ai
    rw [find_attr_of hs]
    cases astrides <;> rfl
  have ep : get_node_attr_ai node "pads" = attr_ints apads := by
    unfold get_node_attr_ai
    rw [find_attr_of hp]
    cases apads <;> rfl
  rw [ek, es, ep] at hold
  exact hold

/-- Witness of C11: an average pooling with kernel `[2, 3]`, stride `[2]` and
pads `[5, 6, 7, 8]`; the readers, the line printed by the whole conversion and
the handler are evaluated, and the line carries
`0=1 1=3 11=2 2=2 3=6 13=5 5=1`. -/
theorem C11_pooling_params_witness :
    (get_node_attr_ai pool_node "kernel_shape", get_node_attr_ai pool_node "strides",
      get_node_attr_ai pool_node "pads") = ([2, 3], [2], [5, 6, 7, 8]) ∧
    (convert fadd_bits pool_graph).map
        (fun r => (r.2.pp.map (fun l => (l.layer.type, l.layer.params)), r.2.bp))
      = some ([("Input", []), ("Pooling", [⟨0, .int 1⟩, ⟨1, .int 3⟩, ⟨11, .int 2⟩, ⟨2, .int 2⟩,
          ⟨3, .int 6⟩, ⟨13, .int 5⟩, ⟨5, .int 1⟩])], []) ∧
    lower fadd_bits conv3x3_graph [] [9] pool_node = some
      ⟨[⟨0, .int 1⟩, ⟨1, .int 3⟩, ⟨11, .int 2⟩, ⟨2, .int 2⟩, ⟨3, .int 6⟩, ⟨13, .int 5⟩,
        ⟨5, .int 1⟩], [9], [], []⟩ :=
  ⟨by decide, by decide, ((C11_pooling_params fadd_bits conv3x3_graph [] [9] pool_node
    (some (ints_attr "kernel_shape" [2, 3])) (some (ints_attr "strides" [2]))
    (some (ints_attr "pads" [5, 6, 7, 8]))
    ⟨[], _, rfl, rfl, by simp⟩
    ⟨[ints_attr "kernel_shape" [2, 3]], _, rfl, rfl, by decide⟩
    ⟨[ints_attr "kernel_shape" [2, 3], ints_attr "strides" [2]], _, rfl, rfl, by decide⟩).1
    rfl).trans (by decide)⟩

theorem lower_of_reshape (fadd : F32 → F32 → F32) (graph : GraphProto)
    (weight_nodes : List (String × Nat)) (bp : List Nat) (node : NodeProto)
    (hop : node.op_type = "Reshape") :
    lower fadd graph weight_nodes bp node
      = (lower_reshape node).map (fun ps => ⟨ps, bp, weight_nodes, []⟩) := by
  simp [lower, hop]

theorem lower_reshape_eq_spec (node : NodeProto)
    (hov : (get_node_attr_ai node "shape").length = 5 →
      -2147483648 ≤ (get_node_attr_ai node "shape").getD 4 0
          * (get_node_attr_ai node "shape").getD 3 0 ∧
        (get_node_attr_ai node "shape").getD 4 0
          * (get_node_attr_ai node "shape").getD 3 0 ≤ 2147483647) :
    lower_reshape node = some (spec_reshape (get_node_attr_ai node "shape")) := by
  unfold lower_reshape
  generalize get_node_attr_ai node "shape" = s at hov ⊢
  match s, hov with
  | [], _ => rfl
  | [_], _ => rfl
  | [_, _], _ => rfl
  | [_, _, _], _ => rfl
  | [_, _, _, _], _ => rfl
  | [s0, s1, s2, s3, s4], hov =>
    have h := hov rfl
    simp only [List.getD_cons_succ, List.getD_cons_zero] at h
    simp [checked_int, h, spec_reshape]
  | _ :: _ :: _ :: _ :: _ :: _ :: l, _ => simp [spec_reshape]

/-- C12: a `Reshape` node that is not skipped, with shape list `s` of length
`L`, prints exactly: `L=1`: `0=s[0]`; `L=2`: `0=s[1]`; `L=3`: `0=s[2] 1=s[1]`;
`L=4`: `0=s[3] 1=s[2] 2=s[1]`; `L=5`: `0=s[4]*s[3] 1=s[2] 2=s[1]` (the product
is assumed to fit an `int`, its overflow is undefined); `L=0` or `L>5`: nothing.
The list `s` is the integer list of the first attribute named `shape`, empty
when there is none. At most three params are printed, and for `L >= 2` they do
not depend on `s[0]`. Nothing is written to the weight stream. -/
theorem C12_reshape_params (fadd : F32 → F32 → F32) (graph : GraphProto)
    (weight_nodes : List (String × Nat)) (bp : List Nat) (node : NodeProto)
    (ashape : Option AttributeProto)
    (hop : node.op_type = "Reshape") (hs : attr_of node "shape" ashape)
    (hov : (attr_ints ashape).length = 5 →
      -2147483648 ≤ (attr_ints ashape).getD 4 0 * (attr_ints ashape).getD 3 0 ∧
        (attr_ints ashape).getD 4 0 * (attr_ints ashape).getD 3 0 ≤ 2147483647) :
    lower fadd graph weight_nodes bp node
      = some ⟨spec_reshape (attr_ints ashape), bp, weight_nodes, []⟩ ∧
    (spec_reshape (attr_ints ashape)).length ≤ 3 ∧
    (∀ (a b : Int) (t : List Int), t ≠ [] → spec_reshape (a :: t) = spec_reshape (b :: t)) := by
  have es : get_node_attr_ai node "shape" = attr_ints ashape := by
    unfold get_node_attr_ai
    rw [find_attr_of hs]
    cases ashape <;> rfl
  refine ⟨?_, ?_, ?_⟩
  · rw [lower_of_reshape fadd graph weight_nodes bp node hop,
      lower_reshape_eq_spec node (by rw [es]; exact hov), es]
    rfl
  · generalize attr_ints ashape = s
    match s with
    | [] => simp [spec_reshape]
    | [_] => simp [spec_reshape]
    | [_, _] => simp [spec_reshape]
    | [_, _, _] => simp [spec_reshape]
    | [_, _, _, _] => simp [spec_reshape]
    | [_, _, _, _, _] => simp [spec_reshape]
    | _ :: _ :: _ :: _ :: _ :: _ :: l => simp [spec_reshape]
  · intro a b t ht
    match t, ht with
    | [_], _ => rfl
    | [_, _], _ => rfl
    | [_, _, _], _ => rfl
    | [_, _, _, _], _ => rfl
    | _ :: _ :: _ :: _ :: _ :: l, _ => simp [spec_reshape]

/-- Witness of C12: the shape `[1, 2, 3, 4, 5]`; the reader, the line printed
by the whole conversion and the handler are evaluated, and the line carries
`0=20 1=3 2=2`. -/
theorem C12_reshape_params_witness :
    get_node_attr_ai reshape5_node "shape" = [1, 2, 3, 4, 5] ∧
    (convert fadd_bits reshape5_graph).map
        (fun r => (r.2.pp.map (fun l => (l.layer.type, l.layer.params)), r.2.bp))
      = some ([("Input", []), ("Reshape", [⟨0, .int 20⟩, ⟨1, .int 3⟩, ⟨2, .int 2⟩])], []) ∧
    lower fadd_bits conv3x3_graph [] [9] reshape5_node
      = some ⟨[⟨0, .int 20⟩, ⟨1, .int 3⟩, ⟨2, .int 2⟩], [9], [], []⟩ :=
  ⟨by decide, by decide, (C12_reshape_params fadd_bits conv3x3_graph [] [9] reshape5_node
    (some (ints_attr "shape" [1, 2, 3, 4, 5])) rfl ⟨[], _, rfl, rfl, by simp⟩
    (by decide)).1.trans (by decide)⟩

theorem table_code_cons (t k : List Int) (c : Int) (rest : List (List Int × Int)) :
    table_code ((k, c) :: rest) t = if t = k then some c else table_code rest t := by
  unfold table_code
  rw [List.find?_cons]
  by_cases h : t = k <;> simp [h]

theorem perm_table5_eq : perm_table5 = [([1, 2, 3, 4], 0), ([1, 3, 4, 2], 1),
    ([2, 1, 3, 4], 2), ([2, 3, 4, 1], 3), ([3, 4, 1, 2], 4), ([3, 4, 2, 1], 5)] := by
  simp [perm_table5, perm_table, expand_axis3]

theorem lower_transpose_perm4 (node : NodeProto) (p0 p1 p2 p3 : Int)
    (hp : get_node_attr_ai node "perm" = [p0, p1, p2, p3]) :
    lower_transpose node = (code_params (table_code perm_table [p1, p2, p3]), []) := by
  unfold lower_transpose
  simp only [hp, List.length_cons, List.length_nil, List.getD_cons_succ, List.getD_cons_zero]
  simp only [perm_table, table_code_cons, List.cons.injEq, and_true]
  have : table_code [] [p1, p2, p3] = none := rfl
  rw [this]
  split_ifs <;> simp_all [code_params]

theorem lower_transpose_perm5 (node : NodeProto) (p0 p1 p2 p3 p4 : Int)
    (hp : get_node_attr_ai node "perm" = [p0, p1, p2, p3, p4]) :
    lower_transpose node = (code_params (table_code perm_table5 [p1, p2, p3, p4]),
      if table_code perm_table5 [p1, p2, p3, p4] = none then [Diag.unsupported_transpose]
      else []) := by
  unfold lower_transpose
  have h4 : ¬ ([p0, p1, p2, p3, p4].length = 4) := by simp
  have h5 : [p0, p1, p2, p3, p4].length = 5 := rfl
  simp only [hp, h4, h5, if_false, if_true, List.getD_cons_succ, List.getD_cons_zero]
  simp only [perm_table5_eq, table_code_cons, List.cons.injEq, and_true]
  have : table_code [] [p1, p2, p3, p4] = none := rfl
  rw [this]
  by_cases h0 : p1 = 1 ∧ p2 = 2 ∧ p3 = 3 ∧ p4 = 4
  · simp only [if_pos h0]; simp [code_params]
  simp only [if_neg h0]
  by_cases h1 : p1 = 1 ∧ p2 = 3 ∧ p3 = 4 ∧ p4 = 2
  · simp only [if_pos h1]; simp [code_params]
  simp only [if_neg h1]
  by_cases h2 : p1 = 2 ∧ p2 = 1 ∧ p3 = 3 ∧ p4 = 4
  · simp only [if_pos h2]; simp [code_params]
  simp only [if_neg h2]
  by_cases h3 : p1 = 2 ∧ p2 = 3 ∧ p3 = 4 ∧ p4 = 1
  · simp only [if_pos h3]; simp [code_params]
  simp only [if_neg h3]
  by_cases h4 : p1 = 3 ∧ p2 = 4 ∧ p3 = 1 ∧ p4 = 2
  · simp only [if_pos h4]; simp [code_params]
  simp only [if_neg h4]
  by_cases h5 : p1 = 3 ∧ p2 = 4 ∧ p3 = 2 ∧ p4 = 1
  · simp only [if_pos h5]; simp [code_params]
  simp only [if_neg h5]
  simp [code_params]

theorem lower_of_transpose (fadd : F32 → F32 → F32) (graph : GraphProto)
    (weight_nodes : List (String × Nat)) (bp : List Nat) (node : NodeProto)
    (hop : node.op_type = "Transpose") :
    lower fadd graph weight_nodes bp node
      = some ⟨(lower_transpose node).1, bp, weight_nodes, (lower_transpose node).2⟩ := by
  simp [lower, hop]

theorem perm_fixing_batch (q : List Int) (hq : q.Perm [0, 1, 2, 3]) (h0 : q.head? = some 0) :
    q.tail = [1, 2, 3] ∨ q.tail = [1, 3, 2] ∨ q.tail = [2, 1, 3] ∨ q.tail = [2, 3, 1]
      ∨ q.tail = [3, 1, 2] ∨ q.tail = [3, 2, 1] := by
  have hlen := hq.length_eq
  match q, hlen, hq, h0 with
  | [a, b, c, d], _, hq, h0 =>
    simp only [List.head?_cons, Option.some.injEq] at h0
    subst h0
    have ht : [b, c, d].Perm [1, 2, 3] := List.Perm.cons_inv hq
    have hnd : [b, c, d].Nodup := ht.nodup_iff.2 (by decide)
    have hb : b = 1 ∨ b = 2 ∨ b = 3 := by simpa using ht.subset (List.mem_cons_self _ _)
    have hc : c = 1 ∨ c = 2 ∨ c = 3 := by
      simpa using ht.subset (List.mem_cons_of_mem _ (List.mem_cons_self _ _))
    have hd : d = 1 ∨ d = 2 ∨ d = 3 := by
      simpa using ht.subset
        (List.mem_cons_of_mem _ (List.mem_cons_of_mem _ (List.mem_cons_self _ _)))
    rcases hb with rfl | rfl | rfl <;> rcases hc with rfl | rfl | rfl <;>
      rcases hd with rfl | rfl | rfl <;> simp at hnd ⊢

/-- C13: a `Transpose` node with a 4-element perm `p` prints `0=` the code the
table gives to `(p[1], p[2], p[3])`, and nothing when the table has no entry;
with a 5-element perm it prints the code of the 4-element entry that becomes
`(p[1], p[2], p[3], p[4])` when axis 3 is replaced by the consecutive pair
3, 4. Every permutation of 0, 1, 2, 3 that fixes position 0 has a code, and two
such permutations with the same code are equal. -/
theorem C13_transpose_codes (fadd : F32 → F32 → F32) (graph : GraphProto)
    (weight_nodes : List (String × Nat)) (bp : List Nat) (node : NodeProto)
    (hop : node.op_type = "Transpose") :
    (∀ p0 p1 p2 p3 : Int, get_node_attr_ai node "perm" = [p0, p1, p2, p3] →
      lower fadd graph weight_nodes bp node
        = some ⟨code_params (table_code perm_table [p1, p2, p3]), bp, weight_nodes, []⟩) ∧
    (∀ p0 p1 p2 p3 p4 : Int, get_node_attr_ai node "perm" = [p0, p1, p2, p3, p4] →
      ∃ diag, lower fadd graph weight_nodes bp node
        = some ⟨code_params (table_code (perm_table.map (fun e => (expand_axis3 e.1, e.2)))
            [p1, p2, p3, p4]), bp, weight_nodes, diag⟩) ∧
    (∀ q : List Int, q.Perm [0, 1, 2, 3] → q.head? = some 0 →
      ∃ c, table_code perm_table q.tail = some c) ∧
    (∀ q q' : List Int, q.Perm [0, 1, 2, 3] → q'.Perm [0, 1, 2, 3] →
      q.head? = some 0 → q'.head? = some 0 →
      table_code perm_table q.tail = table_code perm_table q'.tail → q = q') := by
  refine ⟨?_, ?_, ?_, ?_⟩
  · intro p0 p1 p2 p3 hp
    rw [lower_of_transpose fadd graph weight_nodes bp node hop,
      lower_transpose_perm4 node p0 p1 p2 p3 hp]
  · intro p0 p1 p2 p3 p4 hp
    rw [lower_of_transpose fadd graph weight_nodes bp node hop,
      lower_transpose_perm5 node p0 p1 p2 p3 p4 hp]
    exact ⟨_, rfl⟩
  · intro q hq h0
    rcases perm_fixing_batch q hq h0 with h | h | h | h | h | h <;> rw [h] <;>
      simp [perm_table, table_code_cons]
  · intro q q' hq hq' h0 h0' hc
    have hq0 : q = 0 :: q.tail := by
      match q, h0 with
      | a :: t, h0 => simp only [List.head?_cons, Option.some.injEq] at h0; simp [h0]
    have hq0' : q' = 0 :: q'.tail := by
      match q', h0' with
      | a :: t, h0' => simp only [List.head?_cons, Option.some.injEq] at h0'; simp [h0']
    rw [hq0, hq0']
    congr 1
    rcases perm_fixing_batch q hq h0 with h | h | h | h | h | h <;>
      rcases perm_fixing_batch q' hq' h0' with h' | h' | h' | h' | h' | h' <;>
      rw [h, h'] at hc ⊢ <;> simp [perm_table, table_code_cons] at hc ⊢

/-- Witness of C13: the perm 0, 2, 3, 1 has code 3. -/
theorem C13_transpose_codes_witness :
    lower fadd_bits conv3x3_graph [] [9] transpose_node
      = some ⟨code_params (table_code perm_table [2, 3, 1]), [9], [], []⟩ :=
  (C13_transpose_codes fadd_bits conv3x3_graph [] [9] transpose_node rfl).1 0 2 3 1 rfl

/-- C14 fails on the code for a 4-element perm: the perm 1, 0, 2, 3 is not an
entry of the table, and the lowering prints no param and no message; only the
5-element branch has the final `else` that prints the message, as the perm
1, 0, 2, 3, 4 shows. -/
theorem C14_four_element_perm_is_silent :
    table_code perm_table [0, 2, 3] = none ∧
    lower fadd_bits conv3x3_graph [] [] transpose_batch_node = some ⟨[], [], [], []⟩ ∧
    lower fadd_bits conv3x3_graph [] [] transpose_batch5_node
      = some ⟨[], [], [], [Diag.unsupported_transpose]⟩ := by
  decide

theorem lower_of_gemm (fadd : F32 → F32 → F32) (graph : GraphProto)
    (weight_nodes : List (String × Nat)) (bp : List Nat) (node : NodeProto)
    (hop : node.op_type = "Gemm") :
    lower fadd graph weight_nodes bp node = lower_gemm graph weight_nodes bp node := by
  simp [lower, hop]

/-- C15: a `Gemm` node whose inputs 1 and 2 resolve in the weight map appends
the weight (input 1) and then the bias (input 2) to the weight stream when
alpha = 1, beta = 1, transA = 0, transB = 1 and broadcast = 1, and appends
nothing for every other combination; in both cases it prints no param. Here
alpha and beta are the floats of the first attributes of these names, 1 when
there is none, and transA, transB, broadcast the integers of the first
attributes of these names, 0 when there is none. -/
theorem C15_gemm_payload (fadd : F32 → F32 → F32) (graph : GraphProto)
    (weight_nodes : List (String × Nat)) (bp : List Nat) (node : NodeProto)
    (n1 n2 : String) (i1 i2 : Nat) (B C : TensorProto)
    (aalpha abeta atransA atransB abroadcast : Option AttributeProto)
    (hop : node.op_type = "Gemm")
    (h1 : node.input[1]? = some n1) (h2 : node.input[2]? = some n2)
    (hw1 : mfind weight_nodes n1 = some i1) (hw2 : mfind weight_nodes n2 = some i2)
    (ht1 : graph.initializer[i1]? = some B) (ht2 : graph.initializer[i2]? = some C)
    (ha : attr_of node "alpha" aalpha) (hb : attr_of node "beta" abeta)
    (hta : attr_of node "transA" atransA) (htb : attr_of node "transB" atransB)
    (hbr : attr_of node "broadcast" abroadcast) :
    ((attr_float F32.one aalpha = F32.one ∧ attr_float F32.one abeta = F32.one
        ∧ attr_int 0 atransA = 0 ∧ attr_int 0 atransB = 1 ∧ attr_int 0 abroadcast = 1) →
      lower fadd graph weight_nodes bp node = some
        ⟨[], bp ++ fwrite_tensor_proto_data B [] ++ fwrite_tensor_proto_data C [],
          weight_nodes, []⟩) ∧
    (¬ (attr_float F32.one aalpha = F32.one ∧ attr_float F32.one abeta = F32.one
        ∧ attr_int 0 atransA = 0 ∧ attr_int 0 atransB = 1 ∧ attr_int 0 abroadcast = 1) →
      lower fadd graph weight_nodes bp node = some ⟨[], bp, weight_nodes, []⟩) := by
  have hold :
      ((get_node_attr_f node "alpha" F32.one = F32.one
          ∧ get_node_attr_f node "beta" F32.one = F32.one
          ∧ get_node_attr_i node "transA" 0 = 0 ∧ get_node_attr_i node "transB" 0 = 1
          ∧ get_node_attr_i node "broadcast" 0 = 1) →
        lower fadd graph weight_nodes bp node = some
          ⟨[], bp ++ fwrite_tensor_proto_data B [] ++ fwrite_tensor_proto_data C [],
            weight_nodes, []⟩) ∧
      (¬ (get_node_attr_f node "alpha" F32.one = F32.one
          ∧ get_node_attr_f node "beta" F32.one = F32.one
          ∧ get_node_attr_i node "transA" 0 = 0 ∧ get_node_attr_i node "transB" 0 = 1
          ∧ get_node_attr_i node "broadcast" 0 = 1) →
        lower fadd graph weight_nodes bp node = some ⟨[], bp, weight_nodes, []⟩) := by
    rw [lower_of_gemm fadd graph weight_nodes bp node hop]
    constructor
    · rintro ⟨ha, hb, hta, htb, hbr⟩
      simp [lower_gemm, ha, hb, hta, htb, hbr, h1, h2, weight_index_of_mem hw1,
        weight_index_of_mem hw2, ht1, ht2]
      rw [fwrite_eq_append C, fwrite_eq_append B]
      simp
    · intro hn
      unfold lower_gemm
      by_cases hab : get_node_attr_f node "alpha" F32.one = F32.one
          ∧ get_node_attr_f node "beta" F32.one = F32.one
      · have ht : ¬ (get_node_attr_i node "transA" 0 = 0 ∧ get_node_attr_i node "transB" 0 = 1
            ∧ get_node_attr_i node "broadcast" 0 = 1) := fun h => hn ⟨hab.1, hab.2, h⟩
        simp only [Option.bind_eq_bind, if_pos hab, if_neg ht]
      · simp only [Option.bind_eq_bind, if_neg hab]
  have ea : get_node_attr_f node "alpha" F32.one = attr_float F32.one aalpha := by
    unfold get_node_attr_f
    rw [find_attr_of ha]
    cases aalpha <;> rfl
  have eb : get_node_attr_f node "beta" F32.one = attr_float F32.one abeta := by
    unfold get_node_attr_f
    rw [find_attr_of hb]
    cases abeta <;> rfl
  have eta : get_node_attr_i node "transA" 0 = attr_int 0 atransA := by
    unfold get_node_attr_i
    rw [find_attr_of hta]
    cases atransA <;> rfl
  have etb : get_node_attr_i node "transB" 0 = attr_int 0 atransB := by
    unfold get_node_attr_i
    rw [find_attr_of htb]
    cases atransB <;> rfl
  have ebr : get_node_attr_i node "broadcast" 0 = attr_int 0 abroadcast := by
    unfold get_node_attr_i
    rw [find_attr_of hbr]
    cases abroadcast <;> rfl
  rw [ea, eb, eta, etb, ebr] at hold
  exact hold

/-- Witness of C15: the supported configuration appends the 18 floats of the
weight and the 2 floats of the bias (80 bytes); the same node with
`alpha = 0.5` appends nothing. The readers, the whole conversion and the
handler are evaluated. -/
theorem C15_gemm_payload_witness :
    (get_node_attr_f gemm_half_node "alpha" F32.one,
      get_node_attr_f gemm_half_node "beta" F32.one,
      get_node_attr_i gemm_half_node "transA" 0, get_node_attr_i gemm_half_node "transB" 0,
      get_node_attr_i gemm_half_node "broadcast" 0) = (⟨0x3F000000⟩, ⟨0x3F800000⟩, 0, 1, 1) ∧
    (convert fadd_bits gemm_graph).map
        (fun r => (r.2.pp.map (fun l => (l.layer.type, l.layer.params)), r.2.bp.length))
      = some ([("Input", []), ("Innerproduct", [])], 80) ∧
    (convert fadd_bits gemm_half_graph).map
        (fun r => (r.2.pp.map (fun l => (l.layer.type, l.layer.params)), r.2.bp))
      = some ([("Input", []), ("Innerproduct", [])], []) ∧
    lower fadd_bits gemm_graph [("W", 0), ("B", 1)] [9] gemm_node = some
      ⟨[], [9, 0, 0, 0, 0, 1, 0, 0, 0, 2, 0, 0, 0, 3, 0, 0, 0, 4, 0, 0, 0, 5, 0, 0, 0,
        6, 0, 0, 0, 7, 0, 0, 0, 8, 0, 0, 0, 9, 0, 0, 0, 10, 0, 0, 0, 11, 0, 0, 0,
        12, 0, 0, 0, 13, 0, 0, 0, 14, 0, 0, 0, 15, 0, 0, 0, 16, 0, 0, 0, 17, 0, 0, 0,
        100, 0, 0, 0, 101, 0, 0, 0], [("W", 0), ("B", 1)], []⟩ ∧
    lower fadd_bits gemm_graph [("W", 0), ("B", 1)] [9] gemm_half_node = some
      ⟨[], [9], [("W", 0), ("B", 1)], []⟩ :=
  ⟨by decide, by decide, by decide,
    ((C15_gemm_payload fadd_bits gemm_graph [("W", 0), ("B", 1)] [9] gemm_node "W" "B" 0 1
      conv_W conv_B none none none (some ⟨"transB", 2, ⟨0⟩, 1, "", []⟩)
      (some ⟨"broadcast", 2, ⟨0⟩, 1, "", []⟩) rfl rfl rfl rfl rfl rfl rfl
      (by simp only [attr_of]; decide) (by simp only [attr_of]; decide)
      (by simp only [attr_of]; decide)
      ⟨[], _, rfl, rfl, by simp⟩
      ⟨[⟨"transB", 2, ⟨0⟩, 1, "", []⟩], _, rfl, rfl, by decide⟩).1 (by decide)).trans
      (by decide),
    (C15_gemm_payload fadd_bits gemm_graph [("W", 0), ("B", 1)] [9] gemm_half_node "W" "B" 0 1
      conv_W conv_B (some (float_attr "alpha" F32.half)) none none
      (some (int_attr "transB" 1)) (some (int_attr "broadcast" 1)) rfl rfl rfl rfl rfl rfl rfl
      ⟨[], _, rfl, rfl, by simp⟩ (by simp only [attr_of]; decide)
      (by simp only [attr_of]; decide)
      ⟨[float_attr "alpha" F32.half], _, rfl, rfl, by decide⟩
      ⟨[float_attr "alpha" F32.half, int_attr "transB" 1], _, rfl, rfl, by decide⟩).2
      (by decide)⟩

/-! ## Tensor accessors -/

/-- C16, as stated, fails for a tensor without raw bytes whose element type is
not float: `complex_tensor` holds four floats in its float list, yet its
element count is 0 and nothing is written. -/
theorem C16_counterexample :
    complex_tensor.raw_data = none ∧ complex_tensor.float_data.length = 4 ∧
    get_tensor_proto_data_size complex_tensor = 0 ∧
    fwrite_tensor_proto_data complex_tensor [9] = [9] := by
  decide

/-- C16, amended: `get_tensor_proto_data_size` returns the length of the raw
bytes divided by 4 (rounded down) when there are raw bytes, otherwise the
length of the float list when the element type is float (1), otherwise 0;
`fwrite_tensor_proto_data` appends the first `4 * floor(len / 4)` raw bytes, or
the four bytes of every float of the list when the element type is float, or
nothing: always exactly `4 * elementCount` bytes. -/
theorem C16_element_count (tp : TensorProto) (bp : List Nat) :
    (∀ raw, tp.raw_data = some raw →
      get_tensor_proto_data_size tp = raw.length / 4 ∧
      fwrite_tensor_proto_data tp bp = bp ++ raw.take (4 * (raw.length / 4))) ∧
    (tp.raw_data = none → tp.data_type = 1 →
      get_tensor_proto_data_size tp = tp.float_data.length ∧
      fwrite_tensor_proto_data tp bp = bp ++ tp.float_data.flatMap F32.bytes) ∧
    (tp.raw_data = none → tp.data_type ≠ 1 →
      get_tensor_proto_data_size tp = 0 ∧ fwrite_tensor_proto_data tp bp = bp) ∧
    (fwrite_tensor_proto_data tp bp).length = bp.length + 4 * get_tensor_proto_data_size tp := by
  refine ⟨?_, ?_, ?_, ?_⟩
  · intro raw hr
    simp [get_tensor_proto_data_size, fwrite_tensor_proto_data, hr]
  · intro hr ht
    simp [get_tensor_proto_data_size, fwrite_tensor_proto_data, hr, ht]
  · intro hr ht
    simp [get_tensor_proto_data_size, fwrite_tensor_proto_data, hr, ht]
  · rw [fwrite_eq_append, List.length_append, length_fwrite]

/-- Witness of C16: nine raw bytes hold two floats, eight bytes are written. -/
theorem C16_element_count_witness :
    get_tensor_proto_data_size int_raw_W = [1, 0, 0, 0, 0, 0, 0, 0, 9].length / 4 ∧
    fwrite_tensor_proto_data int_raw_W [7]
      = [7] ++ [1, 0, 0, 0, 0, 0, 0, 0, 9].take (4 * ([1, 0, 0, 0, 0, 0, 0, 0, 9].length / 4)) :=
  (C16_element_count int_raw_W [7]).1 [1, 0, 0, 0, 0, 0, 0, 0, 9] rfl

/-- C17, as stated, fails: the weight `int_W` holds 64-bit integers, its element
count is silently 0, and the conversion of `graph_int_weight` goes through: an
`Input` line, a convolution line with `6=0`, the four zero bytes only, and no
message. -/
theorem C17_counterexample :
    int_W.data_type = 7 ∧ get_tensor_proto_data_size int_W = 0 ∧
    (convert fadd_bits graph_int_weight).map
        (fun r => (r.2.pp.map (fun l => l.layer.params), r.2.bp, r.2.diag))
      = some ([[], [⟨0, .int 2⟩, ⟨5, .int 0⟩, ⟨6, .int 0⟩]], [0, 0, 0, 0], []) := by
  decide

/-- C17, amended: for a tensor without raw bytes whose element type is not
float, `get_tensor_proto_data_size` returns 0 and `fwrite_tensor_proto_data`
writes nothing, and no error is signalled (both functions are total); for a
tensor with raw bytes the element type is not looked at. -/
theorem C17_unsupported_type_is_zero (tp : TensorProto) (hr : tp.raw_data = none)
    (ht : tp.data_type ≠ 1) :
    get_tensor_proto_data_size tp = 0 ∧
    (∀ bp, fwrite_tensor_proto_data tp bp = bp) ∧
    (∀ (raw : List Nat) (t : Int),
      get_tensor_proto_data_size { tp with raw_data := some raw, data_type := t }
        = raw.length / 4) := by
  refine ⟨?_, ?_, ?_⟩
  · simp [get_tensor_proto_data_size, hr, ht]
  · intro bp
    simp [fwrite_tensor_proto_data, hr, ht]
  · intro raw t
    simp [get_tensor_proto_data_size]

/-- Witness of C17: the weight of 64-bit integers. -/
theorem C17_unsupported_type_is_zero_witness :
    get_tensor_proto_data_size int_W = 0 ∧
    (∀ bp, fwrite_tensor_proto_data int_W bp = bp) ∧
    (∀ (raw : List Nat) (t : Int),
      get_tensor_proto_data_size { int_W with raw_data := some raw, data_type := t }
        = raw.length / 4) :=
  C17_unsupported_type_is_zero int_W rfl (by decide)

/-! ## Lookups of constants -/

theorem zero_ext_refl (w : List (String × Nat)) : zero_ext w w :=
  ⟨weights_le_refl w, fun _ h => Or.inl h⟩

theorem zero_ext_step {w0 w : List (String × Nat)} (h : zero_ext w0 w) (x : String) :
    zero_ext w0 (weight_index w x).2 := by
  refine ⟨weights_le_trans h.1 (weight_index_le w x), fun k hk => ?_⟩
  unfold weight_index
  cases hx : mfind w x with
  | some j => exact h.2 k hk
  | none =>
    simp only
    by_cases hxk : x = k
    · subst hxk; right; exact mfind_mset_self _ _ _
    · rw [mfind_mset_ne _ _ _ _ hxk]; exact h.2 k hk

theorem zero_ext_lookup {w0 w : List (String × Nat)} (h : zero_ext w0 w) (x : String) :
    mfind (weight_index w x).2 x = some ((mfind w0 x).getD 0) := by
  unfold weight_index
  cases hx : mfind w x with
  | some j =>
    simp only [hx]
    cases h0 : mfind w0 x with
    | some j0 =>
      have := h.1 x j0 h0
      rw [hx] at this; simpa using this
    | none =>
      rcases h.2 x h0 with h' | h'
      · rw [hx] at h'; cases h'
      · rw [hx] at h'; simpa using h'
  | none =>
    simp only [mfind_mset_self]
    cases h0 : mfind w0 x with
    | some j0 =>
      have := h.1 x j0 h0
      rw [hx] at this; cases this
    | none => rfl

theorem lower_cases {fadd : F32 → F32 → F32} {graph : GraphProto}
    {w : List (String × Nat)} {bp : List Nat} {node : NodeProto} {low : Lowered}
    (h : lower fadd graph w bp node = some low) :
    (node.op_type = "BatchNormalization" ∧ lower_batchnorm fadd graph w bp node = some low) ∨
    (node.op_type = "Conv" ∧ lower_conv graph w bp node = some low) ∨
    (node.op_type = "Gemm" ∧ lower_gemm graph w bp node = some low) ∨
    (node.op_type ≠ "BatchNormalization" ∧ node.op_type ≠ "Conv" ∧ node.op_type ≠ "Gemm" ∧
      low.weight_nodes = w ∧ low.bp = bp) := by
  unfold lower at h
  by_cases h2 : node.op_type = "BatchNormalization"
  · left; refine ⟨h2, ?_⟩
    rw [if_neg (by rw [h2]; decide), if_pos h2] at h; exact h
  by_cases h4 : node.op_type = "Conv"
  · right; left; refine ⟨h4, ?_⟩
    rw [if_neg (by rw [h4]; decide), if_neg h2, if_neg (by rw [h4]; decide), if_pos h4] at h
    exact h
  by_cases h6 : node.op_type = "Gemm"
  · right; right; left; refine ⟨h6, ?_⟩
    rw [if_neg (by rw [h6]; decide), if_neg h2, if_neg (by rw [h6]; decide), if_neg h4,
      if_neg (by rw [h6]; decide), if_pos h6] at h
    exact h
  right; right; right
  refine ⟨h2, h4, h6, ?_⟩
  by_cases h1 : node.op_type = "AveragePool" ∨ node.op_type = "MaxPool"
  · rw [if_pos h1] at h
    simp only [Option.some.injEq] at h; subst h; exact ⟨rfl, rfl⟩
  rw [if_neg h1, if_neg h2] at h
  by_cases h3 : node.op_type = "Concat"
  · rw [if_pos h3] at h
    simp only [Option.map_eq_some'] at h
    obtain ⟨_, _, rfl⟩ := h; exact ⟨rfl, rfl⟩
  rw [if_neg h3, if_neg h4] at h
  by_cases h5 : node.op_type = "Dropout"
  · rw [if_pos h5] at h
    simp only [Option.some.injEq] at h; subst h; exact ⟨rfl, rfl⟩
  rw [if_neg h5, if_neg h6] at h
  by_cases h7 : node.op_type = "GlobalAveragePool"
  · rw [if_pos h7] at h
    simp only [Option.some.injEq] at h; subst h; exact ⟨rfl, rfl⟩
  rw [if_neg h7] at h
  by_cases h8 : node.op_type = "GlobalMaxPool"
  · rw [if_pos h8] at h
    simp only [Option.some.injEq] at h; subst h; exact ⟨rfl, rfl⟩
  rw [if_neg h8] at h
  by_cases h9 : node.op_type = "LRN"
  · rw [if_pos h9] at h
    simp only [Option.some.injEq] at h; subst h; exact ⟨rfl, rfl⟩
  rw [if_neg h9] at h
  by_cases h10 : node.op_type = "Reshape"
  · rw [if_pos h10] at h
    simp only [Option.map_eq_some'] at h
    obtain ⟨_, _, rfl⟩ := h; exact ⟨rfl, rfl⟩
  rw [if_neg h10] at h
  by_cases h11 : node.op_type = "Softmax"
  · rw [if_pos h11] at h
    simp only [Option.map_eq_some'] at h
    obtain ⟨_, _, rfl⟩ := h; exact ⟨rfl, rfl⟩
  rw [if_neg h11] at h
  by_cases h12 : node.op_type = "Transpose"
  · rw [if_pos h12] at h
    simp only [Option.some.injEq] at h; subst h; exact ⟨rfl, rfl⟩
  rw [if_neg h12] at h
  simp only [Option.some.injEq] at h; subst h; exact ⟨rfl, rfl⟩

theorem lower_batchnorm_weights {fadd : F32 → F32 → F32} {graph : GraphProto}
    {w : List (String × Nat)} {bp : List Nat} {node : NodeProto} {low : Lowered}
    (h : lower_batchnorm fadd graph w bp node = some low) :
    ∃ n1 n2 n3 n4, node.input[1]? = some n1 ∧ node.input[2]? = some n2 ∧
      node.input[3]? = some n3 ∧ node.input[4]? = some n4 ∧ low.diag = [] ∧
      low.weight_nodes = (weight_index (weight_index (weight_index
        (weight_index w n1).2 n2).2 n3).2 n4).2 := by
  simp only [lower_batchnorm, Option.bind_eq_bind, Option.bind_eq_some,
    Option.some.injEq] at h
  obtain ⟨n1, h1, a1, _, n2, h2, a3, _, n3, h3, a5, _, n4, h4, a7, _, rfl⟩ := h
  exact ⟨n1, n2, n3, n4, h1, h2, h3, h4, rfl, rfl⟩

theorem lower_conv_weights {graph : GraphProto}
    {w : List (String × Nat)} {bp : List Nat} {node : NodeProto} {low : Lowered}
    (h : lower_conv graph w bp node = some low) :
    ∃ n1, node.input[1]? = some n1 ∧ low.diag = [] ∧
      ((node.input.length = 3 ∧ ∃ n2, node.input[2]? = some n2 ∧
          low.weight_nodes = (weight_index (weight_index w n1).2 n2).2) ∨
       (node.input.length ≠ 3 ∧ low.weight_nodes = (weight_index w n1).2)) := by
  simp only [lower_conv, Option.bind_eq_bind, Option.bind_eq_some, Option.some.injEq] at h
  obtain ⟨n1, h1, a1, _, a2, _, h⟩ := h
  refine ⟨n1, h1, ?_⟩
  by_cases h3 : node.input.length = 3
  · simp only [h3, if_true, ne_eq, one_ne_zero, not_false_eq_true, Option.bind_eq_some,
      Option.some.injEq] at h
    obtain ⟨n2, h2, B, _, rfl⟩ := h
    exact ⟨rfl, Or.inl ⟨h3, n2, h2, rfl⟩⟩
  · simp only [h3, if_false, ne_eq, not_true_eq_false, Option.some.injEq] at h
    subst h
    exact ⟨rfl, Or.inr ⟨h3, rfl⟩⟩

theorem lower_gemm_weights {graph : GraphProto}
    {w : List (String × Nat)} {bp : List Nat} {node : NodeProto} {low : Lowered}
    (h : lower_gemm graph w bp node = some low) :
    low.diag = [] ∧
      (((get_node_attr_f node "alpha" F32.one = F32.one
          ∧ get_node_attr_f node "beta" F32.one = F32.one
          ∧ get_node_attr_i node "transA" 0 = 0 ∧ get_node_attr_i node "transB" 0 = 1
          ∧ get_node_attr_i node "broadcast" 0 = 1) ∧
        ∃ n1 n2, node.input[1]? = some n1 ∧ node.input[2]? = some n2 ∧
          low.weight_nodes = (weight_index (weight_index w n1).2 n2).2) ∨
       (¬ (get_node_attr_f node "alpha" F32.one = F32.one
          ∧ get_node_attr_f node "beta" F32.one = F32.one
          ∧ get_node_attr_i node "transA" 0 = 0 ∧ get_node_attr_i node "transB" 0 = 1
          ∧ get_node_attr_i node "broadcast" 0 = 1) ∧ low.weight_nodes = w)) := by
  unfold lower_gemm at h
  simp only [Option.bind_eq_bind] at h
  by_cases hab : get_node_attr_f node "alpha" F32.one = F32.one
      ∧ get_node_attr_f node "beta" F32.one = F32.one
  · by_cases ht : get_node_attr_i node "transA" 0 = 0 ∧ get_node_attr_i node "transB" 0 = 1
        ∧ get_node_attr_i node "broadcast" 0 = 1
    · rw [if_pos hab, if_pos ht] at h
      simp only [Option.bind_eq_some, Option.some.injEq] at h
      obtain ⟨n1, h1, B, _, n2, h2, C, _, rfl⟩ := h
      exact ⟨rfl, Or.inl ⟨⟨hab.1, hab.2, ht⟩, n1, n2, h1, h2, rfl⟩⟩
    · rw [if_pos hab, if_neg ht] at h
      simp only [Option.some.injEq] at h; subst h
      exact ⟨rfl, Or.inr ⟨fun hc => ht ⟨hc.2.2.1, hc.2.2.2.1, hc.2.2.2.2⟩, rfl⟩⟩
  · rw [if_neg hab] at h
    simp only [Option.some.injEq] at h; subst h
    exact ⟨rfl, Or.inr ⟨fun hc => hab ⟨hc.1, hc.2.1⟩, rfl⟩⟩

theorem mem_lookup_names {node : NodeProto} {k : String} (h : k ∈ lookup_names node) :
    ∃ i ∈ lookup_positions node, node.input[i]? = some k := by
  unfold lookup_names at h
  rw [List.mem_filterMap] at h
  exact h

theorem lookup_names_of_pos {node : NodeProto} {k : String} {i : Nat}
    (hi : i ∈ lookup_positions node) (hk : node.input[i]? = some k) :
    k ∈ lookup_names node := by
  unfold lookup_names
  rw [List.mem_filterMap]
  exact ⟨i, hi, hk⟩

/-- After a lookup in a map that extends `w0` by zero entries, the name looked
up is bound as in `w0`, or to 0 when it was absent, in every later map. -/
theorem zero_ext_lookup_le {w0 w w' : List (String × Nat)} (h : zero_ext w0 w) (x : String)
    (hle : weights_le (weight_index w x).2 w') :
    mfind w' x = some ((mfind w0 x).getD 0) :=
  hle x _ (zero_ext_lookup h x)

/-- The handler of a node binds every name it looks up as the weight map had
it, or to index 0 when the name was absent; it changes no other binding and
prints no message. -/
theorem lower_lookups {fadd : F32 → F32 → F32} {graph : GraphProto}
    {w : List (String × Nat)} {bp : List Nat} {node : NodeProto} {low : Lowered}
    (h : lower fadd graph w bp node = some low) :
    zero_ext w low.weight_nodes ∧
    (∀ k ∈ lookup_names node, mfind low.weight_nodes k = some ((mfind w k).getD 0)) ∧
    (node.op_type = "Conv" ∨ node.op_type = "BatchNormalization" ∨ node.op_type = "Gemm" →
      low.diag = []) := by
  have z0 := zero_ext_refl w
  rcases lower_cases h with ⟨hop, hb⟩ | ⟨hop, hc⟩ | ⟨hop, hg⟩ | ⟨h1, h2, h3, hw, _⟩
  · obtain ⟨n1, n2, n3, n4, e1, e2, e3, e4, hd, hw⟩ := lower_batchnorm_weights hb
    have z1 := zero_ext_step z0 n1
    have z2 := zero_ext_step z1 n2
    have z3 := zero_ext_step z2 n3
    have z4 := zero_ext_step z3 n4
    refine ⟨hw ▸ z4, ?_, fun _ => hd⟩
    intro k hk
    obtain ⟨i, hi, hik⟩ := mem_lookup_names hk
    have hpos : lookup_positions node = [1, 2, 3, 4] := by
      simp [lookup_positions, hop]
    rw [hpos] at hi
    rw [hw]
    simp only [List.mem_cons, List.mem_singleton, List.mem_nil_iff, or_false] at hi
    rcases hi with rfl | rfl | rfl | rfl
    · rw [e1] at hik; cases hik
      exact zero_ext_lookup_le z0 _ (weights_le_trans (weight_index_le _ _)
        (weights_le_trans (weight_index_le _ _) (weight_index_le _ _)))
    · rw [e2] at hik; cases hik
      exact zero_ext_lookup_le z1 _ (weights_le_trans (weight_index_le _ _)
        (weight_index_le _ _))
    · rw [e3] at hik; cases hik
      exact zero_ext_lookup_le z2 _ (weight_index_le _ _)
    · rw [e4] at hik; cases hik
      exact zero_ext_lookup z3 _
  · obtain ⟨n1, e1, hd, ⟨h3, n2, e2, hw⟩ | ⟨h3, hw⟩⟩ := lower_conv_weights hc
    · have z1 := zero_ext_step z0 n1
      have z2 := zero_ext_step z1 n2
      refine ⟨hw ▸ z2, ?_, fun _ => hd⟩
      intro k hk
      obtain ⟨i, hi, hik⟩ := mem_lookup_names hk
      have hpos : lookup_positions node = [1, 2] := by
        simp [lookup_positions, hop, h3]
      rw [hpos] at hi
      rw [hw]
      simp only [List.mem_cons, List.mem_singleton, List.mem_nil_iff, or_false] at hi
      rcases hi with rfl | rfl
      · rw [e1] at hik; cases hik
        exact zero_ext_lookup_le z0 _ (weight_index_le _ _)
      · rw [e2] at hik; cases hik
        exact zero_ext_lookup z1 _
    · have z1 := zero_ext_step z0 n1
      refine ⟨hw ▸ z1, ?_, fun _ => hd⟩
      intro k hk
      obtain ⟨i, hi, hik⟩ := mem_lookup_names hk
      have hpos : lookup_positions node = [1] := by
        simp [lookup_positions, hop, h3]
      rw [hpos] at hi
      rw [hw]
      simp only [List.mem_singleton] at hi
      subst hi
      rw [e1] at hik; cases hik
      exact zero_ext_lookup z0 _
  · obtain ⟨hd, ⟨hcfg, n1, n2, e1, e2, hw⟩ | ⟨hcfg, hw⟩⟩ := lower_gemm_weights hg
    · have z1 := zero_ext_step z0 n1
      have z2 := zero_ext_step z1 n2
      refine ⟨hw ▸ z2, ?_, fun _ => hd⟩
      intro k hk
      obtain ⟨i, hi, hik⟩ := mem_lookup_names hk
      have hpos : lookup_positions node = [1, 2] := by
        simp only [lookup_positions, hop, if_pos hcfg]
        simp
      rw [hpos] at hi
      rw [hw]
      simp only [List.mem_cons, List.mem_singleton, List.mem_nil_iff, or_false] at hi
      rcases hi with rfl | rfl
      · rw [e1] at hik; cases hik
        exact zero_ext_lookup_le z0 _ (weight_index_le _ _)
      · rw [e2] at hik; cases hik
        exact zero_ext_lookup z1 _
    · refine ⟨hw ▸ z0, ?_, fun _ => hd⟩
      intro k hk
      obtain ⟨i, hi, hik⟩ := mem_lookup_names hk
      have hpos : lookup_positions node = [] := by
        simp only [lookup_positions, hop, if_neg hcfg]
        simp
      rw [hpos] at hi; cases hi
  · refine ⟨hw ▸ z0, ?_, ?_⟩
    · intro k hk
      obtain ⟨i, hi, hik⟩ := mem_lookup_names hk
      have hpos : lookup_positions node = [] := by
        simp [lookup_positions, h1, h2, h3]
      rw [hpos] at hi; cases hi
    · rintro (h | h | h)
      · exact absurd h h2
      · exact absurd h h1
      · exact absurd h h3

theorem weight_index_other (w : List (String × Nat)) (x k : String) (h : x ≠ k) :
    mfind (weight_index w x).2 k = mfind w k := by
  unfold weight_index
  cases hf : mfind w x with
  | some j => rfl
  | none => exact mfind_mset_ne _ _ _ _ h

/-- The handler of a node leaves every binding of a name it does not look up
as it is: no such name is added, removed or rebound. -/
theorem lower_other_keys {fadd : F32 → F32 → F32} {graph : GraphProto}
    {w : List (String × Nat)} {bp : List Nat} {node : NodeProto} {low : Lowered}
    (h : lower fadd graph w bp node = some low) (k : String) (hk : k ∉ lookup_names node) :
    mfind low.weight_nodes k = mfind w k := by
  have hne : ∀ i x, i ∈ lookup_positions node → node.input[i]? = some x → x ≠ k := by
    intro i x hi hx hxk
    exact hk (hxk ▸ lookup_names_of_pos hi hx)
  rcases lower_cases h with ⟨hop, hb⟩ | ⟨hop, hc⟩ | ⟨hop, hg⟩ | ⟨_, _, _, hw, _⟩
  · obtain ⟨n1, n2, n3, n4, e1, e2, e3, e4, _, hw⟩ := lower_batchnorm_weights hb
    have hpos : lookup_positions node = [1, 2, 3, 4] := by simp [lookup_positions, hop]
    rw [hw, weight_index_other _ _ _ (hne 4 n4 (by rw [hpos]; simp) e4),
      weight_index_other _ _ _ (hne 3 n3 (by rw [hpos]; simp) e3),
      weight_index_other _ _ _ (hne 2 n2 (by rw [hpos]; simp) e2),
      weight_index_other _ _ _ (hne 1 n1 (by rw [hpos]; simp) e1)]
  · obtain ⟨n1, e1, _, ⟨h3, n2, e2, hw⟩ | ⟨h3, hw⟩⟩ := lower_conv_weights hc
    · have hpos : lookup_positions node = [1, 2] := by simp [lookup_positions, hop, h3]
      rw [hw, weight_index_other _ _ _ (hne 2 n2 (by rw [hpos]; simp) e2),
        weight_index_other _ _ _ (hne 1 n1 (by rw [hpos]; simp) e1)]
    · have hpos : lookup_positions node = [1] := by simp [lookup_positions, hop, h3]
      rw [hw, weight_index_other _ _ _ (hne 1 n1 (by rw [hpos]; simp) e1)]
  · obtain ⟨_, ⟨hcfg, n1, n2, e1, e2, hw⟩ | ⟨_, hw⟩⟩ := lower_gemm_weights hg
    · have hpos : lookup_positions node = [1, 2] := by
        simp only [lookup_positions, hop, if_pos hcfg]
        simp
      rw [hw, weight_index_other _ _ _ (hne 2 n2 (by rw [hpos]; simp) e2),
        weight_index_other _ _ _ (hne 1 n1 (by rw [hpos]; simp) e1)]
    · rw [hw]
  · rw [hw]

/-- C18, as stated, fails: in `graph_missing_weight` the weight name `q` of the
convolution is not in the weight map after the first pass, yet the conversion
goes through without a message: `q` is added to the weight map with index 0 and
the floats written after the four zero bytes are those of initializer 0. -/
theorem C18_counterexample :
    (header graph_missing_weight).map (fun h => mfind h.weight_nodes "q") = some none ∧
    (convert fadd_bits graph_missing_weight).map
        (fun r => (mfind r.2.weight_nodes "q", r.2.bp, r.2.diag))
      = some (some 0, [0, 0, 0, 0, 0, 0, 0, 0, 1, 0, 0, 0, 2, 0, 0, 0, 3, 0, 0, 0], []) := by
  decide

/-- C18, amended: when the handler of a `Conv`, `BatchNormalization` or `Gemm`
node looks up a name that is absent from the weight map, the name is added to
the weight map with index 0 and resolves to the first initializer; no message
is printed, a name that was present keeps its index, and the binding of every
name the handler does not look up is left as it is, so no other key is added.
In particular a `Conv` node with two inputs whose weight name is absent writes
the four zero bytes and the floats of the first initializer. Without any
initializer the read of initializer 0 is out of range: the behaviour of a
`Conv` node whose weight name is absent is then undefined. -/
theorem C18_absent_name_is_index_zero (fadd : F32 → F32 → F32) (graph : GraphProto)
    (weight_nodes : List (String × Nat)) (bp : List Nat) (node : NodeProto) :
    (∀ low, lower fadd graph weight_nodes bp node = some low →
      (∀ k ∈ lookup_names node,
        mfind low.weight_nodes k = some ((mfind weight_nodes k).getD 0)) ∧
      (∀ k v, mfind weight_nodes k = some v → mfind low.weight_nodes k = some v) ∧
      (∀ k, k ∉ lookup_names node → mfind low.weight_nodes k = mfind weight_nodes k) ∧
      (node.op_type = "Conv" ∨ node.op_type = "BatchNormalization" ∨ node.op_type = "Gemm" →
        low.diag = [])) ∧
    (∀ (x q : String) (T : TensorProto) (ts : List TensorProto) (d : Int) (ds : List Int),
      node.op_type = "Conv" → node.input = [x, q] → mfind weight_nodes q = none →
      graph.initializer = T :: ts → T.dims = d :: ds →
      ∃ low, lower fadd graph weight_nodes bp node = some low ∧
        low.bp = bp ++ [0, 0, 0, 0] ++ fwrite_tensor_proto_data T [] ∧
        low.weight_nodes = mset weight_nodes q 0 ∧ low.diag = []) ∧
    (∀ q : String, node.op_type = "Conv" → node.input[1]? = some q →
      mfind weight_nodes q = none → graph.initializer = [] →
      lower fadd graph weight_nodes bp node = none) := by
  refine ⟨?_, ?_, ?_⟩
  · intro low h
    obtain ⟨hz, hl, hd⟩ := lower_lookups h
    exact ⟨hl, hz.1, lower_other_keys h, hd⟩
  · intro x q T ts d ds hop hin hq hinit hd
    rw [lower_of_conv fadd graph weight_nodes bp node hop]
    have hwi : weight_index weight_nodes q = (0, mset weight_nodes q 0) := by
      simp [weight_index, hq]
    have hl : lower_conv graph weight_nodes bp node = some
        ⟨[⟨0, .int (toInt32 d)⟩] ++ pair_params 1 (get_node_attr_ai node "kernel_shape")
            ++ pair_params 2 (get_node_attr_ai node "dilations")
            ++ pair_params 3 (get_node_attr_ai node "strides")
            ++ pads_params 4 (get_node_attr_ai node "pads")
            ++ [⟨5, .int 0⟩, ⟨6, .int (get_tensor_proto_data_size T)⟩]
            ++ (if get_node_attr_i node "group" 1 > 1
                then [⟨7, .int (get_node_attr_i node "group" 1)⟩] else []),
          fwrite_tensor_proto_data T (bp ++ [0, 0, 0, 0]), mset weight_nodes q 0, []⟩ := by
      simp [lower_conv, hin, hwi, hinit, hd]
    refine ⟨_, hl, ?_, rfl, rfl⟩
    simp only []
    rw [fwrite_eq_append T]
  · intro q hop hin hq hinit
    rw [lower_of_conv fadd graph weight_nodes bp node hop]
    simp [lower_conv, hin, weight_index, hq, hinit]

/-- Witness of C18: the convolution of `graph_missing_weight`. -/
theorem C18_absent_name_is_index_zero_witness :
    ∃ low, lower fadd_bits graph_missing_weight [("w0", 0)] [9]
        ⟨"Conv", "", ["x", "q"], ["y"], []⟩ = some low ∧
      low.bp = [9] ++ [0, 0, 0, 0]
        ++ fwrite_tensor_proto_data ⟨"w0", [4], 1, floats4 0, none⟩ [] ∧
      low.weight_nodes = mset [("w0", 0)] "q" 0 ∧ low.diag = [] :=
  (C18_absent_name_is_index_zero fadd_bits graph_missing_weight [("w0", 0)] [9]
    ⟨"Conv", "", ["x", "q"], ["y"], []⟩).2.1 "x" "q" ⟨"w0", [4], 1, floats4 0, none⟩ [] 4 []
    rfl rfl rfl rfl rfl

/-! ## Lemmas on the line count -/

theorem is_weight_reshape_congr {w w' : List (String × Nat)} (node : NodeProto)
    (h : ∀ k, mhas w k = mhas w' k) :
    is_weight_reshape w node = is_weight_reshape w' node := by
  unfold is_weight_reshape
  rw [h]

theorem weight_index_snd_of_mhas {w : List (String × Nat)} {k : String}
    (h : mhas w k = true) : (weight_index w k).2 = w := by
  unfold weight_index
  cases hf : mfind w k with
  | some j => rfl
  | none => simp [mhas, hf] at h

/-- A handler whose lookups all succeed leaves the weight map as it is. -/
theorem lower_weights_eq {fadd : F32 → F32 → F32} {graph : GraphProto}
    {w : List (String × Nat)} {bp : List Nat} {node : NodeProto} {low : Lowered}
    (h : lower fadd graph w bp node = some low)
    (hl : ∀ k ∈ lookup_names node, mhas w k = true) : low.weight_nodes = w := by
  rcases lower_cases h with ⟨hop, hb⟩ | ⟨hop, hc⟩ | ⟨hop, hg⟩ | ⟨_, _, _, hw, _⟩
  · obtain ⟨n1, n2, n3, n4, e1, e2, e3, e4, _, hw⟩ := lower_batchnorm_weights hb
    have hpos : lookup_positions node = [1, 2, 3, 4] := by simp [lookup_positions, hop]
    have m1 := hl n1 (lookup_names_of_pos (by rw [hpos]; simp) e1)
    have m2 := hl n2 (lookup_names_of_pos (by rw [hpos]; simp) e2)
    have m3 := hl n3 (lookup_names_of_pos (by rw [hpos]; simp) e3)
    have m4 := hl n4 (lookup_names_of_pos (by rw [hpos]; simp) e4)
    rw [hw, weight_index_snd_of_mhas m1, weight_index_snd_of_mhas m2,
      weight_index_snd_of_mhas m3, weight_index_snd_of_mhas m4]
  · obtain ⟨n1, e1, _, ⟨h3, n2, e2, hw⟩ | ⟨h3, hw⟩⟩ := lower_conv_weights hc
    · have hpos : lookup_positions node = [1, 2] := by simp [lookup_positions, hop, h3]
      have m1 := hl n1 (lookup_names_of_pos (by rw [hpos]; simp) e1)
      have m2 := hl n2 (lookup_names_of_pos (by rw [hpos]; simp) e2)
      rw [hw, weight_index_snd_of_mhas m1, weight_index_snd_of_mhas m2]
    · have hpos : lookup_positions node = [1] := by simp [lookup_positions, hop, h3]
      have m1 := hl n1 (lookup_names_of_pos (by rw [hpos]; simp) e1)
      rw [hw, weight_index_snd_of_mhas m1]
  · obtain ⟨_, ⟨hcfg, n1, n2, e1, e2, hw⟩ | ⟨_, hw⟩⟩ := lower_gemm_weights hg
    · have hpos : lookup_positions node = [1, 2] := by
        simp only [lookup_positions, hop, if_pos hcfg]
        simp
      have m1 := hl n1 (lookup_names_of_pos (by rw [hpos]; simp) e1)
      have m2 := hl n2 (lookup_names_of_pos (by rw [hpos]; simp) e2)
      rw [hw, weight_index_snd_of_mhas m1, weight_index_snd_of_mhas m2]
    · exact hw
  · exact hw

theorem emit_inputs_other (w : List (String × Nat)) (a : String) (xs : List String)
    (nr : List (String × Int)) (ha : a ∉ xs) :
    mfind (emit_inputs w nr xs).1 a = mfind nr a := by
  induction xs generalizing nr with
  | nil => rfl
  | cons x xs ih =>
    have hxa : x ≠ a := fun h => ha (h ▸ List.mem_cons_self _ _)
    have ha' : a ∉ xs := fun h => ha (List.mem_cons_of_mem _ h)
    unfold emit_inputs
    by_cases hw : mhas w x = true
    · simp only [hw, if_true]; exact ih nr ha'
    · simp only [hw, Bool.false_eq_true, if_false]
      cases hf : mfind nr x with
      | none => simp only; exact ih nr ha'
      | some c =>
        simp only
        rw [ih _ ha', mfind_mset_ne _ _ _ _ hxa]

theorem emit_splits_length (nr : List (String × Int)) (os : List String) (k : Nat) :
    (emit_splits nr k os).2.length = (os.filter (wants_split nr)).length := by
  induction os generalizing k with
  | nil => rfl
  | cons o os ih =>
    unfold emit_splits
    rw [List.filter_cons]
    cases hf : mfind nr o with
    | none => simp [wants_split, hf, ih]
    | some c =>
      by_cases hc : c > 1
      · simp [wants_split, hf, hc, ih]
      · simp [wants_split, hf, hc, ih]

theorem length_emit_graph_inputs (w : List (String × Nat)) (xs : List String) :
    (emit_graph_inputs w xs).length = (xs.filter (fun x => !mhas w x)).length := by
  induction xs with
  | nil => rfl
  | cons x xs ih =>
    unfold emit_graph_inputs
    by_cases hw : mhas w x = true
    · simp [hw, ih]
    · simp [hw, ih]

/-- The second pass keeps the keys of the weight map when every handler lookup
succeeds and every node it skips has its name among the keys. -/
theorem emit_node_keys {fadd : F32 → F32 → F32} {graph : GraphProto}
    (w0 : List (String × Nat)) (node : NodeProto) (st st1 : Emit)
    (h1 : emit_node fadd graph st node = some st1)
    (hk : ∀ k, mhas st.weight_nodes k = mhas w0 k)
    (hl : ∀ k ∈ lookup_names node, mhas w0 k = true)
    (hreg : is_weight_reshape w0 node = true → ∀ name, node_name node = some name →
      mhas w0 name = true) :
    ∀ k, mhas st1.weight_nodes k = mhas w0 k := by
  rcases emit_node_cases h1 with ⟨hw, name, hname, rfl⟩ | ⟨_, name, low, _, hlow, rfl⟩
  · intro k
    rw [is_weight_reshape_congr node hk] at hw
    have hn := hreg hw name hname
    simp only [register_alias, mhas_mset, hk]
    by_cases hnk : name = k
    · subst hnk; simp [hn]
    · simp [hnk]
  · intro k
    have := lower_weights_eq hlow (fun k' hk' => by rw [hk]; exact hl k' hk')
    simp only [this]; exact hk k

theorem emit_nodes_keys {fadd : F32 → F32 → F32} {graph : GraphProto}
    (w0 : List (String × Nat)) (nodes : List NodeProto) (st st' : Emit)
    (h : emit_nodes fadd graph st nodes = some st')
    (hk : ∀ k, mhas st.weight_nodes k = mhas w0 k)
    (hl : ∀ node ∈ nodes, ∀ k ∈ lookup_names node, mhas w0 k = true)
    (hreg : ∀ node ∈ nodes, is_weight_reshape w0 node = true →
      ∀ name, node_name node = some name → mhas w0 name = true) :
    ∀ k, mhas st'.weight_nodes k = mhas w0 k := by
  induction nodes generalizing st with
  | nil => simp only [emit_nodes, Option.some.injEq] at h; subst h; exact hk
  | cons node nodes ih =>
    obtain ⟨st1, h1, h2⟩ := emit_nodes_cons h
    exact ih st1 h2
      (emit_node_keys w0 node st st1 h1 hk (hl node (List.mem_cons_self _ _))
        (hreg node (List.mem_cons_self _ _)))
      (fun nd hnd => hl nd (List.mem_cons_of_mem _ hnd))
      (fun nd hnd => hreg nd (List.mem_cons_of_mem _ hnd))

theorem is_weight_reshape_eq_of_inputs {w w' : List (String × Nat)} (node : NodeProto)
    (h : ∀ x ∈ node.input, mhas w x = mhas w' x) :
    is_weight_reshape w node = is_weight_reshape w' node := by
  unfold is_weight_reshape
  by_cases hl : node.input.length = 1
  · match hi : node.input, hl with
    | [x], _ =>
      have := h x (by rw [hi]; exact List.mem_cons_self _ _)
      simp [this]
  · simp [hl]

theorem filter_flatMap_sublist {α β : Type} (p : α → Bool) (f : α → List β) (l : List α) :
    ((l.filter p).flatMap f).Sublist (l.flatMap f) := by
  induction l with
  | nil => exact List.Sublist.refl _
  | cons a l ih =>
    rw [List.filter_cons]
    by_cases hp : p a = true
    · simp only [hp, if_true, List.flatMap_cons]
      exact List.Sublist.append (List.Sublist.refl _) ih
    · simp only [hp, Bool.false_eq_true, if_false, List.flatMap_cons]
      exact List.Sublist.trans ih (List.sublist_append_right _ _)

/-- The nodes the first pass skips are those whose only input is a key of the
final weight map, when every constant is registered before it is used; the name
of each of them is a key of the final weight map. -/
theorem prep_nodes_elided (w0 : List (String × Nat)) (nodes : List NodeProto) (st st' : Prep)
    (h : prep_nodes st nodes = some st')
    (hsub : ∀ k, mhas st'.weight_nodes k = true → mhas w0 k = true)
    (hready : constants_ready w0 st nodes = true) :
    (elided_names st nodes).length = (nodes.filter (is_weight_reshape w0)).length ∧
    ∀ node ∈ nodes, is_weight_reshape w0 node = true →
      ∀ name, node_name node = some name → mhas w0 name = true := by
  induction nodes generalizing st with
  | nil => simp [elided_names]
  | cons node nodes ih =>
    obtain ⟨st1, h1, h2⟩ := prep_nodes_cons h
    unfold constants_ready at hready
    simp only [h1, Bool.and_eq_true, List.all_eq_true, Bool.or_eq_true,
      Bool.not_eq_true_eq_eq_false] at hready
    obtain ⟨hin, hrest⟩ := hready
    have heq : is_weight_reshape st.weight_nodes node = is_weight_reshape w0 node := by
      apply is_weight_reshape_eq_of_inputs
      intro x hx
      cases hx0 : mhas w0 x with
      | true =>
        rcases hin x hx with hf | ht
        · rw [hx0] at hf; exact absurd hf (by decide)
        · exact ht
      | false =>
        cases hxs : mhas st.weight_nodes x with
        | false => rfl
        | true =>
          have := hsub x (prep_nodes_weights_mono h2 x (prep_node_weights_mono h1 x hxs))
          rw [hx0] at this; exact absurd this (by decide)
    obtain ⟨ih1, ih2⟩ := ih st1 h2 hrest
    constructor
    · rw [elided_names_cons h1, List.filter_cons, heq, List.length_append, ih1]
      by_cases hw : is_weight_reshape w0 node = true
      · simp [hw]; omega
      · simp [hw]
    · intro nd hnd hw name hname
      rcases List.mem_cons.1 hnd with rfl | hnd
      · rw [← heq] at hw
        rcases prep_node_cases h1 with ⟨_, name', hname', rfl⟩ | ⟨hw', _⟩
        · rw [hname] at hname'
          cases hname'
          apply hsub
          apply prep_nodes_weights_mono h2
          simp [register_alias, mhas_mset]
        · rw [hw] at hw'; exact absurd hw' (by decide)
      · exact ih2 nd hnd hw name hname

/-- The lines a run of the second pass adds: one per node that is not skipped,
and one `Split` line per output of such a node that has a count above one. -/
theorem emit_nodes_length {fadd : F32 → F32 → F32} {graph : GraphProto}
    (w0 : List (String × Nat)) (nr0 : List (String × Int))
    (nodes : List NodeProto) (seen : List String) (st st' : Emit)
    (h : emit_nodes fadd graph st nodes = some st')
    (hk : ∀ k, mhas st.weight_nodes k = mhas w0 k)
    (hnr : ∀ a, a ∉ seen → mfind st.node_reference a = mfind nr0 a)
    (hfresh : outputs_fresh seen nodes = true)
    (hl : ∀ node ∈ nodes, ∀ k ∈ lookup_names node, mhas w0 k = true)
    (hreg : ∀ node ∈ nodes, is_weight_reshape w0 node = true →
      ∀ name, node_name node = some name → mhas w0 name = true) :
    st'.pp.length = st.pp.length
      + (nodes.filter (fun nd => !is_weight_reshape w0 nd)).length
      + (((nodes.filter (fun nd => !is_weight_reshape w0 nd)).flatMap
          (fun nd => nd.output)).filter (wants_split nr0)).length := by
  induction nodes generalizing st seen with
  | nil => simp only [emit_nodes, Option.some.injEq] at h; subst h; simp
  | cons node nodes ih =>
    obtain ⟨st1, h1, h2⟩ := emit_nodes_cons h
    unfold outputs_fresh at hfresh
    simp only [Bool.and_eq_true, List.all_eq_true, decide_eq_true_eq] at hfresh
    obtain ⟨hout, hrest⟩ := hfresh
    have hk1 := emit_node_keys w0 node st st1 h1 hk (hl node (List.mem_cons_self _ _))
      (hreg node (List.mem_cons_self _ _))
    have hl1 : ∀ nd ∈ nodes, ∀ k ∈ lookup_names nd, mhas w0 k = true :=
      fun nd hnd => hl nd (List.mem_cons_of_mem _ hnd)
    have hreg1 : ∀ nd ∈ nodes, is_weight_reshape w0 nd = true →
        ∀ name, node_name nd = some name → mhas w0 name = true :=
      fun nd hnd => hreg nd (List.mem_cons_of_mem _ hnd)
    have hcg := is_weight_reshape_congr node hk
    rcases emit_node_cases h1 with ⟨hw, name, _, rfl⟩ | ⟨hw, name, low, _, _, rfl⟩
    · rw [hcg] at hw
      have hih := ih (seen ++ node.input) _ h2 hk1
        (fun a ha => hnr a (fun hs => ha (List.mem_append_left _ hs))) hrest hl1 hreg1
      rw [hih, List.filter_cons]
      simp [hw]
    · rw [hcg] at hw
      have hnr1 : ∀ a, a ∉ seen ++ node.input →
          mfind (emit_inputs st.weight_nodes st.node_reference node.input).1 a = mfind nr0 a := by
        intro a ha
        rw [emit_inputs_other _ _ _ _ (fun hi => ha (List.mem_append_right _ hi))]
        exact hnr a (fun hs => ha (List.mem_append_left _ hs))
      have hih := ih (seen ++ node.input) _ h2 hk1 hnr1 hrest hl1 hreg1
      have hsp : node.output.filter
            (wants_split (emit_inputs st.weight_nodes st.node_reference node.input).1)
          = node.output.filter (wants_split nr0) := by
        apply List.filter_congr
        intro o ho
        unfold wants_split
        rw [hnr1 o (hout o ho)]
      rw [hih, List.filter_cons]
      simp only [hw, Bool.not_false, if_true, List.flatMap_cons, List.filter_append,
        List.length_append, List.length_cons, emit_splits_length, hsp]
      omega

theorem header_refs_gt_one {graph : GraphProto} {h : Header} (hh : header graph = some h)
    (a : String) (v : Int) (hf : mfind h.node_reference a = some v) : v > 1 := by
  obtain ⟨pst, hp, _, hr, _, _, _⟩ := header_cases hh
  have hinv := prep_nodes_inv graph.node (prep_start graph) pst hp
    (by intro k v hk; simp [prep_start, mfind] at hk) (by simp [prep_start, keys])
  have hrc := header_ref_count hp hr a
  rw [hf] at hrc
  cases hp0 : mfind pst.node_reference a with
  | none => simp [hp0] at hrc
  | some u =>
    have h1 := hinv.1 a u hp0
    simp only [hp0] at hrc
    split at hrc
    · simp only [Option.some.injEq] at hrc
      omega
    · cases hrc

theorem header_refs_nodup {graph : GraphProto} {h : Header} (hh : header graph = some h) :
    (keys h.node_reference).Nodup := by
  obtain ⟨pst, hp, _, hr, _, _, _⟩ := header_cases hh
  have hinv := prep_nodes_inv graph.node (prep_start graph) pst hp
    (by intro k v hk; simp [prep_start, mfind] at hk) (by simp [prep_start, keys])
  rw [hr]
  exact List.Nodup.sublist (List.Sublist.map _ (List.filter_sublist _)) hinv.2

theorem wants_split_header {graph : GraphProto} {h : Header} (hh : header graph = some h)
    (o : String) : wants_split h.node_reference o = decide (o ∈ keys h.node_reference) := by
  unfold wants_split
  cases hf : mfind h.node_reference o with
  | none =>
    have : mhas h.node_reference o = false := by simp [mhas, hf]
    have hn : o ∉ keys h.node_reference := by
      intro hm
      rw [(mhas_iff_mem_keys _ _).2 hm] at this
      cases this
    simp [hn]
  | some v =>
    have hv := header_refs_gt_one hh o v hf
    have hm := (mhas_iff_mem_keys _ _).1 (mhas_of_mfind hf)
    simp [hv, hm]

/-- Among names without repetition that include every key, the keys are as many
as the names that are keys. -/
theorem length_filter_mem_keys (l k : List String) (hl : l.Nodup) (hk : k.Nodup)
    (hsub : ∀ a ∈ k, a ∈ l) : (l.filter (fun o => decide (o ∈ k))).length = k.length := by
  apply List.Perm.length_eq
  rw [List.perm_ext_iff_of_nodup (List.Nodup.filter _ hl) hk]
  intro a
  simp only [List.mem_filter, decide_eq_true_eq]
  exact ⟨fun h => h.2, fun h => ⟨hsub a h, h⟩⟩

/-! ## The line count and the header -/

/-- C19, as stated, fails: `graph_named_reshape` is in topological order (no
output is read by its own node or by an earlier one, and the constant `w` is
registered before the reshape reads it), its initializer name `w`, registered
name `r` and output names `a`, `b`, `c` are pairwise distinct, no handler looks
a constant up, and the only value with two consumers, `a`, is the output of a
node and not a declared input. The header declares 3 layers and 2 lines are
printed: the node that outputs `a` is the reshape the passes skip, so the
`Split` line the header counts for `a` is never printed. -/
theorem C19_counterexample :
    outputs_fresh [] graph_named_reshape.node = true ∧
    (graph_named_reshape.initializer.map (fun t => t.name)
      ++ elided_names (prep_start graph_named_reshape) graph_named_reshape.node
      ++ graph_named_reshape.node.flatMap (fun nd => nd.output)).Nodup ∧
    (∀ nd ∈ graph_named_reshape.node, lookup_names nd = []) ∧
    (∀ a ∈ ["a"], a ∉ graph_named_reshape.input
      ∧ ∃ nd ∈ graph_named_reshape.node, a ∈ nd.output) ∧
    (convert fadd_bits graph_named_reshape).map
        (fun r => (constants_ready r.1.weight_nodes (prep_start graph_named_reshape)
            graph_named_reshape.node,
          keys r.1.node_reference, r.1.layer_count, r.2.pp.length))
      = some (true, ["a"], 3, 2) := by
  decide

/-- C19, amended: let the conversion of a graph succeed, the initializer names
and the names registered by the skipped reshape nodes be pairwise distinct, the
output names of the nodes be pairwise distinct, no output be read by its own
node or by an earlier one, every input that is a key of the final weight map be
a key already when its node is visited, every constant a handler looks up be a
key of the weight map, and every name with a count left by the pruning be an
output of a node that is NOT a skipped reshape. Then the number of lines
printed after the header (`Input`, node and `Split` lines) is the layer count
of the header. -/
theorem C19_lines_match_header (fadd : F32 → F32 → F32) (graph : GraphProto)
    (h : Header) (st : Emit) (hc : convert fadd graph = some (h, st))
    (hD1 : (graph.initializer.map (fun t => t.name)
      ++ elided_names (prep_start graph) graph.node).Nodup)
    (hD2 : (graph.node.flatMap (fun nd => nd.output)).Nodup)
    (hT1 : outputs_fresh [] graph.node = true)
    (hT2 : constants_ready h.weight_nodes (prep_start graph) graph.node = true)
    (hL : ∀ nd ∈ graph.node, ∀ k ∈ lookup_names nd, mhas h.weight_nodes k = true)
    (hF : ∀ a ∈ keys h.node_reference, ∃ nd ∈ graph.node,
      is_weight_reshape h.weight_nodes nd = false ∧ a ∈ nd.output) :
    (st.pp.length : Int) = h.layer_count := by
  obtain ⟨hh, he⟩ := convert_cases hc
  obtain ⟨pst, hp, hwn, hr, hl, _, _⟩ := header_cases hh
  -- the first pass
  obtain ⟨hel, hreg⟩ := prep_nodes_elided h.weight_nodes graph.node (prep_start graph) pst hp
    (fun k hk => by rw [hwn]; exact hk) hT2
  have hk0 : keys (prep_start graph).weight_nodes = graph.initializer.map (fun t => t.name) := by
    have := keys_init_weights graph.initializer [] 0
      (by simpa [keys] using (List.nodup_append.1 hD1).1)
    simpa [prep_start, keys] using this
  have hk := keys_prep_nodes graph.node (prep_start graph) pst hp (by rw [hk0]; exact hD1)
  have hlen : pst.weight_nodes.length
      = graph.initializer.length + (elided_names (prep_start graph) graph.node).length := by
    have := congrArg List.length hk
    rw [hk0] at this
    simpa [keys] using this
  have hcnt := prep_graph_inputs_count pst.weight_nodes graph.input (0, pst.blob_names)
  simp only [Nat.zero_add] at hcnt
  -- the second pass
  have hpp := emit_nodes_length h.weight_nodes h.node_reference graph.node []
    (emit_start graph h) st he (fun k => rfl) (fun a _ => rfl) hT1 hL hreg
  have hin : (emit_start graph h).pp.length
      = (graph.input.filter (fun x => !mhas h.weight_nodes x)).length := by
    simp only [emit_start]; exact length_emit_graph_inputs _ _
  have hsplit : (((graph.node.filter (fun nd => !is_weight_reshape h.weight_nodes nd)).flatMap
        (fun nd => nd.output)).filter (wants_split h.node_reference)).length
      = h.node_reference.length := by
    have hfun : wants_split h.node_reference
        = fun o => decide (o ∈ keys h.node_reference) := funext (wants_split_header hh)
    rw [hfun, length_filter_mem_keys _ _
      (List.Nodup.sublist (filter_flatMap_sublist _ _ _) hD2) (header_refs_nodup hh)]
    · simp [keys]
    · intro a ha
      obtain ⟨nd, hnd, hw, hout⟩ := hF a ha
      exact List.mem_flatMap.2 ⟨nd, List.mem_filter.2 ⟨hnd, by simp [hw]⟩, hout⟩
  have hsk := List.length_eq_length_filter_add (l := graph.node)
    (is_weight_reshape h.weight_nodes)
  rw [hpp, hin, hsplit, hl, hcnt, hlen, ← hr, ← hwn, hel]
  push_cast
  omega

/-- Witness of C19: a weight reshape, a convolution that takes its output as
weight, and two consumers of the output of the convolution (5 lines). -/
theorem C19_lines_match_header_witness :
    (((convert fadd_bits graph_fanout).get (by decide)).2.pp.length : Int)
      = ((convert fadd_bits graph_fanout).get (by decide)).1.layer_count :=
  C19_lines_match_header fadd_bits graph_fanout
    ((convert fadd_bits graph_fanout).get (by decide)).1
    ((convert fadd_bits graph_fanout).get (by decide)).2
    (by decide) (by decide) (by decide) (by decide) (by decide) (by decide) (by decide)

/-! ## The nodes skipped by the two passes -/

theorem constants_ready_append (w0 : List (String × Nat)) (l1 l2 : List NodeProto)
    (st st1 : Prep) (h1 : prep_nodes st l1 = some st1)
    (hready : constants_ready w0 st (l1 ++ l2) = true) : constants_ready w0 st1 l2 = true := by
  induction l1 generalizing st with
  | nil => simp only [prep_nodes, Option.some.injEq] at h1; subst h1; exact hready
  | cons node l1 ih =>
    obtain ⟨s1, h2, h3⟩ := prep_nodes_cons h1
    rw [List.cons_append] at hready
    unfold constants_ready at hready
    simp only [h2, Bool.and_eq_true] at hready
    exact ih s1 h3 hready.2

/-- A node the first pass visits when every constant is registered before it is
used is skipped exactly when its only input is a key of the final weight map. -/
theorem constants_ready_head (w0 : List (String × Nat)) (node : NodeProto)
    (nodes : List NodeProto) (st st' : Prep) (h : prep_nodes st (node :: nodes) = some st')
    (hsub : ∀ k, mhas st'.weight_nodes k = true → mhas w0 k = true)
    (hready : constants_ready w0 st (node :: nodes) = true) :
    is_weight_reshape st.weight_nodes node = is_weight_reshape w0 node := by
  unfold constants_ready at hready
  simp only [Bool.and_eq_true, List.all_eq_true, Bool.or_eq_true,
    Bool.not_eq_true_eq_eq_false] at hready
  apply is_weight_reshape_eq_of_inputs
  intro x hx
  cases hx0 : mhas w0 x with
  | true =>
    rcases hready.1 x hx with hf | ht
    · rw [hx0] at hf; exact absurd hf (by decide)
    · exact ht
  | false =>
    cases hxs : mhas st.weight_nodes x with
    | false => rfl
    | true =>
      have := hsub x (prep_nodes_weights_mono h x hxs)
      rw [hx0] at this; exact absurd this (by decide)

/-- C20, as stated, fails: in `graph_late_alias` the first node is a reshape of
`a`, and `a` is registered only by the second node. The first pass does not
skip the first node (`a` is no key yet, and `a` gets a count of one); the
second pass starts from the map the first pass left, where `a` is a key, and
skips it: no line is printed for it, and no line at all. -/
theorem C20_counterexample :
    graph_late_alias.node.head? = some ⟨"Reshape", "", ["a"], ["b"], []⟩ ∧
    is_weight_reshape (prep_start graph_late_alias).weight_nodes
      ⟨"Reshape", "", ["a"], ["b"], []⟩ = false ∧
    (prep_pass graph_late_alias).map (fun s => s.node_reference) = some [("a", 1)] ∧
    (header graph_late_alias).map
        (fun h => (keys h.weight_nodes,
          (emit_node fadd_bits graph_late_alias (emit_start graph_late_alias h)
            ⟨"Reshape", "", ["a"], ["b"], []⟩).map (fun s => s.pp)))
      = some (["w", "a"], some []) ∧
    (convert fadd_bits graph_late_alias).map (fun r => r.2.pp) = some [] := by
  decide

/-- C20, amended: let the conversion of a graph succeed, every input that is a
key of the final weight map be a key already when the first pass visits its
node, and every constant a handler looks up be a key of the weight map. Then
for every node, with `ps` and `se` the states in which the first and the second
pass reach it: the second pass applies its skip test with the same result as the
first; a node the first pass skips (a `Reshape` with exactly one input, a key of
the weight map) leaves the lines, the counts and the weight stream as they
are; every other node, a `Reshape` included, appends its layer line, of the
type of its operator, with the input names the counts give, followed by its
`Split` lines. -/
theorem C20_skipped_iff_elided (fadd : F32 → F32 → F32) (graph : GraphProto)
    (h : Header) (st : Emit) (hc : convert fadd graph = some (h, st))
    (hT2 : constants_ready h.weight_nodes (prep_start graph) graph.node = true)
    (hL : ∀ nd ∈ graph.node, ∀ k ∈ lookup_names nd, mhas h.weight_nodes k = true)
    (pre : List NodeProto) (nd : NodeProto) (post : List NodeProto)
    (hg : graph.node = pre ++ nd :: post) :
    ∃ ps se se1, prep_nodes (prep_start graph) pre = some ps ∧
      emit_nodes fadd graph (emit_start graph h) pre = some se ∧
      emit_node fadd graph se nd = some se1 ∧
      is_weight_reshape se.weight_nodes nd = is_weight_reshape ps.weight_nodes nd ∧
      (is_weight_reshape ps.weight_nodes nd = true ↔
        (nd.op_type = "Reshape" ∧ nd.input.length = 1
          ∧ mhas ps.weight_nodes (nd.input.getD 0 "") = true)) ∧
      (is_weight_reshape ps.weight_nodes nd = true →
        se1.pp = se.pp ∧ se1.node_reference = se.node_reference ∧ se1.bp = se.bp) ∧
      (is_weight_reshape ps.weight_nodes nd = false →
        ∃ layer, se1.pp = se.pp ++ Line.node layer
            :: (emit_splits se1.node_reference se.internal_split nd.output).2 ∧
          layer.type = layer_type nd ∧
          (nd.op_type = "Reshape" → layer.type = "Reshape") ∧
          layer.inputs = (emit_inputs se.weight_nodes se.node_reference nd.input).2 ∧
          se1.node_reference
            = (emit_inputs se.weight_nodes se.node_reference nd.input).1) := by
  obtain ⟨hh, he⟩ := convert_cases hc
  obtain ⟨pst, hp, hwn, _, _, _, _⟩ := header_cases hh
  have hsub : ∀ k, mhas pst.weight_nodes k = true → mhas h.weight_nodes k = true :=
    fun k hk => by rw [hwn]; exact hk
  obtain ⟨_, hreg⟩ := prep_nodes_elided h.weight_nodes graph.node (prep_start graph) pst hp
    hsub hT2
  unfold prep_pass at hp
  rw [hg] at hp he hT2
  obtain ⟨ps, hp1, hp2⟩ := prep_nodes_append pre (nd :: post) hp
  obtain ⟨se, he1, he2⟩ := emit_nodes_append pre (nd :: post) he
  obtain ⟨se1, he3, _⟩ := emit_nodes_cons he2
  have hpre : ∀ n ∈ pre, n ∈ graph.node := fun n hn => by
    rw [hg]; exact List.mem_append_left _ hn
  have hkeys := emit_nodes_keys h.weight_nodes pre (emit_start graph h) se he1 (fun k => rfl)
    (fun n hn => hL n (hpre n hn)) (fun n hn => hreg n (hpre n hn))
  have hps := constants_ready_head h.weight_nodes nd post ps pst hp2 hsub
    (constants_ready_append h.weight_nodes pre (nd :: post) (prep_start graph) ps hp1 hT2)
  have heq : is_weight_reshape se.weight_nodes nd = is_weight_reshape ps.weight_nodes nd := by
    rw [is_weight_reshape_congr nd hkeys, hps]
  refine ⟨ps, se, se1, hp1, he1, he3, heq, ?_, ?_, ?_⟩
  · unfold is_weight_reshape
    simp only [Bool.and_eq_true, decide_eq_true_eq, and_assoc]
  · intro hw
    rcases emit_node_cases he3 with ⟨_, name, _, rfl⟩ | ⟨hw', _⟩
    · exact ⟨rfl, rfl, rfl⟩
    · rw [heq, hw] at hw'; exact absurd hw' (by decide)
  · intro hw
    rcases emit_node_cases he3 with ⟨hw', _⟩ | ⟨_, name, low, _, _, rfl⟩
    · rw [heq, hw] at hw'; exact absurd hw' (by decide)
    · refine ⟨_, rfl, rfl, ?_, rfl, rfl⟩
      intro hop
      simp [layer_type, hop]

/-- Witness of C20: the convolution of `graph_fanout`, after the weight reshape
that both passes skip. -/
theorem C20_skipped_iff_elided_witness :
    ∃ ps se se1, prep_nodes (prep_start graph_fanout) [⟨"Reshape", "", ["w0"], ["wr"], []⟩]
        = some ps ∧
      emit_nodes fadd_bits graph_fanout
        (emit_start graph_fanout ((convert fadd_bits graph_fanout).get (by decide)).1)
        [⟨"Reshape", "", ["w0"], ["wr"], []⟩] = some se ∧
      emit_node fadd_bits graph_fanout se ⟨"Conv", "", ["x", "wr"], ["a"], []⟩ = some se1 ∧
      is_weight_reshape se.weight_nodes ⟨"Conv", "", ["x", "wr"], ["a"], []⟩
        = is_weight_reshape ps.weight_nodes ⟨"Conv", "", ["x", "wr"], ["a"], []⟩ ∧
      (is_weight_reshape ps.weight_nodes ⟨"Conv", "", ["x", "wr"], ["a"], []⟩ = true ↔
        ((⟨"Conv", "", ["x", "wr"], ["a"], []⟩ : NodeProto).op_type = "Reshape"
          ∧ (⟨"Conv", "", ["x", "wr"], ["a"], []⟩ : NodeProto).input.length = 1
          ∧ mhas ps.weight_nodes
            ((⟨"Conv", "", ["x", "wr"], ["a"], []⟩ : NodeProto).input.getD 0 "") = true)) ∧
      (is_weight_reshape ps.weight_nodes ⟨"Conv", "", ["x", "wr"], ["a"], []⟩ = true →
        se1.pp = se.pp ∧ se1.node_reference = se.node_reference ∧ se1.bp = se.bp) ∧
      (is_weight_reshape ps.weight_nodes ⟨"Conv", "", ["x", "wr"], ["a"], []⟩ = false →
        ∃ layer, se1.pp = se.pp ++ Line.node layer
            :: (emit_splits se1.node_reference se.internal_split
              (⟨"Conv", "", ["x", "wr"], ["a"], []⟩ : NodeProto).output).2 ∧
          layer.type = layer_type ⟨"Conv", "", ["x", "wr"], ["a"], []⟩ ∧
          ((⟨"Conv", "", ["x", "wr"], ["a"], []⟩ : NodeProto).op_type = "Reshape"
            → layer.type = "Reshape") ∧
          layer.inputs = (emit_inputs se.weight_nodes se.node_reference
            (⟨"Conv", "", ["x", "wr"], ["a"], []⟩ : NodeProto).input).2 ∧
          se1.node_reference = (emit_inputs se.weight_nodes se.node_reference
            (⟨"Conv", "", ["x", "wr"], ["a"], []⟩ : NodeProto).input).1) :=
  C20_skipped_iff_elided fadd_bits graph_fanout
    ((convert fadd_bits graph_fanout).get (by decide)).1
    ((convert fadd_bits graph_fanout).get (by decide)).2
    (by decide) (by decide) (by decide)
    [⟨"Reshape", "", ["w0"], ["wr"], []⟩] ⟨"Conv", "", ["x", "wr"], ["a"], []⟩
    [mk_node "Relu" ["a"] ["b"], mk_node "Dropout" ["a"] ["c"]] rfl

/-! ## The counts of the first pass -/

theorem counted_slots_cons (a : String) {st st1 : Prep} {node : NodeProto}
    {nodes : List NodeProto} (h1 : prep_node st node = some st1) :
    counted_slots a st (node :: nodes)
      = (if is_weight_reshape st.weight_nodes node || mhas st.weight_nodes a then 0
          else node.input.count a)
        + counted_slots a st1 nodes := by
  simp [counted_slots, h1]

/-- The count of a name after a run of the first pass is its count before plus
the number of input slots counted. -/
theorem prep_nodes_counted (a : String) (nodes : List NodeProto) (st st' : Prep)
    (h : prep_nodes st nodes = some st') :
    ref_count st'.node_reference a
      = ref_count st.node_reference a + counted_slots a st nodes := by
  induction nodes generalizing st with
  | nil =>
    simp only [prep_nodes, Option.some.injEq] at h; subst h
    simp [counted_slots]
  | cons node nodes ih =>
    obtain ⟨st1, h1, h2⟩ := prep_nodes_cons h
    rw [ih st1 h2, counted_slots_cons a h1]
    rcases prep_node_cases h1 with ⟨hw, name, _, rfl⟩ | ⟨hw, rfl⟩
    · simp [hw]
    · have hfold := ref_count_foldl_prep_input st.weight_nodes node.input
        (st.node_reference, st.blob_names) a
      simp only at hfold ⊢
      rw [hfold, hw]
      by_cases hwa : mhas st.weight_nodes a = true
      · simp [hwa]
      · simp [hwa]; omega

theorem counted_slots_of_weight (a : String) (nodes : List NodeProto) (st st' : Prep)
    (h : prep_nodes st nodes = some st') (ha : mhas st.weight_nodes a = true) :
    counted_slots a st nodes = 0 := by
  induction nodes generalizing st with
  | nil => rfl
  | cons node nodes ih =>
    obtain ⟨st1, h1, h2⟩ := prep_nodes_cons h
    rw [counted_slots_cons a h1, ih st1 h2 (prep_node_weights_mono h1 a ha)]
    simp [ha]

theorem counted_slots_of_ready (w0 : List (String × Nat)) (a : String)
    (nodes : List NodeProto) (st st' : Prep) (h : prep_nodes st nodes = some st')
    (hready : constants_ready w0 st nodes = true) (ha : mhas w0 a = true) :
    counted_slots a st nodes = 0 := by
  induction nodes generalizing st with
  | nil => rfl
  | cons node nodes ih =>
    obtain ⟨st1, h1, h2⟩ := prep_nodes_cons h
    unfold constants_ready at hready
    simp only [h1, Bool.and_eq_true, List.all_eq_true, Bool.or_eq_true,
      Bool.not_eq_true_eq_eq_false] at hready
    rw [counted_slots_cons a h1, ih st1 h2 hready.2]
    by_cases hc : (is_weight_reshape st.weight_nodes node || mhas st.weight_nodes a) = true
    · simp [hc]
    · simp only [hc, Bool.false_eq_true, if_false, Nat.add_zero]
      apply List.count_eq_zero.2
      intro hin
      rcases hready.1 a hin with hf | ht
      · rw [ha] at hf; cases hf
      · simp [ht] at hc

theorem mfind_none_of_ref_count {nr : List (String × Int)} {a : String}
    (hpos : ∀ k v, mfind nr k = some v → 1 ≤ v) (h0 : ref_count nr a = 0) :
    mfind nr a = none := by
  cases hf : mfind nr a with
  | none => rfl
  | some v =>
    have := hpos a v hf
    simp only [ref_count, hf, Option.getD_some] at h0
    omega

theorem mhas_init_weights_mono (ts : List TensorProto) (m : List (String × Nat)) (j : Nat)
    (k : String) (h : mhas m k = true) : mhas (init_weights m j ts) k = true := by
  induction ts generalizing m j with
  | nil => exact h
  | cons t ts ih =>
    unfold init_weights
    exact ih _ _ (mhas_mset_of_mhas _ _ _ _ h)

theorem mhas_init_weights_mem (ts : List TensorProto) (m : List (String × Nat)) (j : Nat)
    (t : TensorProto) (ht : t ∈ ts) : mhas (init_weights m j ts) t.name = true := by
  induction ts generalizing m j with
  | nil => cases ht
  | cons t' ts ih =>
    unfold init_weights
    rcases List.mem_cons.1 ht with rfl | ht
    · apply mhas_init_weights_mono
      simp [mhas_mset]
    · exact ih _ _ ht

theorem mhas_elided_names (nodes : List NodeProto) (st st' : Prep)
    (h : prep_nodes st nodes = some st') :
    ∀ a ∈ elided_names st nodes, mhas st'.weight_nodes a = true := by
  induction nodes generalizing st with
  | nil => intro a ha; simp [elided_names] at ha
  | cons node nodes ih =>
    obtain ⟨st1, h1, h2⟩ := prep_nodes_cons h
    intro a ha
    rw [elided_names_cons h1] at ha
    rcases List.mem_append.1 ha with hl | hr
    · rcases prep_node_cases h1 with ⟨hw, name, hname, rfl⟩ | ⟨hw, rfl⟩
      · simp only [hw, if_true, hname, Option.getD_some, List.mem_singleton] at hl
        subst hl
        apply prep_nodes_weights_mono h2
        simp [register_alias, mhas_mset]
      · simp [hw] at hl
    · exact ih st1 h2 a hr

/-- C21, as stated, fails: in `graph_name_clash` the declared input `a` is read
by two nodes, and a later weight reshape has the node name `a`. No output is
read before it is written. The first pass counts `a` twice and then registers
`a` in the weight map, so `a` is a key of both maps, before and after the
pruning, and it is the name of a skipped reshape node. -/
theorem C21_counterexample :
    outputs_fresh [] graph_name_clash.node = true ∧
    elided_names (prep_start graph_name_clash) graph_name_clash.node = ["a"] ∧
    (prep_pass graph_name_clash).map
        (fun s => (mfind s.weight_nodes "a", mfind s.node_reference "a"))
      = some (some 0, some 2) ∧
    (header graph_name_clash).map
        (fun h => (mfind h.weight_nodes "a", mfind h.node_reference "a"))
      = some (some 0, some 2) := by
  decide

/-- C21, amended: after the first pass no initializer name is a key of
`node_reference`, for every graph. When moreover every input that is a key of
the final weight map is a key already when its node is visited, no name is a
key of both `weight_nodes` and `node_reference`, before the pruning and after
it, and the name registered by a skipped reshape node is no key of
`node_reference`. -/
theorem C21_weights_not_counted (graph : GraphProto) (pst : Prep)
    (hp : prep_pass graph = some pst) :
    (∀ t ∈ graph.initializer, mfind pst.node_reference t.name = none) ∧
    (constants_ready pst.weight_nodes (prep_start graph) graph.node = true →
      (∀ a, mhas pst.weight_nodes a = true → mfind pst.node_reference a = none) ∧
      (∀ a ∈ elided_names (prep_start graph) graph.node,
        mfind pst.node_reference a = none) ∧
      (∀ h, header graph = some h → ∀ a, mhas h.weight_nodes a = true →
        mfind h.node_reference a = none)) := by
  have hinv := prep_nodes_inv graph.node (prep_start graph) pst hp
    (by intro k v hk; simp [prep_start, mfind] at hk) (by simp [prep_start, keys])
  have hcnt : ∀ a, ref_count pst.node_reference a
      = counted_slots a (prep_start graph) graph.node := by
    intro a
    have := prep_nodes_counted a graph.node (prep_start graph) pst hp
    simpa [prep_start, ref_count, mfind] using this
  constructor
  · intro t ht
    apply mfind_none_of_ref_count hinv.1
    rw [hcnt, counted_slots_of_weight t.name graph.node (prep_start graph) pst hp
      (mhas_init_weights_mem _ _ _ t ht)]
    rfl
  · intro hT
    have hall : ∀ a, mhas pst.weight_nodes a = true → mfind pst.node_reference a = none := by
      intro a ha
      apply mfind_none_of_ref_count hinv.1
      rw [hcnt, counted_slots_of_ready pst.weight_nodes a graph.node (prep_start graph) pst
        hp hT ha]
      rfl
    refine ⟨hall, ?_, ?_⟩
    · intro a ha
      exact hall a (mhas_elided_names graph.node (prep_start graph) pst hp a ha)
    · intro h hh a ha
      obtain ⟨pst', hp', hwn, hr, _, _, _⟩ := header_cases hh
      rw [hp] at hp'
      cases hp'
      rw [hr]
      exact mfind_filter_none _ _ _ (hall a (by rw [← hwn]; exact ha))

/-- Witness of C21: the graph with a reshaped weight and a value read twice. -/
theorem C21_weights_not_counted_witness :
    constants_ready ((prep_pass graph_fanout).get (by decide)).weight_nodes
        (prep_start graph_fanout) graph_fanout.node = true ∧
    (∀ a, mhas ((prep_pass graph_fanout).get (by decide)).weight_nodes a = true →
      mfind ((prep_pass graph_fanout).get (by decide)).node_reference a = none) ∧
    (∀ a ∈ elided_names (prep_start graph_fanout) graph_fanout.node,
      mfind ((prep_pass graph_fanout).get (by decide)).node_reference a = none) ∧
    (∀ h, header graph_fanout = some h → ∀ a, mhas h.weight_nodes a = true →
      mfind h.node_reference a = none) :=
  ⟨by decide,
    (C21_weights_not_counted graph_fanout ((prep_pass graph_fanout).get (by decide))
      (by decide)).2 (by decide)⟩

/-- C22: after the first pass and the pruning, `node_reference` maps a name to
`c` exactly when `c >= 2` and `c` is the number of input slots that name it on
the nodes that are not skipped, counted while the name is not a key of the
weight map; a name with at most one such slot is not a key. -/
theorem C22_pruned_counts (graph : GraphProto) (h : Header) (hh : header graph = some h)
    (a : String) :
    (∀ c, mfind h.node_reference a = some c ↔
      (2 ≤ c ∧ c = counted_slots a (prep_start graph) graph.node)) ∧
    (counted_slots a (prep_start graph) graph.node ≤ 1 → mfind h.node_reference a = none) := by
  obtain ⟨pst, hp, _, hr, _, _, _⟩ := header_cases hh
  have hinv := prep_nodes_inv graph.node (prep_start graph) pst hp
    (by intro k v hk; simp [prep_start, mfind] at hk) (by simp [prep_start, keys])
  have hcnt : ref_count pst.node_reference a
      = counted_slots a (prep_start graph) graph.node := by
    have := prep_nodes_counted a graph.node (prep_start graph) pst hp
    simpa [prep_start, ref_count, mfind] using this
  have hrc := header_ref_count hp hr a
  cases hf : mfind pst.node_reference a with
  | none =>
    simp only [hf] at hrc
    simp only [ref_count, hf, Option.getD_none] at hcnt
    constructor
    · intro c
      rw [hrc]
      constructor
      · intro hc; cases hc
      · rintro ⟨h2, rfl⟩; omega
    · intro _; exact hrc
  | some v =>
    have hv := hinv.1 a v hf
    simp only [hf] at hrc
    simp only [ref_count, hf, Option.getD_some] at hcnt
    by_cases hv1 : v = 1
    · have hnone : mfind h.node_reference a = none := by
        rw [hrc]; simp [hv1]
      constructor
      · intro c
        rw [hnone]
        constructor
        · intro hc; cases hc
        · rintro ⟨h2, rfl⟩; omega
      · intro _; exact hnone
    · have hsome : mfind h.node_reference a = some v := by
        rw [hrc]; simp [hv1]
      constructor
      · intro c
        rw [hsome]
        constructor
        · intro hc
          simp only [Option.some.injEq] at hc
          subst hc
          exact ⟨by omega, hcnt⟩
        · rintro ⟨_, rfl⟩
          rw [hcnt]
      · intro hle; omega

/-- Witness of C22: the name read by three nodes has the count 3. -/
theorem C22_pruned_counts_witness :
    (∀ c, mfind ((header graph_three_consumers).get (by decide)).node_reference "a" = some c ↔
      (2 ≤ c ∧ c = counted_slots "a" (prep_start graph_three_consumers)
        graph_three_consumers.node)) ∧
    (counted_slots "a" (prep_start graph_three_consumers) graph_three_consumers.node ≤ 1 →
      mfind ((header graph_three_consumers).get (by decide)).node_reference "a" = none) :=
  C22_pruned_counts graph_three_consumers ((header graph_three_consumers).get (by decide))
    (by decide) "a"

/-! ## The counts declared on a line -/

theorem foldl_count_inputs (w : List (String × Nat)) (xs : List String) (n : Int) :
    xs.foldl (fun n input_name => if mhas w input_name then n - 1 else n) n
      = n - ((xs.filter (fun x => mhas w x)).length : Int) := by
  induction xs generalizing n with
  | nil => simp
  | cons x xs ih =>
    rw [List.foldl_cons, ih, List.filter_cons]
    by_cases hw : mhas w x = true
    · simp [hw]; ring
    · simp [hw]

theorem count_inputs_eq (w : List (String × Nat)) (node : NodeProto) :
    count_inputs w node = ((node.input.filter (fun x => !mhas w x)).length : Int) := by
  unfold count_inputs
  rw [foldl_count_inputs]
  have := List.length_eq_length_filter_add (l := node.input) (fun x => mhas w x)
  omega

theorem emit_inputs_bases (w : List (String × Nat)) (xs : List String)
    (nr : List (String × Int)) :
    (emit_inputs w nr xs).2.map (fun r => r.base) = xs.filter (fun x => !mhas w x) := by
  induction xs generalizing nr with
  | nil => rfl
  | cons x xs ih =>
    unfold emit_inputs
    rw [List.filter_cons]
    by_cases hw : mhas w x = true
    · simp only [hw, if_true, Bool.not_true, Bool.false_eq_true, if_false]
      exact ih nr
    · simp only [hw, Bool.false_eq_true, if_false]
      simp only [Bool.not_eq_true] at hw
      cases hf : mfind nr x with
      | none => simp [hw, ih]
      | some c => simp [hw, ih]

theorem length_split_outputs (o : String) (c : Int) :
    (split_outputs o c).length = c.toNat := by
  simp [split_outputs]

theorem emit_splits_counts (nr : List (String × Int)) (os : List String) (k : Nat) :
    ∀ l ∈ (emit_splits nr k os).2, counts_declared l := by
  intro l hl
  obtain ⟨o, c, j, _, _, hc, rfl⟩ := emit_splits_form nr os k l hl
  refine ⟨rfl, ?_, ?_⟩
  · simp only [Line.layer, length_split_outputs]
    omega
  · intro layer hlayer
    cases hlayer
    exact ⟨rfl, by simp only []; omega⟩

theorem emit_graph_inputs_counts (w : List (String × Nat)) (xs : List String) :
    ∀ l ∈ emit_graph_inputs w xs, counts_declared l := by
  intro l hl
  obtain ⟨x, rfl⟩ := emit_graph_inputs_form w xs l hl
  refine ⟨rfl, rfl, ?_⟩
  intro layer hlayer
  cases hlayer

/-- The line of a node that is not skipped: the names written for its inputs
are those that are not keys of the weight map, in order, and the counts
declared are the numbers of names. -/
theorem emit_node_line {fadd : F32 → F32 → F32} {graph : GraphProto} {st st1 : Emit}
    {node : NodeProto} (h1 : emit_node fadd graph st node = some st1)
    (hw : is_weight_reshape st.weight_nodes node = false) :
    ∃ layer splits, st1.pp = st.pp ++ Line.node layer :: splits ∧
      (∀ l ∈ splits, l.is_split = true ∧ counts_declared l) ∧
      layer.inputs.map (fun r => r.base)
        = node.input.filter (fun x => !mhas st.weight_nodes x) ∧
      layer.input_size = ((node.input.filter (fun x => !mhas st.weight_nodes x)).length : Int) ∧
      layer.outputs = node.output.map (fun o => (⟨o, none⟩ : BlobRef)) ∧
      layer.output_size = (node.output.length : Int) := by
  rcases emit_node_cases h1 with ⟨hw', _⟩ | ⟨_, name, low, _, _, rfl⟩
  · rw [hw] at hw'; cases hw'
  · refine ⟨_, _, rfl, ?_, emit_inputs_bases _ _ _, count_inputs_eq _ _, rfl, rfl⟩
    intro l hl
    exact ⟨emit_splits_all_split _ _ _ l hl, emit_splits_counts _ _ _ l hl⟩

theorem emit_node_counts {fadd : F32 → F32 → F32} {graph : GraphProto} {st st1 : Emit}
    {node : NodeProto} (h1 : emit_node fadd graph st node = some st1)
    (hinv : ∀ l ∈ st.pp, counts_declared l) : ∀ l ∈ st1.pp, counts_declared l := by
  by_cases hw : is_weight_reshape st.weight_nodes node = true
  · rcases emit_node_cases h1 with ⟨_, name, _, rfl⟩ | ⟨hw', _⟩
    · exact hinv
    · rw [hw] at hw'; cases hw'
  · simp only [Bool.not_eq_true] at hw
    obtain ⟨layer, splits, hpp, hsp, hin, his, hout, hos⟩ := emit_node_line h1 hw
    intro l hl
    rw [hpp] at hl
    rcases List.mem_append.1 hl with hl | hl
    · exact hinv l hl
    · rcases List.mem_cons.1 hl with rfl | hl
      · refine ⟨?_, ?_, ?_⟩
        · simp only [Line.layer]
          rw [his, ← hin, List.length_map]
        · simp only [Line.layer]
          rw [hos, hout, List.length_map]
        · intro layer' hlayer
          cases hlayer
      · exact (hsp l hl).2

theorem emit_nodes_counts {fadd : F32 → F32 → F32} {graph : GraphProto}
    (nodes : List NodeProto) (st st' : Emit)
    (h : emit_nodes fadd graph st nodes = some st')
    (hinv : ∀ l ∈ st.pp, counts_declared l) : ∀ l ∈ st'.pp, counts_declared l := by
  induction nodes generalizing st with
  | nil => simp only [emit_nodes, Option.some.injEq] at h; subst h; exact hinv
  | cons node nodes ih =>
    obtain ⟨st1, h1, h2⟩ := emit_nodes_cons h
    exact ih st1 h2 (emit_node_counts h1 hinv)

/-- C23: on every line printed after the header the declared input count is
the number of input names written and the declared output count is the number
of output names written, and a `Split` line declares one input; for every node,
reached by the second pass in state `se`, that is not skipped, the line is
appended with the node's input names that are not keys of the weight map, in
order, as the names written (each with or without a split index), the number
of those as the declared input count, and the node's output names and their
number; it is followed by `Split` lines only. A name counts as written once per
`fprintf` of it, whatever its characters. -/
theorem C23_declared_counts (fadd : F32 → F32 → F32) (graph : GraphProto)
    (h : Header) (st : Emit) (hc : convert fadd graph = some (h, st)) :
    (∀ l ∈ st.pp, counts_declared l) ∧
    (∀ pre nd post, graph.node = pre ++ nd :: post →
      ∃ se se1, emit_nodes fadd graph (emit_start graph h) pre = some se ∧
        emit_node fadd graph se nd = some se1 ∧
        (is_weight_reshape se.weight_nodes nd = true → se1.pp = se.pp) ∧
        (is_weight_reshape se.weight_nodes nd = false →
          ∃ layer splits, se1.pp = se.pp ++ Line.node layer :: splits ∧
            (∀ l ∈ splits, l.is_split = true ∧ counts_declared l) ∧
            layer.inputs.map (fun r => r.base)
              = nd.input.filter (fun x => !mhas se.weight_nodes x) ∧
            layer.input_size
              = ((nd.input.filter (fun x => !mhas se.weight_nodes x)).length : Int) ∧
            layer.outputs = nd.output.map (fun o => (⟨o, none⟩ : BlobRef)) ∧
            layer.output_size = (nd.output.length : Int))) := by
  obtain ⟨_, he⟩ := convert_cases hc
  constructor
  · apply emit_nodes_counts graph.node (emit_start graph h) st he
    simp only [emit_start]
    exact emit_graph_inputs_counts _ _
  · intro pre nd post hg
    rw [hg] at he
    obtain ⟨se, he1, he2⟩ := emit_nodes_append pre (nd :: post) he
    obtain ⟨se1, he3, _⟩ := emit_nodes_cons he2
    refine ⟨se, se1, he1, he3, ?_, emit_node_line he3⟩
    intro hw
    rcases emit_node_cases he3 with ⟨_, name, _, rfl⟩ | ⟨hw', _⟩
    · rfl
    · rw [hw] at hw'; cases hw'

/-- Witness of C23: the lines of `graph_fanout`, an `Input` line, three node
lines and a `Split` line. -/
theorem C23_declared_counts_witness :
    (∀ l ∈ ((convert fadd_bits graph_fanout).get (by decide)).2.pp, counts_declared l) ∧
    (∀ pre nd post, graph_fanout.node = pre ++ nd :: post →
      ∃ se se1, emit_nodes fadd_bits graph_fanout
          (emit_start graph_fanout ((convert fadd_bits graph_fanout).get (by decide)).1) pre
          = some se ∧
        emit_node fadd_bits graph_fanout se nd = some se1 ∧
        (is_weight_reshape se.weight_nodes nd = true → se1.pp = se.pp) ∧
        (is_weight_reshape se.weight_nodes nd = false →
          ∃ layer splits, se1.pp = se.pp ++ Line.node layer :: splits ∧
            (∀ l ∈ splits, l.is_split = true ∧ counts_declared l) ∧
            layer.inputs.map (fun r => r.base)
              = nd.input.filter (fun x => !mhas se.weight_nodes x) ∧
            layer.input_size
              = ((nd.input.filter (fun x => !mhas se.weight_nodes x)).length : Int) ∧
            layer.outputs = nd.output.map (fun o => (⟨o, none⟩ : BlobRef)) ∧
            layer.output_size = (nd.output.length : Int))) :=
  C23_declared_counts fadd_bits graph_fanout
    ((convert fadd_bits graph_fanout).get (by decide)).1
    ((convert fadd_bits graph_fanout).get (by decide)).2 (by decide)

end Onnx2Ncnn
